import Mathlib

/-!
Verification of the YAPP PE-parsing library (frank2/yapp) against its
natural-language specification.  The C++ sources under scrutiny are
`include/yapp/memory.hpp`, `include/yapp/pe.hpp`,
`include/yapp/headers/section.hpp`, `include/yapp/address.hpp` and
`include/yapp/headers/raw.hpp`.  Every definition below is a shallow
embedding translated from a concrete C++ function; comments cite the
source location that each definition mirrors.

Modelling conventions:
* machine integers are `Nat` with explicit reductions `% 2^32` / `% 2^64`
  exactly where the C++ arithmetic can wrap;
* C++ exceptions become `Except Err`; the exception classes of
  `exception.hpp` are the constructors of `Err`.  The spec's
  `DanglingView` error is `InvalidPointerException` in the code
  ("was invalidated before it could be used", exception.hpp:297) and is
  the `Err.invalidPointer` constructor here;
* the process-wide `MemoryManager` singleton (memory.hpp:47-205) becomes
  an explicit state record `Mgr` threaded through the operations.  Its
  recursive member functions (`ref`/`deref`/`invalidate`) have no
  structural termination measure in C++ (reference cycles make them
  genuinely partial), so they are modelled with an explicit fuel
  parameter; theorems quantify over sufficient fuel;
* heap contents are a function `Nat → Nat` from byte addresses to byte
  values; an access that fails before its heap read is modelled by a
  result that does not depend on the heap argument at all, which is how
  "reads through a stale view must not touch memory" is stated;
* the raw header structures are modelled with the Microsoft wire layout
  (the `YAPP_WIN32` branch of raw.hpp aliases the `windows.h`
  definitions; notably `Magic` is 16 bits wide there).
-/

deriving instance DecidableEq for Except

namespace Yapp

/-- Error kinds, one constructor per exception class of
`include/yapp/exception.hpp`.  `invalidPointer` is the dangling-view
error (`InvalidPointerException`, exception.hpp:297-312), which the
specification's error table names `DanglingView`. -/
inductive Err where
  | outOfBounds (offset size : Nat)
  | alignment
  | insufficientData
  | nullPointer
  | searchTooBroad
  | insufficientAllocation (attempted needed : Nat)
  | badAllocation
  | notAllocated
  | invalidDOSSignature (sig : Nat)
  | invalidNTSignature (sig : Nat)
  | unexpectedOptionalMagic (magic : Nat)
  | invalidOffset (value : Nat)
  | invalidRVA (value : Nat)
  | invalidVA (value : Nat)
  | sectionNotFound
  | sectionTableOverflow
  | unsupportedArchitecture
  | openFileFailure
  | directoryUnavailable (index : Nat)
  | invalidPointer (addr size : Nat)
  deriving DecidableEq, Repr

/-! ### The tracker maps

The `MemoryManager` keeps three `std::map`s keyed by `(address, size)`
pairs (memory.hpp:50-53).  A `std::map` is extensionally a partial
function from keys, and only pointwise lookups, inserts and erases
occur in the tracker code, so the maps are modelled as functions
`Key → Option β`.  `Key` is the `(const void *, std::size_t)` pair; a
null pointer is address 0. -/

/-- A tracker key: the `(pointer, byte size)` pair used by
`MemoryManager` (memory.hpp:50). -/
abbrev Key := Nat × Nat

/-- Insert-or-assign (`map[k] = v`). -/
def mapSet {β : Type} (f : Key → Option β) (k : Key) (v : β) : Key → Option β :=
  fun x => if x = k then some v else f x

/-- Erase a key (`std::map::erase`). -/
def mapErase {β : Type} (f : Key → Option β) (k : Key) : Key → Option β :=
  fun x => if x = k then none else f x

/-- Insert only when the key is absent (`std::map::insert`, which keeps
an existing entry; memory.hpp:143). -/
def mapInsertNew {β : Type} (f : Key → Option β) (k : Key) (v : β) : Key → Option β :=
  match f k with
  | some _ => f
  | none => mapSet f k v

/-- Membership-preserving set insertion (`std::set::insert`,
memory.hpp:150): append when not already present. -/
def linsertNew (k : Key) (l : List Key) : List Key :=
  if k ∈ l then l else l ++ [k]

/-- Remove one occurrence of an element from a list
(`std::set::erase`, memory.hpp:174). -/
def lerase (k : Key) : List Key → List Key
  | [] => []
  | k' :: rest => if k' = k then rest else k' :: lerase k rest

/-! ### The MemoryManager model -/

/-- The process-wide region tracker (`MemoryManager`, memory.hpp:47-205):
a reference count per `(address, size)` key, a child-set map and a
parent map. -/
structure Mgr where
  rc : Key → Option Nat
  par : Key → Option Key
  chl : Key → Option (List Key)

/-- The empty tracker state. -/
def Mgr.empty : Mgr := ⟨fun _ => none, fun _ => none, fun _ => none⟩

/-- The children list registered under a key (empty when absent). -/
def childrenOf (m : Mgr) (k : Key) : List Key :=
  (m.chl k).getD []

/-- Validity test (`MemoryManager::is_valid`, memory.hpp:68-72): the key
is present in the refcount map with a positive count. -/
def isValid (m : Mgr) (k : Key) : Bool :=
  match m.rc k with
  | some n => 0 < n
  | none => false

/-- Modulus of a 64-bit `std::size_t`. -/
def two64 : Nat := 2 ^ 64

/-- Wrapping decrement of a `std::size_t` count (`--iter->second`,
memory.hpp:112): decrementing 0 wraps to `2^64 - 1`. -/
def decWrap (n : Nat) : Nat := (n + (two64 - 1)) % two64

/-- Wrapping increment of a `std::size_t` count (`++this->refcount.at(key)`,
memory.hpp:84). -/
def incWrap (n : Nat) : Nat := (n + 1) % two64

/-- A call into the mutually recursive tracker walkers: `deref`
(memory.hpp:100-127) or `invalidate` (memory.hpp:155-204, the Bool is
the `derefed_parent` flag). -/
inductive MCall where
  | deref (k : Key)
  | inval (k : Key) (derefed : Bool)
  deriving DecidableEq, Repr

/-- One fuel-bounded run of `MemoryManager::deref` /
`MemoryManager::invalidate`.  The two C++ members recurse into each
other through the parent and child maps with no termination measure
(cyclic parent chains make them genuinely partial), hence the fuel.
Body order follows the source exactly:
`deref` (memory.hpp:100-127): missing key returns immediately; otherwise
the count is decremented (with `size_t` wraparound), the parent is
dereferenced, and a count that reached zero triggers
`invalidate(key, true)`.
`invalidate` (memory.hpp:155-204): missing key returns immediately;
otherwise the key is erased from the refcount map; if a parent is
registered the key is removed from the parent's child set and, unless
`derefed` is set, the parent is dereferenced; then every child in a copy
of the child set is invalidated, the child set is erased, and the parent
entry is erased.  The C++ `children.at(parent_key)` would raise
`std::out_of_range` when the parent has no child set; the model updates
nothing in that case, and the theorems below only use states whose edges
are consistent, where the entry always exists.  The bodies are factored
into named phases with the recursive calls abstracted as `rec`;
`mgrRun` ties the knot with the fuel.  This is the parent dereference
of `deref` (memory.hpp:117-119). -/
def derefParent (rec : MCall → Mgr → Mgr) (k : Key) (m1 : Mgr) : Mgr :=
  match m1.par k with
  | some p => rec (MCall.deref p) m1
  | none => m1

/-- The body of `MemoryManager::deref` (memory.hpp:100-127): a missing
key returns immediately; otherwise the count is decremented (with
`size_t` wraparound), the parent is dereferenced, and a count that
reached zero triggers `invalidate(key, true)`. -/
def derefBody (rec : MCall → Mgr → Mgr) (k : Key) (m : Mgr) : Mgr :=
  match m.rc k with
  | none => m
  | some cnt =>
    let value := decWrap cnt
    let m2 := derefParent rec k { m with rc := mapSet m.rc k value }
    if value = 0 then rec (MCall.inval k true) m2 else m2

/-- The removal of the invalidated key from its parent's child set
(memory.hpp:170-176, the `children.at(parent_key).erase(key)` call). -/
def invalChl (k p : Key) (m1 : Mgr) : Mgr :=
  match m1.chl p with
  | some kids => { m1 with chl := mapSet m1.chl p (lerase k kids) }
  | none => m1

/-- The parent phase of `MemoryManager::invalidate` (memory.hpp:166-182):
when a parent is registered the key is removed from its child set and,
unless `derefed` is set, the parent is dereferenced. -/
def invalParent (rec : MCall → Mgr → Mgr) (k : Key) (derefed : Bool) (m1 : Mgr) : Mgr :=
  match m1.par k with
  | some p =>
    let m1a := invalChl k p m1
    if derefed then m1a else rec (MCall.deref p) m1a
  | none => m1

/-- The child cascade of `MemoryManager::invalidate` (memory.hpp:184-196):
every child in a copy of the child set is invalidated. -/
def invalKids (rec : MCall → Mgr → Mgr) (k : Key) (m2 : Mgr) : Mgr :=
  (childrenOf m2 k).foldl (fun acc c => rec (MCall.inval c false) acc) m2

/-- The final map cleanup of `MemoryManager::invalidate`
(memory.hpp:198-203): the child-set and parent entries are erased. -/
def invalFinish (k : Key) (m3 : Mgr) : Mgr :=
  { m3 with chl := mapErase m3.chl k, par := mapErase m3.par k }

/-- The body of `MemoryManager::invalidate` (memory.hpp:155-204): a
missing key returns immediately; otherwise the key is erased from the
refcount map and the parent, cascade and cleanup phases run in source
order. -/
def invalBody (rec : MCall → Mgr → Mgr) (k : Key) (derefed : Bool) (m : Mgr) : Mgr :=
  match m.rc k with
  | none => m
  | some _ =>
    invalFinish k (invalKids rec k (invalParent rec k derefed { m with rc := mapErase m.rc k }))

/-- One fuel-bounded run of the mutually recursive pair: out of fuel is
the identity, otherwise the corresponding body runs with the recursive
calls given one unit less fuel. -/
def mgrRun : Nat → MCall → Mgr → Mgr
  | 0, _, m => m
  | Nat.succ fuel, MCall.deref k, m => derefBody (mgrRun fuel) k m
  | Nat.succ fuel, MCall.inval k derefed, m => invalBody (mgrRun fuel) k derefed m

/-- Fuel-bounded `MemoryManager::ref` (memory.hpp:74-98): insert a zero
count when the key is new, increment it, then recursively reference the
parent chain. -/
def refRun : Nat → Key → Mgr → Mgr
  | 0, _, m => m
  | Nat.succ fuel, k, m =>
    let cnt := (m.rc k).getD 0
    let m1 : Mgr := { m with rc := mapSet m.rc k (incWrap cnt) }
    match m1.par k with
    | some p => refRun fuel p m1
    | none => m1

/-- `MemoryManager::relationship` (memory.hpp:129-153): identical keys
are ignored; otherwise the parent entry is inserted only if absent
(`std::map::insert`) and the child is added to the parent's child set. -/
def relationship (pk ck : Key) (m : Mgr) : Mgr :=
  if pk = ck then m
  else
    let m1 : Mgr := { m with par := mapInsertNew m.par ck pk }
    let kids := (m1.chl pk).getD []
    { m1 with chl := mapSet m1.chl pk (linsertNew ck kids) }

/-! ### The Memory object model

`Memory<T, TIsVariadic>` (memory.hpp:212-2552) is a pointer/size pair
with an ownership flag.  The template parameters become the `elemSize`
(`sizeof(T)`, at least 1) and `variadic` fields.  A null pointer is
address 0. -/

/-- The state of one `Memory` object: `addr`/`msize` are the
pointer/byte-size pair (`pointer`, `_size`), `allocated` the ownership
flag, `elemSize` is `sizeof(T)` and `variadic` is `TIsVariadic`. -/
structure Mem where
  addr : Nat
  msize : Nat
  allocated : Bool
  elemSize : Nat
  variadic : Bool
  deriving DecidableEq, Repr

/-- The tracker key of a memory object. -/
def Mem.key (m : Mem) : Key := (m.addr, m.msize)

/-- `Memory::element_size` (memory.hpp:781-784): the byte size for
variadic regions, `sizeof(T)` otherwise. -/
def Mem.elementSize (m : Mem) : Nat :=
  if m.variadic then m.msize else m.elemSize

/-- `Memory::elements` (memory.hpp:788-791): 0 or 1 for variadic
regions, `_size / sizeof(T)` otherwise. -/
def Mem.elements (m : Mem) : Nat :=
  if m.variadic then (if 0 < m.msize then 1 else 0) else m.msize / m.elemSize

/-- `Memory::ptr` (memory.hpp:751-758): a null pointer is returned as
is; a non-null pointer whose key the tracker does not hold valid raises
`InvalidPointerException` (the dangling-view error); otherwise the
pointer is returned. -/
def ptrFn (g : Mgr) (m : Mem) : Except Err (Option Nat) :=
  if m.addr = 0 then Except.ok none
  else if ¬ isValid g m.key then Except.error (Err.invalidPointer m.addr m.msize)
  else Except.ok (some m.addr)

/-- `Memory::get` (memory.hpp:632-637): a null base pointer raises
`NullPointerException`, an index at or past `elements()` raises
`OutOfBoundsException`, and otherwise the element at
`ptr()[index]` is produced, read from the heap at
`addr + index * sizeof(T)`. -/
def getFn (g : Mgr) (heap : Nat → Nat) (m : Mem) (index : Nat) : Except Err Nat :=
  match ptrFn g m with
  | Except.error e => Except.error e
  | Except.ok none => Except.error Err.nullPointer
  | Except.ok (some a) =>
    if index ≥ m.elements then Except.error (Err.outOfBounds index m.elements)
    else Except.ok (heap (a + index * m.elemSize))

/-- `Memory::throw_if_unallocated` (memory.hpp:297): raises
`NotAllocatedException` for a non-null unallocated region. -/
def throwIfUnallocated (m : Mem) : Except Err Unit :=
  if m.addr ≠ 0 ∧ m.allocated = false then Except.error Err.notAllocated
  else Except.ok ()

/-- The two-size alignment rule (`Memory::aligns_with(std::size_t)`,
memory.hpp:806-815, non-variadic branch): the larger size must be a
multiple of the smaller.  When one operand is 0 the C++ evaluates
`bigger % 0`, integer division by zero, which is undefined behaviour;
Lean's `x % 0 = x` makes this definition return `false` there, and the
theorems below keep away from that point. -/
def alignsPair (a b : Nat) : Bool :=
  Nat.max a b % Nat.min a b = 0

/-- `Memory::aligns_with(std::size_t)` (memory.hpp:806-815): variadic
regions align with everything. -/
def Mem.alignsWithSize (m : Mem) (size : Nat) : Bool :=
  if m.variadic then true else alignsPair m.elementSize size

/-- `Memory::aligns_with<U, UIsVariadic>` (memory.hpp:819-820):
a variadic `U` aligns with everything, otherwise `aligns_with(sizeof U)`. -/
def Mem.alignsWithType (m : Mem) (szU : Nat) (uVar : Bool) : Bool :=
  if uVar then true else m.alignsWithSize szU

/-- `Memory::allocate` (memory.hpp:559-579): deallocate first when
already allocated; sizes are converted to bytes; a byte size below
`sizeof(T)` raises `InsufficientAllocationException`; a null allocator
result raises `BadAllocationException`; the new key is referenced.
`a` stands for the address handed out by `Allocator::allocate`; the
optional initial fill only writes element values (elided: no tracker
effect).  The deallocation branch is `deallocateM` below; the two are
defined together. -/
def allocateM (fuel : Nat) (a : Nat) (g : Mgr) (m : Mem) (size : Nat) (inBytes : Bool) :
    Except Err (Mem × Mgr) :=
  let afterDealloc : Except Err (Mem × Mgr) :=
    if m.allocated then
      match throwIfUnallocated m with
      | Except.error e => Except.error e
      | Except.ok _ =>
        Except.ok ({ m with addr := 0, msize := 0, allocated := false },
          mgrRun fuel (MCall.inval m.key false) g)
    else Except.ok (m, g)
  match afterDealloc with
  | Except.error e => Except.error e
  | Except.ok (m1, g1) =>
    let byteSize := if inBytes then size else size * m1.elemSize
    if byteSize < m1.elemSize then
      Except.error (Err.insufficientAllocation byteSize m1.elemSize)
    else if a = 0 then Except.error Err.badAllocation
    else
      Except.ok ({ m1 with addr := a, msize := byteSize, allocated := true },
        refRun fuel (a, byteSize) g1)

/-- `Memory::deallocate` (memory.hpp:585-595): `throw_if_unallocated`,
then the tracker invalidates the key (which cascades into every
registered descendant), the allocation is freed, and the object becomes
null, empty and unallocated. -/
def deallocateM (fuel : Nat) (g : Mgr) (m : Mem) : Except Err (Mem × Mgr) :=
  match throwIfUnallocated m with
  | Except.error e => Except.error e
  | Except.ok _ =>
    Except.ok ({ m with addr := 0, msize := 0, allocated := false },
      mgrRun fuel (MCall.inval m.key false) g)

/-- The tracker footprint of `Memory::reinterpret<U>` applied to a
region `d` (memory.hpp:1052-1062), including the checks of the
`subsection<U>(0, adjusted)` call it ends in (memory.hpp:1009-1032):
alignment of the two element types, the `InsufficientDataException`
divisibility check, null/validity/bounds checks, then
`MemoryManager::relationship` and the constructor's `ref` on the
sub-view key.  The sub-view starts at `d`'s base pointer with byte size
`(d.msize / szU) * szU`. -/
def reinterpretM (fuel : Nat) (g : Mgr) (d : Mem) (szU : Nat) (uVar : Bool) :
    Except Err (Mem × Mgr) :=
  if ¬ d.alignsWithType szU uVar then Except.error Err.alignment
  else
    let needed := if d.variadic then d.msize / szU else d.elemSize / szU
    let adjusted := d.msize / szU
    if 0 < needed ∧ adjusted % needed ≠ 0 then Except.error Err.insufficientData
    else
      match ptrFn g d with
      | Except.error e => Except.error e
      | Except.ok none => Except.error Err.nullPointer
      | Except.ok (some a) =>
        let byteSize := adjusted * szU
        if 0 ≥ d.msize then Except.error (Err.outOfBounds 0 d.elements)
        else if byteSize > d.msize then
          Except.error (Err.outOfBounds (byteSize / d.elemSize) d.elements)
        else
          let ck : Key := (a, byteSize)
          Except.ok (⟨a, byteSize, false, szU, uVar⟩,
            refRun fuel ck (relationship d.key ck g))

/-- `Memory::write(offset, const Memory<U>&, offset_in_bytes)`
(memory.hpp:1136-1152): null/validity check, offset bound, type
alignment, then the source is reinterpreted to the destination's element
type (a temporary sub-view of the source, dereferenced again when the
statement ends) and copied with `memcpy` (data movement elided; only the
tracker effects and the checks are modelled). -/
def writeMemM (fuel : Nat) (g : Mgr) (dst : Mem) (off : Nat) (d : Mem) (offInBytes : Bool) :
    Except Err Mgr :=
  let fixedOff := if offInBytes then off else off * dst.elemSize
  match ptrFn g dst with
  | Except.error e => Except.error e
  | Except.ok none => Except.error Err.nullPointer
  | Except.ok (some _) =>
    if fixedOff ≥ dst.msize then
      Except.error (Err.outOfBounds (fixedOff / dst.elemSize) dst.elements)
    else if ¬ dst.alignsWithType d.elemSize d.variadic then Except.error Err.alignment
    else
      match reinterpretM fuel g d dst.elemSize dst.variadic with
      | Except.error e => Except.error e
      | Except.ok (sub, g1) =>
        if fixedOff + sub.msize > dst.msize then
          Except.error (Err.outOfBounds ((fixedOff + sub.msize) / dst.elemSize) dst.elements)
        else Except.ok (mgrRun fuel (MCall.deref sub.key) g1)

/-- `Memory::write(offset, const U*, size, size_in_bytes)`
(memory.hpp:1174-1178): a temporary `Memory` is constructed over the
source pointer (its constructor references the key `srcKey` through
`set_memory`, memory.hpp:530-551), the memory-overload write runs, and
the temporary is dereferenced when the call returns. -/
def writePtrM (fuel : Nat) (g : Mgr) (dst : Mem) (off : Nat) (srcKey : Key)
    (srcEs : Nat) (srcVar : Bool) (offInBytes : Bool) : Except Err Mgr :=
  if srcKey.1 = 0 then Except.error Err.nullPointer
  else
    let g1 := refRun fuel srcKey g
    let tempMem : Mem := ⟨srcKey.1, srcKey.2, false, srcEs, srcVar⟩
    match writeMemM fuel g1 dst off tempMem offInBytes with
    | Except.error e => Except.error e
    | Except.ok g2 => Except.ok (mgrRun fuel (MCall.deref srcKey) g2)

/-- `Memory::reallocate` (memory.hpp:603-625): `throw_if_unallocated`;
an unallocated (null) object just allocates; otherwise the old bytes are
copied into a temporary `std::vector`, the region is deallocated and
re-allocated at the allocator's next address `a`, and the saved bytes
are written back through the pointer-overload `write<std::uint8_t>`.
`t` is the address of the temporary vector's buffer. -/
def reallocateM (fuel : Nat) (a t : Nat) (g : Mgr) (m : Mem) (size : Nat) (inBytes : Bool) :
    Except Err (Mem × Mgr) :=
  match throwIfUnallocated m with
  | Except.error e => Except.error e
  | Except.ok _ =>
    if ¬ m.allocated then allocateM fuel a g m size inBytes
    else
      let byteSize := if inBytes then size else size * m.elemSize
      let oldSize := m.msize
      match deallocateM fuel g m with
      | Except.error e => Except.error e
      | Except.ok (m1, g1) =>
        match allocateM fuel a g1 m1 byteSize true with
        | Except.error e => Except.error e
        | Except.ok (m2, g2) =>
          match writePtrM fuel g2 m2 0 (t, Nat.min byteSize oldSize) 1 false true with
          | Except.error e => Except.error e
          | Except.ok g3 => Except.ok (m2, g3)

/-- `Memory::resize` (memory.hpp:2102-2105): `throw_if_unallocated` then
`reallocate`. -/
def resizeM (fuel : Nat) (a t : Nat) (g : Mgr) (m : Mem) (size : Nat) (inBytes : Bool) :
    Except Err (Mem × Mgr) :=
  match throwIfUnallocated m with
  | Except.error e => Except.error e
  | Except.ok _ => reallocateM fuel a t g m size inBytes

/-- `Memory::clear` (memory.hpp:2514-2517): `throw_if_unallocated` then
`deallocate`. -/
def clearM (fuel : Nat) (g : Mgr) (m : Mem) : Except Err (Mem × Mgr) :=
  match throwIfUnallocated m with
  | Except.error e => Except.error e
  | Except.ok _ => deallocateM fuel g m

/-- The byte-sized `Memory::subsection<U>` (memory.hpp:1009-1032 with
`size_in_bytes = true`): null/validity check, offset bound, alignment of
the element types and of the byte size, upper bound, then
`relationship(this, child)` and the sub-view constructor's `ref`.  The
child pointer is `&ptr()[fixed_offset / element_size()]`
(memory.hpp:1027), i.e. `addr + (off / element_size) * sizeof(T)`. -/
def subsectionBytesM (fuel : Nat) (g : Mgr) (m : Mem) (off bsz : Nat)
    (szU : Nat) (uVar : Bool) : Except Err (Mem × Mgr) :=
  match ptrFn g m with
  | Except.error e => Except.error e
  | Except.ok none => Except.error Err.nullPointer
  | Except.ok (some a) =>
    if off ≥ m.msize then Except.error (Err.outOfBounds (off / m.elemSize) m.elements)
    else if ¬ m.alignsWithType szU uVar ∨ ¬ m.alignsWithSize bsz then
      Except.error Err.alignment
    else if off + bsz > m.msize then
      Except.error (Err.outOfBounds ((off + bsz) / m.elemSize) m.elements)
    else
      let childAddr := a + (off / m.elementSize) * m.elemSize
      let ck : Key := (childAddr, bsz)
      Except.ok (⟨childAddr, bsz, false, szU, uVar⟩,
        refRun fuel ck (relationship m.key ck g))

/-- `Memory::split_at` (memory.hpp:1915-1925): bound and alignment
checks (note the source compares the unscaled midpoint against the byte
size, memory.hpp:1918), then two byte-sized subsections covering the
two halves. -/
def splitAtM (fuel : Nat) (g : Mgr) (m : Mem) (mid : Nat) (midInBytes : Bool) :
    Except Err ((Mem × Mem) × Mgr) :=
  let fixedPoint := if midInBytes then mid else mid * m.elemSize
  if mid > m.msize then Except.error (Err.outOfBounds (fixedPoint / m.elemSize) m.elements)
  else if midInBytes ∧ ¬ m.alignsWithSize fixedPoint then Except.error Err.alignment
  else
    match subsectionBytesM fuel g m 0 fixedPoint m.elemSize m.variadic with
    | Except.error e => Except.error e
    | Except.ok (left, g1) =>
      match subsectionBytesM fuel g1 m fixedPoint (m.msize - fixedPoint) m.elemSize m.variadic with
      | Except.error e => Except.error e
      | Except.ok (right, g2) => Except.ok ((left, right), g2)

/-- `Memory::erase(start, end)` (memory.hpp:2444-2470):
`throw_if_unallocated`; offsets scaled by `element_size()`; the
whole-range case deallocates; an end past the byte size raises
`OutOfBoundsException`; otherwise the tail is saved through a temporary
subsection (dereferenced at the end of its statement), the region is
reallocated to the shrunken size (`reallocate(size_delta)` — the source
passes a byte count through the element-count parameter,
memory.hpp:2466) and the tail is written back through the
pointer-overload write (`t2` is the tail vector's buffer address). -/
def eraseM (fuel : Nat) (a t1 t2 : Nat) (g : Mgr) (m : Mem) (start stop : Nat)
    (inBytes : Bool) : Except Err (Mem × Mgr) :=
  match throwIfUnallocated m with
  | Except.error e => Except.error e
  | Except.ok _ =>
    let fs := if inBytes then start else start * m.elementSize
    let fe := if inBytes then stop else stop * m.elementSize
    if fs = 0 ∧ fe = m.msize then deallocateM fuel g m
    else if fe > m.msize then
      Except.error (Err.outOfBounds (fe / m.elementSize) m.elements)
    else
      let tailStep : Except Err Mgr :=
        if fe ≠ m.msize then
          match subsectionBytesM fuel g m fe (m.msize - fe) m.elemSize m.variadic with
          | Except.error e => Except.error e
          | Except.ok (sub, g1) => Except.ok (mgrRun fuel (MCall.deref sub.key) g1)
        else Except.ok g
      match tailStep with
      | Except.error e => Except.error e
      | Except.ok g2 =>
        let sizeDelta := m.msize - (fe - fs)
        match reallocateM fuel a t1 g2 m sizeDelta false with
        | Except.error e => Except.error e
        | Except.ok (m2, g3) =>
          if fe ≠ m.msize then
            let tailBytes := ((m.msize - fe) / m.elemSize) * m2.elementSize
            match writePtrM fuel g3 m2 fs (t2, tailBytes) m.elemSize m.variadic true with
            | Except.error e => Except.error e
            | Except.ok g4 => Except.ok (m2, g4)
          else Except.ok (m2, g3)

/-- `Memory::append(const Memory<U>&)` (memory.hpp:2117-2123):
`throw_if_unallocated`; the argument is reinterpreted to the target
element type (a sub-view of the argument, alive until the call ends);
the region is resized by the argument's byte size (which reallocates and
thereby invalidates every descendant); the data is written at the old
end; the reinterpreted view is dereferenced on scope exit. -/
def appendM (fuel : Nat) (a t : Nat) (g : Mgr) (m : Mem) (d : Mem) :
    Except Err (Mem × Mgr) :=
  match throwIfUnallocated m with
  | Except.error e => Except.error e
  | Except.ok _ =>
    match reinterpretM fuel g d m.elemSize m.variadic with
    | Except.error e => Except.error e
    | Except.ok (dsub, g1) =>
      match resizeM fuel a t g1 m (m.msize + dsub.msize) true with
      | Except.error e => Except.error e
      | Except.ok (m2, g2) =>
        match writeMemM fuel g2 m2 (m2.msize - dsub.msize) dsub true with
        | Except.error e => Except.error e
        | Except.ok g3 => Except.ok (m2, mgrRun fuel (MCall.deref dsub.key) g3)

/-- `Memory::insert(offset, const Memory<U>&, offset_in_bytes)`
(memory.hpp:2267-2282): `throw_if_unallocated`; out-of-range offsets are
rejected (the source writes `return OutOfBoundsException(...)`, which
constructs the exception without throwing and is ill-formed if the
template is ever instantiated; modelled as the evidently intended
throw); the argument is reinterpreted; the region is split (registering
two temporary sub-views); the tail is copied out; the region is
reallocated to the grown size (invalidating every descendant); the new
data and the saved tail are written back (`t2` is the tail vector's
buffer); the temporaries are dereferenced in reverse construction
order. -/
def insertM (fuel : Nat) (a t1 t2 : Nat) (g : Mgr) (m : Mem) (off : Nat) (d : Mem)
    (offInBytes : Bool) : Except Err (Mem × Mgr) :=
  match throwIfUnallocated m with
  | Except.error e => Except.error e
  | Except.ok _ =>
    let fixedOff := if offInBytes then off else off * m.elementSize
    if fixedOff > m.msize then
      Except.error (Err.outOfBounds (fixedOff / m.elementSize) m.elements)
    else
      match reinterpretM fuel g d m.elemSize m.variadic with
      | Except.error e => Except.error e
      | Except.ok (dsub, g1) =>
        match splitAtM fuel g1 m off false with
        | Except.error e => Except.error e
        | Except.ok ((l, r), g2) =>
          match reallocateM fuel a t1 g2 m (m.msize + dsub.msize) true with
          | Except.error e => Except.error e
          | Except.ok (m2, g3) =>
            match writeMemM fuel g3 m2 fixedOff dsub true with
            | Except.error e => Except.error e
            | Except.ok g4 =>
              let tailBytes := (r.msize / m.elemSize) * m.elemSize
              match writePtrM fuel g4 m2 (fixedOff + dsub.msize) (t2, tailBytes)
                  m.elemSize m.variadic true with
              | Except.error e => Except.error e
              | Except.ok g5 =>
                let g6 := mgrRun fuel (MCall.deref r.key) g5
                let g7 := mgrRun fuel (MCall.deref l.key) g6
                Except.ok (m2, mgrRun fuel (MCall.deref dsub.key) g7)

/-- `Memory::split_off` (memory.hpp:2529-2537): `throw_if_unallocated`;
the region is split at the midpoint (two temporary sub-views); the right
half is copied into a fresh owned `Memory` (whose `set_memory` with
`copy = true` allocates at `a1` and writes through the right half's
pointer, memory.hpp:530-551); the region is resized down to the
midpoint (invalidating every descendant); the temporaries are
dereferenced on scope exit.  The returned pair is (shrunken region, the
split-off copy). -/
def splitOffM (fuel : Nat) (a1 a2 t : Nat) (g : Mgr) (m : Mem) (mid : Nat) :
    Except Err ((Mem × Mem) × Mgr) :=
  match throwIfUnallocated m with
  | Except.error e => Except.error e
  | Except.ok _ =>
    match splitAtM fuel g m mid false with
    | Except.error e => Except.error e
    | Except.ok ((l, r), g1) =>
      match ptrFn g1 r with
      | Except.error e => Except.error e
      | Except.ok none => Except.error Err.nullPointer
      | Except.ok (some rp) =>
        let copyBytes := (r.msize / m.elemSize) * m.elemSize
        let base : Mem := ⟨0, 0, false, m.elemSize, m.variadic⟩
        match allocateM fuel a1 g1 base copyBytes true with
        | Except.error e => Except.error e
        | Except.ok (sm, g2) =>
          match writePtrM fuel g2 sm 0 (rp, copyBytes) m.elemSize m.variadic true with
          | Except.error e => Except.error e
          | Except.ok g3 =>
            match resizeM fuel a2 t g3 m mid false with
            | Except.error e => Except.error e
            | Except.ok (m2, g4) =>
              let g5 := mgrRun fuel (MCall.deref r.key) g4
              Except.ok ((m2, sm), mgrRun fuel (MCall.deref l.key) g5)

/-- `Memory::pop` (memory.hpp:2501-2508): an empty region yields
`std::nullopt` without touching anything; otherwise the last element is
read and the region is resized one element shorter. -/
def popFn (fuel : Nat) (a t : Nat) (g : Mgr) (heap : Nat → Nat) (m : Mem) :
    Except Err (Option Nat × Mem × Mgr) :=
  if m.elements = 0 then Except.ok (none, m, g)
  else
    match getFn g heap m (m.elements - 1) with
    | Except.error e => Except.error e
    | Except.ok v =>
      match resizeM fuel a t g m (m.elements - 1) false with
      | Except.error e => Except.error e
      | Except.ok (m2, g2) => Except.ok (some v, m2, g2)

/-- The owned-region mutations of the dangling-view invariant: the
operations of `Memory` that reallocate or free the backing allocation.
Each constructor carries the call's arguments plus the allocator and
temporary-buffer addresses its run consumes. -/
inductive RegionOp where
  | deallocateOp
  | clearOp
  | reallocateOp (size : Nat) (inBytes : Bool) (a t : Nat)
  | resizeOp (size : Nat) (inBytes : Bool) (a t : Nat)
  | appendOp (d : Mem) (a t : Nat)
  | insertOp (off : Nat) (offInBytes : Bool) (d : Mem) (a t1 t2 : Nat)
  | eraseOp (start stop : Nat) (inBytes : Bool) (a t1 t2 : Nat)
  | splitOffOp (mid : Nat) (a1 a2 t : Nat)
  deriving Repr

/-- Dispatch one of the reallocating/freeing operations on a region. -/
def runOp (fuel : Nat) (g : Mgr) (m : Mem) : RegionOp → Except Err (Mem × Mgr)
  | RegionOp.deallocateOp => deallocateM fuel g m
  | RegionOp.clearOp => clearM fuel g m
  | RegionOp.reallocateOp size inBytes a t => reallocateM fuel a t g m size inBytes
  | RegionOp.resizeOp size inBytes a t => resizeM fuel a t g m size inBytes
  | RegionOp.appendOp d a t => appendM fuel a t g m d
  | RegionOp.insertOp off offInBytes d a t1 t2 => insertM fuel a t1 t2 g m off d offInBytes
  | RegionOp.eraseOp start stop inBytes a t1 t2 => eraseM fuel a t1 t2 g m start stop inBytes
  | RegionOp.splitOffOp mid a1 a2 t =>
    match splitOffM fuel a1 a2 t g m mid with
    | Except.error e => Except.error e
    | Except.ok ((m2, _), g2) => Except.ok (m2, g2)

/-! ### Typed reads at byte offsets (`Memory::cast_ptr`) -/

/-- Little-endian decode of `n` bytes of a byte list starting at
`start` (out-of-range bytes read as 0; the call sites stay in range). -/
def decodeLE (bytes : List Nat) : Nat → Nat → Nat
  | _, 0 => 0
  | start, Nat.succ n => bytes.getD start 0 + 256 * decodeLE bytes (start + 1) n

/-- `Memory::cast_ptr<U>(offset, offset_in_bytes = true)`
(memory.hpp:829-844) over a non-variadic region with element size `es`
and byte length `len`, reading a foreign type of size `szU`: bound
check on the offset, the alignment rule applied to the two type sizes
and to the offset itself, bound check on the read's end, and the
element-index bound of the final `get(fixed_offset / sizeof(T))`
(memory.hpp:632-637).  The successful result is the byte position of
the returned pointer, `(o / es) * es`. -/
def castPtrByte (es len szU o : Nat) : Except Err Nat :=
  if o ≥ len then Except.error (Err.outOfBounds (o / es) (len / es))
  else if ¬ alignsPair es szU ∨ ¬ alignsPair es o then Except.error Err.alignment
  else if o + szU > len then Except.error (Err.outOfBounds ((o + szU) / es) (len / es))
  else if o / es ≥ len / es then Except.error (Err.outOfBounds (o / es) (len / es))
  else Except.ok ((o / es) * es)

/-- The value produced by a typed read at a byte offset: the pointer
from `cast_ptr` dereferenced as a little-endian `szU`-byte integer. -/
def castReadByte (bytes : List Nat) (es szU o : Nat) : Except Err Nat :=
  match castPtrByte es bytes.length szU o with
  | Except.error e => Except.error e
  | Except.ok p => Except.ok (decodeLE bytes p szU)

/-! ### Address arithmetic (`Address<T>`, address.hpp:30-62) -/

/-- Modulus of a 32-bit unsigned integer. -/
def two32 : Nat := 2 ^ 32

/-- `Address::operator+` (address.hpp:45): `this->value + other` on the
underlying unsigned type of width modulus `w`, which wraps. -/
def addAddr (w a b : Nat) : Nat := (a + b) % w

/-- `Address::operator-` (address.hpp:47): unsigned subtraction, which
wraps modulo the width. -/
def subAddr (w a b : Nat) : Nat := (a + (w - b % w)) % w

/-- `Address::operator*` (address.hpp:49): unsigned multiplication,
which wraps modulo the width. -/
def mulAddr (w a b : Nat) : Nat := (a * b) % w

/-- `Address::operator/` (address.hpp:51): unsigned division (division
by zero is undefined behaviour in the source; theorems require a
nonzero divisor). -/
def divAddr (a b : Nat) : Nat := a / b

/-! ### Sections and address conversion (`pe.hpp`, `headers/section.hpp`) -/

/-- The section-header fields consulted by address conversion
(raw.hpp:483-497): `Misc.VirtualSize`, `VirtualAddress`,
`SizeOfRawData`, `PointerToRawData`; all are `uint32`. -/
structure SectionRec where
  virtualSize : Nat
  virtualAddress : Nat
  sizeOfRawData : Nat
  pointerToRawData : Nat
  deriving DecidableEq, Repr

/-- `SectionHeader::has_offset` (section.hpp:48-50):
`PointerToRawData <= o < PointerToRawData + SizeOfRawData` with the sum
computed in 32-bit unsigned arithmetic. -/
def SectionRec.hasOffset (s : SectionRec) (o : Nat) : Bool :=
  decide (s.pointerToRawData ≤ o) &&
    decide (o < addAddr two32 s.pointerToRawData s.sizeOfRawData)

/-- `SectionHeader::has_rva` (section.hpp:52-54):
`VirtualAddress <= r < VirtualAddress + Misc.VirtualSize` with the sum
computed in 32-bit unsigned arithmetic. -/
def SectionRec.hasRVA (s : SectionRec) (r : Nat) : Bool :=
  decide (s.virtualAddress ≤ r) &&
    decide (r < addAddr two32 s.virtualAddress s.virtualSize)

/-- `SectionTable::has_offset` (section.hpp:77-87): some section's raw
range contains the offset. -/
def tableHasOffset (ss : List SectionRec) (o : Nat) : Bool :=
  ss.any (fun s => s.hasOffset o)

/-- `SectionTable::has_rva` (section.hpp:89-99). -/
def tableHasRVA (ss : List SectionRec) (r : Nat) : Bool :=
  ss.any (fun s => s.hasRVA r)

/-- `SectionTable::section_by_offset` (section.hpp:101-111): the first
section in table order whose raw range contains the offset;
`SectionNotFoundException` when none does. -/
def sectionByOffset : List SectionRec → Nat → Except Err SectionRec
  | [], _ => Except.error Err.sectionNotFound
  | s :: rest, o => if s.hasOffset o then Except.ok s else sectionByOffset rest o

/-- `SectionTable::section_by_rva` (section.hpp:125-135). -/
def sectionByRVA : List SectionRec → Nat → Except Err SectionRec
  | [], _ => Except.error Err.sectionNotFound
  | s :: rest, r => if s.hasRVA r then Except.ok s else sectionByRVA rest r

/-- No `uint32` overflow in a section's range sums (true of ordinary
PE images; rules the wraparound of `has_offset`/`has_rva` out). -/
def SectionRec.noOverflow (s : SectionRec) : Prop :=
  s.pointerToRawData + s.sizeOfRawData < two32 ∧
    s.virtualAddress + s.virtualSize < two32

/-- Two sections' raw file ranges do not intersect. -/
def rawRangesDisjoint (x y : SectionRec) : Prop :=
  x.pointerToRawData + x.sizeOfRawData ≤ y.pointerToRawData ∨
    y.pointerToRawData + y.sizeOfRawData ≤ x.pointerToRawData

/-- Two sections' virtual ranges do not intersect. -/
def rvaRangesDisjoint (x y : SectionRec) : Prop :=
  x.virtualAddress + x.virtualSize ≤ y.virtualAddress ∨
    y.virtualAddress + y.virtualSize ≤ x.virtualAddress

instance (s : SectionRec) : Decidable s.noOverflow := by
  unfold SectionRec.noOverflow
  exact inferInstance

instance (x y : SectionRec) : Decidable (rawRangesDisjoint x y) := by
  unfold rawRangesDisjoint
  exact inferInstance

instance (x y : SectionRec) : Decidable (rvaRangesDisjoint x y) := by
  unfold rvaRangesDisjoint
  exact inferInstance

/-- An abstraction of the parsed `PE` facade (pe.hpp:13-574): the byte
size of the image buffer (`Memory::size()` of the `uint8_t` region),
the optional header's `SizeOfImage` and `ImageBase` (for `VIRTUAL`
images `image_base()` returns the buffer address instead; that value
is folded into `imageBase`), whether the optional magic is `0x20B`
(64-bit), and the parsed section table.  Header traversal
(`valid_nt_headers` and friends) is abstracted into these fields; the
conversion functions below translate the bodies of the `pe.hpp`
members over them line by line. -/
structure PEView where
  fileSize : Nat
  sizeOfImage : Nat
  imageBase : Nat
  is64 : Bool
  sections : List SectionRec
  deriving Repr

/-- `PE::validate_address(Offset)` (pe.hpp:309-311):
`*offset < this->size()`. -/
def validateOffset (pe : PEView) (o : Nat) : Bool := decide (o < pe.fileSize)

/-- `PE::validate_address(RVA)` (pe.hpp:313-327): the RVA is below the
optional header's `SizeOfImage` (read through the matching 32/64
accessor in both branches). -/
def validateRVA (pe : PEView) (r : Nat) : Bool := decide (r < pe.sizeOfImage)

/-- Modulus shared with `Mgr` counts, reused for `uint64` sums. -/
def two64n : Nat := 2 ^ 64

/-- `PE::validate_address(VA)` (pe.hpp:329-347): image base and size
are fetched and the VA must satisfy
`image_base <= va < image_base + SizeOfImage` (the sum in `uint64`).
For a 64-bit image the source reads the size through
`nt_headers.get_32()` (pe.hpp:336) although the variant holds an
`NTHeaders64`; `std::any_cast` then returns a null pointer and the
dereference is undefined behaviour, modelled as `none`. -/
def validateVA (pe : PEView) (va : Nat) : Option Bool :=
  if pe.is64 then none
  else
    some (decide (pe.imageBase ≤ va) &&
      decide (va < addAddr two64n pe.imageBase pe.sizeOfImage))

/-- `PE::offset_to_rva` (pe.hpp:410-434): invalid offsets are rejected;
an offset in no section's raw range passes through as an RVA when it is
a valid RVA; otherwise the first section containing it maps it with
`rva = offset - PointerToRawData + VirtualAddress` (32-bit wrapping
arithmetic), and the result must be a valid RVA inside the same
section's virtual range. -/
def offsetToRVA (pe : PEView) (o : Nat) : Except Err Nat :=
  if ¬ validateOffset pe o then Except.error (Err.invalidOffset o)
  else if ¬ tableHasOffset pe.sections o then
    (if ¬ validateRVA pe o then Except.error (Err.invalidRVA o) else Except.ok o)
  else
    match sectionByOffset pe.sections o with
    | Except.error e => Except.error e
    | Except.ok s =>
      let rva := addAddr two32 (subAddr two32 o s.pointerToRawData) s.virtualAddress
      if ¬ validateRVA pe rva ∨ ¬ s.hasRVA rva then Except.error (Err.invalidRVA rva)
      else Except.ok rva

/-- `PE::rva_to_offset` (pe.hpp:444-471): the symmetric conversion,
`offset = rva - VirtualAddress + PointerToRawData` through the first
section whose virtual range contains the RVA. -/
def rvaToOffset (pe : PEView) (r : Nat) : Except Err Nat :=
  if ¬ validateRVA pe r then Except.error (Err.invalidRVA r)
  else if ¬ tableHasRVA pe.sections r then
    (if ¬ validateOffset pe r then Except.error (Err.invalidOffset r) else Except.ok r)
  else
    match sectionByRVA pe.sections r with
    | Except.error e => Except.error e
    | Except.ok s =>
      let off := addAddr two32 (subAddr two32 r s.virtualAddress) s.pointerToRawData
      if ¬ validateOffset pe off ∨ ¬ s.hasOffset off then Except.error (Err.invalidOffset off)
      else Except.ok off

/-- `PE::va_to_rva` (pe.hpp:496-507): validate the VA (whose 64-bit
branch is undefined behaviour, hence the `Option` layer), subtract the
image base with a truncating cast to `uint32`, and validate the
resulting RVA. -/
def vaToRVA (pe : PEView) (va : Nat) : Option (Except Err Nat) :=
  match validateVA pe va with
  | none => none
  | some false => some (Except.error (Err.invalidVA va))
  | some true =>
    let rva := subAddr two64n va pe.imageBase % two32
    if ¬ validateRVA pe rva then some (Except.error (Err.invalidRVA rva))
    else some (Except.ok rva)

/-! ### The PE checksum (`pe.hpp:159-215`) -/

/-- A raw image: a byte store indexed by file offset plus the byte
size (`Memory<uint8_t>::size()`). -/
structure Image where
  bytes : Nat → Nat
  isize : Nat

/-- Little-endian decode of `n` in-image bytes at `start`. -/
def imgLE (img : Image) : Nat → Nat → Nat
  | _, 0 => 0
  | start, Nat.succ n => img.bytes start + 256 * imgLE img (start + 1) n

/-- The DOS `e_magic` field (raw.hpp:343, offset 0, `uint16`). -/
def dosMagic (img : Image) : Nat := imgLE img 0 2

/-- The DOS `e_lfanew` field (raw.hpp:361, offset 60, `uint32`). -/
def eLfanew (img : Image) : Nat := imgLE img 60 4

/-- The NT `Signature` field at `e_lfanew` (raw.hpp:465/472). -/
def ntSig (img : Image) : Nat := imgLE img (eLfanew img) 4

/-- The optional header `Magic`, 24 bytes past `e_lfanew` (4 signature
bytes + 20 file-header bytes). -/
def optMagic (img : Image) : Nat := imgLE img (eLfanew img + 24) 2

/-- The file offset of the optional header's `CheckSum` field:
`e_lfanew + 4 + 20 + 64` in both the 32- and 64-bit layouts
(pe.hpp:172-182 computes it by pointer subtraction). -/
def checksumFieldOff (img : Image) : Nat := eLfanew img + 88

/-- The success conditions of `PE::valid_nt_headers` (pe.hpp:121-157):
`dos_header()` casts an `IMAGE_DOS_HEADER` at offset 0 (so the image
holds at least its 64 bytes, memory.hpp:829-844), `valid_dos_header`
checks `e_magic == 'MZ'` (dos.hpp:45-52), `nt_headers_32()` casts an
`IMAGE_NT_HEADERS32` (248 bytes) at `e_lfanew`, the optional magic must
be `0x10B` or `0x20B` (the latter additionally casting the 264-byte
`IMAGE_NT_HEADERS64`), and `throw_invalid` checks
`Signature == 'PE\x5C0\x5C0'` (nt.hpp:69-74).  Raw structures use the
Microsoft wire layout (the `YAPP_WIN32` branch of raw.hpp). -/
def validNtHeadersCheck (img : Image) : Except Err Unit :=
  if ¬ (0 < img.isize ∧ 64 ≤ img.isize) then Except.error (Err.outOfBounds 0 img.isize)
  else if dosMagic img ≠ 0x5A4D then Except.error (Err.invalidDOSSignature (dosMagic img))
  else if ¬ (eLfanew img < img.isize ∧ eLfanew img + 248 ≤ img.isize) then
    Except.error (Err.outOfBounds (eLfanew img) img.isize)
  else if optMagic img = 0x10B then
    (if ntSig img ≠ 0x4550 then Except.error (Err.invalidNTSignature (ntSig img))
     else Except.ok ())
  else if optMagic img = 0x20B then
    (if ¬ (eLfanew img + 264 ≤ img.isize) then
      Except.error (Err.outOfBounds (eLfanew img) img.isize)
     else if ntSig img ≠ 0x4550 then Except.error (Err.invalidNTSignature (ntSig img))
     else Except.ok ())
  else Except.error (Err.unexpectedOptionalMagic (optMagic img))

/-- One dword of the checksum loop (pe.hpp:190-202): a little-endian
32-bit read at `off`, zero-padded when fewer than 4 bytes remain before
the end of the image. -/
def dwordPadded (img : Image) (off : Nat) : Nat :=
  let b := fun j => if off + j < img.isize then img.bytes (off + j) else 0
  b 0 + 256 * (b 1 + 256 * (b 2 + 256 * b 3))

/-- One iteration of the checksum loop (pe.hpp:186-207): the dword at
the checksum field's offset is skipped; otherwise the value is folded
into the accumulator with the carry steps of lines 203-206.  The C++
accumulator is a `uint64` that stays below `2^33`, so plain natural
arithmetic agrees with it. -/
def ckStep (img : Image) (ckOff : Nat) (acc off : Nat) : Nat :=
  if off = ckOff then acc
  else
    let v := dwordPadded img off
    let c := acc % two32 + v + acc / two32
    if c > 0xFFFFFFFF then c % two32 + c / two32 else c

/-- `PE::calculate_checksum` (pe.hpp:172-215): fold the dwords at
offsets `0, 4, 8, ...` below `eof`, then the 16-bit folds of lines
209-211, then add `eof` and mask to 32 bits. -/
def calcChecksum (img : Image) : Nat :=
  let eof := img.isize
  let loopSum := ((List.range ((eof + 3) / 4)).map (fun i => i * 4)).foldl
    (ckStep img (checksumFieldOff img)) 0
  let c1 := loopSum % 2 ^ 16 + loopSum / 2 ^ 16
  let c2 := c1 + c1 / 2 ^ 16
  let c3 := c2 % 2 ^ 16
  (c3 + eof) % two32

/-- `PE::validate_checksum` (pe.hpp:159-170): after `valid_nt_headers`,
compare the optional header's `CheckSum` field (at the same offset in
both layouts) with the calculated checksum. -/
def validateChecksum (img : Image) : Except Err Bool :=
  match validNtHeadersCheck img with
  | Except.error e => Except.error e
  | Except.ok _ => Except.ok (decide (imgLE img (checksumFieldOff img) 4 = calcChecksum img))

/-- Store a 32-bit value little-endian at a file offset (overwriting
the optional header's `CheckSum` field is this with
`off = checksumFieldOff`). -/
def writeLE32 (img : Image) (off v : Nat) : Image :=
  { img with bytes := fun i =>
      if i = off then v % 256
      else if i = off + 1 then v / 256 % 256
      else if i = off + 2 then v / 256 ^ 2 % 256
      else if i = off + 3 then v / 256 ^ 3 % 256
      else img.bytes i }

/-! ### Dynamic wildcard search (`Memory::search_dynamic`) -/

/-- The shift computation of `search_dynamic` (memory.hpp:1740-1748):
the number of leading wildcards of the term. -/
def countLeadingNone : List (Option Nat) → Nat
  | [] => 0
  | none :: rest => countLeadingNone rest + 1
  | some _ :: _ => 0

/-- `Memory::search_dynamic` (memory.hpp:1736-1789) over a byte region:
a term longer than the region is out of bounds; an all-wildcard term is
`SearchTooBroadException`; otherwise every position `i` in
`[shift, size - (term.size - shift)]` holding the first concrete term
value is a candidate, each candidate is checked against the concrete
term entries at positions `shift+1 ..`, and each surviving candidate
contributes `(adjusted, read(adjusted, term.size))` with
`adjusted = i - shift`. -/
def searchDynamic (data : List Nat) (term : List (Option Nat)) :
    Except Err (List (Nat × List Nat)) :=
  if term.length > data.length then
    Except.error (Err.outOfBounds term.length data.length)
  else
    let shift := countLeadingNone term
    if shift = term.length then Except.error Err.searchTooBroad
    else
      let sv := (term.getD shift none).getD 0
      let lastStart := data.length - (term.length - shift)
      let cands := ((List.range (lastStart + 1 - shift)).map (fun i => i + shift)).filter
        (fun i => data.getD i 0 = sv)
      let hits := cands.filter (fun off =>
        (List.range (term.length - (shift + 1))).all (fun j =>
          match term.getD (shift + 1 + j) none with
          | none => true
          | some v => data.getD (off - shift + (shift + 1 + j)) 0 = v))
      Except.ok (hits.map (fun off => (off - shift, (data.drop (off - shift)).take term.length)))

/-! ### Tracker wellformedness

The spec's data model declares the tracker a forest: every child entry
of a child set has the matching parent entry.  These predicates state
that shape; the dangling-view theorems assume them (they hold for
states built by the registration API). -/

/-- Every child set is duplicate-free (`std::set` semantics). -/
def ChlDupFree (g : Mgr) : Prop := ∀ p l, g.chl p = some l → l.Nodup

/-- Every member of a child set has the matching parent entry. -/
def EdgeConsistent (g : Mgr) : Prop :=
  ∀ p l, g.chl p = some l → ∀ c ∈ l, g.par c = some p

/-- The bundled wellformedness of a tracker state. -/
def MgrWF (g : Mgr) : Prop := ChlDupFree g ∧ EdgeConsistent g

/-- The parent of `k` (if any) is no longer in the refcount map: the
precondition under which `invalidate(k, _)`'s parent dereference is a
no-op.  It holds for a root key and is re-established down a cascade. -/
def ParentGone (g : Mgr) (k : Key) : Prop :=
  ∀ p, g.par k = some p → g.rc p = none

/-- The key `c` is registered as a direct sub-view of `p`: the parent
map points `c` at `p` and `c` is in `p`'s child set (the state
`MemoryManager::relationship` plus the constructor's `ref` leave
behind, memory.hpp:129-153). -/
def ChainLink (g : Mgr) (p c : Key) : Prop :=
  g.par c = some p ∧ c ∈ childrenOf g p

/-- A registered descendant chain: each key is a registered sub-view of
the previous one. -/
def ChainFrom (g : Mgr) : Key → List Key → Prop
  | _, [] => True
  | k, c :: rest => ChainLink g k c ∧ ChainFrom g c rest

/-- Every key of the list is present in the refcount map. -/
def AllPresent (g : Mgr) (l : List Key) : Prop :=
  ∀ k ∈ l, g.rc k ≠ none

/-- The key appears in none of the tracker's maps (a fresh address the
allocator or a fresh temporary buffer would produce). -/
def KeyFresh (g : Mgr) (k : Key) : Prop :=
  g.rc k = none ∧ g.par k = none ∧ g.chl k = none

/-- The iterated-parent closure of a key, the set of keys a
`MemoryManager::ref` starting at `k` can visit. -/
inductive ParReach (g : Mgr) : Key → Key → Prop
  | refl (k : Key) : ParReach g k k
  | step (k p x : Key) : g.par k = some p → ParReach g p x → ParReach g k x

/-- The set of keys an `invalidate` cascade that starts at `c` can
erase: `c` itself, plus anything reached by descending through the
child set of a key that is still in the refcount map. -/
inductive ReachD (g : Mgr) (c : Key) : Key → Prop
  | refl : ReachD g c c
  | step (x y : Key) : ReachD g c x → g.rc x ≠ none → y ∈ childrenOf g x →
      ReachD g c y

/-- The parent-edge spine of a chain, without the child-set
memberships. -/
def ParChainF (s : Mgr) : Key → List Key → Prop
  | _, [] => True
  | k, c :: rest => s.par c = some k ∧ ParChainF s c rest

/-- One tracker state evolves into another when entries only decrease:
refcount entries are unchanged or erased, parent entries are unchanged
or erased along with their key's refcount, and child-set membership is
lost only when the child or the parent lost its refcount. -/
def Evolves (m m' : Mgr) : Prop :=
  (∀ v, m'.rc v = m.rc v ∨ m'.rc v = none) ∧
  (∀ v, m'.par v = m.par v ∨ (m'.par v = none ∧ m'.rc v = none)) ∧
  (∀ p w, w ∈ childrenOf m p → w ∈ childrenOf m' p ∨ m'.rc w = none ∨ m'.rc p = none) ∧
  (∀ p w, w ∈ childrenOf m' p → w ∈ childrenOf m p)

/-- A key the tracker has never seen: absent from all three maps and
pointed at by no parent entry (what a fresh allocation address or a
fresh temporary buffer address provides). -/
def Fresh2 (g : Mgr) (k : Key) : Prop :=
  KeyFresh g k ∧ ∀ x, g.par x ≠ some k

/-- Every key at this address is unknown to the tracker (a fresh
address, at any size pairing). -/
def AddrFresh (g : Mgr) (a : Nat) : Prop :=
  ∀ sz, Fresh2 g (a, sz)

/-- The per-operation side conditions of the dangling-view theorem:
the allocator and temporary-buffer addresses an operation consumes are
fresh, argument regions of `append`/`insert` are top-level regions
outside `R`'s tree, and the temporary sub-view keys `split_at` computes
are fresh (or the region's own key).  `ks` is `R`'s registered
descendant chain. -/
def OpSide (g : Mgr) (m : Mem) (ks : List Key) : RegionOp → Prop
  | RegionOp.deallocateOp => True
  | RegionOp.clearOp => True
  | RegionOp.reallocateOp _ _ a t => AddrFresh g a ∧ AddrFresh g t
  | RegionOp.resizeOp _ _ a t => AddrFresh g a ∧ AddrFresh g t
  | RegionOp.appendOp d a t =>
    AddrFresh g a ∧ AddrFresh g t ∧ g.par d.key = none ∧ d.key ∉ m.key :: ks
  | RegionOp.insertOp off _ d a t1 t2 =>
    AddrFresh g a ∧ AddrFresh g t1 ∧ AddrFresh g t2 ∧
    g.par d.key = none ∧ d.key ∉ m.key :: ks ∧
    Fresh2 g (m.addr, off) ∧
    ((m.addr + off, m.msize - off) = m.key ∨ Fresh2 g (m.addr + off, m.msize - off))
  | RegionOp.eraseOp _ stop inB a t1 t2 =>
    AddrFresh g a ∧ AddrFresh g t1 ∧ AddrFresh g t2 ∧
    ((m.addr + stop, m.msize - stop) = m.key ∨ Fresh2 g (m.addr + stop, m.msize - stop))
  | RegionOp.splitOffOp mid a1 a2 t =>
    AddrFresh g a1 ∧ AddrFresh g a2 ∧ AddrFresh g t ∧
    Fresh2 g (m.addr, mid) ∧
    ((m.addr + mid, m.msize - mid) = m.key ∨ Fresh2 g (m.addr + mid, m.msize - mid)) ∧
    a1 ≠ m.addr ∧ a1 ≠ m.addr + mid

/-! ### Concrete instances used by the counterexamples and witnesses -/

/-- A default-constructed byte region (`Memory(false)`,
memory.hpp:318-322): null pointer, zero size, unallocated. -/
def defaultByteMem : Mem := ⟨0, 0, false, 1, false⟩

/-- The input bytes of spec scenario S2. -/
def s2data : List Nat :=
  [0xFF, 0x27, 0x63, 0x58, 0x27, 0x64, 0xFF, 0x27, 0x64, 0x88,
   0x65, 0x43, 0x27, 0x38, 0x48, 0x58, 0x64, 0x27, 0x64]

/-- The wildcard pattern of spec scenario S2. -/
def s2term : List (Option Nat) :=
  [none, some 0x27, some 0x64, none, some 0x27, some 0x64]

/-- Two sections with overlapping raw ranges (`[0, 8)` and `[4, 12)`). -/
def c6s1 : SectionRec := ⟨0x100, 0x1000, 8, 0⟩

/-- See `c6s1`. -/
def c6s2 : SectionRec := ⟨0x100, 0x2000, 8, 4⟩

/-- A PE view whose two sections occupy distinct raw ranges but the
same virtual range, so `rva_to_offset` resolves an RVA produced from
the second section through the first. -/
def peOverlap : PEView :=
  ⟨0x1000, 0x2000, 0x400000, false, [⟨0x200, 0x1000, 0x200, 0x400⟩, ⟨0x200, 0x1000, 0x200, 0x600⟩]⟩

/-- A PE view with one section whose raw size exceeds its virtual size,
so offsets in the raw tail have no valid RVA. -/
def peRawTail : PEView :=
  ⟨0x1000, 0x2000, 0x400000, false, [⟨0x100, 0x1000, 0x200, 0x400⟩]⟩

/-- The tracker state of the dangling-view witness: an owned 16-byte
region at address 100 (count 1) with one registered 4-byte sub-view at
its base. -/
def c1g : Mgr :=
  ⟨fun k => if k = (100, 16) then some 1 else if k = (100, 4) then some 1 else none,
   fun k => if k = (100, 4) then some (100, 16) else none,
   fun k => if k = (100, 16) then some [(100, 4)] else none⟩

/-- The owned byte region of the dangling-view witness. -/
def c1m : Mem := ⟨100, 16, true, 1, false⟩

/-- The registered sub-view of the dangling-view witness. -/
def c1v : Mem := ⟨100, 4, false, 1, false⟩

/-- A PE view with disjoint sections (used by the round-trip witness). -/
def peDisjoint : PEView :=
  ⟨0x1000, 0x2000, 0x400000, false, [⟨0x200, 0x1000, 0x200, 0x400⟩, ⟨0x200, 0x2000, 0x200, 0x600⟩]⟩

/-- A 64-bit PE view (optional magic `0x20B`). -/
def pe64example : PEView := ⟨0x1000, 0x2000, 0x140000000, true, []⟩

/-- The byte store of a minimal valid image whose `e_lfanew` is 2: the
NT headers overlap the DOS header, every validated field is in place,
and the `CheckSum` field sits at file offset 90, which is not 4-byte
aligned. -/
def ckOddBytes : Nat → Nat := fun i =>
  if i = 0 then 0x4D else if i = 1 then 0x5A
  else if i = 2 then 0x50 else if i = 3 then 0x45
  else if i = 26 then 0x0B else if i = 27 then 0x01
  else if i = 60 then 0x02 else 0

/-- The image over `ckOddBytes`. -/
def ckOddImg : Image := { bytes := ckOddBytes, isize := 252 }

/-- A minimal valid image with `e_lfanew = 64` (checksum field at
offset 152, 4-byte aligned). -/
def ckAlignedBytes : Nat → Nat := fun i =>
  if i = 0 then 0x4D else if i = 1 then 0x5A
  else if i = 64 then 0x50 else if i = 65 then 0x45
  else if i = 88 then 0x0B else if i = 89 then 0x01
  else if i = 60 then 0x40 else 0

/-- The image over `ckAlignedBytes`. -/
def ckAlignedImg : Image := { bytes := ckAlignedBytes, isize := 320 }

/-! ## Theorems -/

/-- C7 counterexample: on the S2 bytes and pattern, `search_dynamic`
returns exactly one match, but it is located at offset 3 (bytes
`58 27 64 FF 27 64`), not at offset 6 as the claim states: no result
list of the form `[(6, _)]` is produced. -/
theorem searchDynamic_s2_counterexample :
    searchDynamic s2data s2term =
      Except.ok [(3, [0x58, 0x27, 0x64, 0xFF, 0x27, 0x64])] ∧
    ¬ ∃ bs, searchDynamic s2data s2term = Except.ok [(6, bs)] := by
  refine ⟨by decide, ?_⟩
  rintro ⟨bs, h⟩
  rw [show searchDynamic s2data s2term =
      Except.ok [(3, [0x58, 0x27, 0x64, 0xFF, 0x27, 0x64])] from by decide] at h
  simp at h

/-- C7 amended: running `search_dynamic` on the S2 bytes with the S2
pattern returns exactly one match, located at offset 3, carrying the
matched bytes `58 27 64 FF 27 64`. -/
theorem searchDynamic_s2_amended :
    searchDynamic s2data s2term =
      Except.ok [(3, [0x58, 0x27, 0x64, 0xFF, 0x27, 0x64])] := by decide

/-- C8 counterexample: adding 1 to the 32-bit address value
`0xFFFFFFFF` yields 0 (wraparound), not the width's maximum as the
saturation claim states. -/
theorem addr_add_counterexample :
    addAddr two32 0xFFFFFFFF 1 = 0 ∧ addAddr two32 0xFFFFFFFF 1 ≠ 0xFFFFFFFF := by
  constructor
  · show (0xFFFFFFFF + 1) % two32 = 0
    decide
  · show (0xFFFFFFFF + 1) % two32 ≠ 0xFFFFFFFF
    decide

/-- C8 amended: address arithmetic on the 32-bit kinds wraps modulo the
width (the C++ unsigned semantics): a sum past the maximum comes back
reduced by `2^32`, subtraction of a larger value wraps upward,
multiplication is exact whenever the product fits, and division (with a
nonzero divisor) is plain integer division. -/
theorem addr_arith_wraps (a b : Nat) (ha : a < two32) (hb : b < two32) :
    (addAddr two32 a b = if a + b < two32 then a + b else a + b - two32) ∧
    (subAddr two32 a b = if b ≤ a then a - b else a + two32 - b) ∧
    (a * b < two32 → mulAddr two32 a b = a * b) ∧
    (0 < b → divAddr a b = a / b ∧ divAddr a b ≤ a) := by
  have hw : 0 < two32 := by decide
  refine ⟨?_, ?_, ?_, ?_⟩
  · unfold addAddr
    split
    · exact Nat.mod_eq_of_lt (by assumption)
    · have hlt : a + b - two32 < two32 := by omega
      rw [Nat.mod_eq_sub_mod (by omega), Nat.mod_eq_of_lt hlt]
  · unfold subAddr
    rw [Nat.mod_eq_of_lt hb]
    split
    · have : a + (two32 - b) = (a - b) + two32 := by omega
      rw [this, Nat.add_mod_right, Nat.mod_eq_of_lt (by omega)]
    · have : a + (two32 - b) = a + two32 - b := by omega
      rw [this, Nat.mod_eq_of_lt (by omega)]
  · intro h
    unfold mulAddr
    exact Nat.mod_eq_of_lt h
  · intro _
    exact ⟨rfl, Nat.div_le_self a b⟩

/-- C8 witness: the amended statement applied at the wrap boundary. -/
theorem addr_arith_wraps_witness :
    addAddr two32 (two32 - 1) 1 = (two32 - 1) + 1 - two32 ∧
    subAddr two32 0 1 = 0 + two32 - 1 := by
  have h := addr_arith_wraps (two32 - 1) 1 (by decide) (by decide)
  have h2 := addr_arith_wraps 0 1 (by decide) (by decide)
  constructor
  · rw [h.1]
    decide
  · rw [h2.2.1]
    decide

/-- C9 counterexample: a default-constructed (null) zero-length byte
region fails `get(0)` with `NullPointerException`, not with the
out-of-bounds error the claim asserts for every zero-length region. -/
theorem get_zero_default_counterexample :
    getFn Mgr.empty (fun _ => 0) defaultByteMem 0 = Except.error Err.nullPointer ∧
    ¬ ∃ o s, getFn Mgr.empty (fun _ => 0) defaultByteMem 0 =
      Except.error (Err.outOfBounds o s) := by
  refine ⟨by decide, ?_⟩
  rintro ⟨o, s, h⟩
  rw [show getFn Mgr.empty (fun _ => 0) defaultByteMem 0 = Except.error Err.nullPointer
    from by decide] at h
  simp at h

/-- C9 amended: `get(0)` on a zero-length region fails `OutOfBounds`
when the region has a non-null pointer the tracker holds valid; a
null-pointer region (in particular the default empty construction)
fails `NullPointer` instead. -/
theorem get_zero_empty_amended (g : Mgr) (heap : Nat → Nat) (m : Mem)
    (hel : m.elements = 0) :
    (m.addr = 0 → getFn g heap m 0 = Except.error Err.nullPointer) ∧
    (m.addr ≠ 0 → isValid g m.key = true →
      getFn g heap m 0 = Except.error (Err.outOfBounds 0 0)) := by
  constructor
  · intro h0
    unfold getFn ptrFn
    rw [if_pos h0]
  · intro h0 hv
    unfold getFn ptrFn
    rw [if_neg h0, hv]
    simp [hel]

/-- C9 witness: the amended statement applied to a valid zero-length
borrowed region at address 5 and to the default region. -/
theorem get_zero_empty_amended_witness :
    getFn ⟨fun k => if k = (5, 0) then some 1 else none, fun _ => none, fun _ => none⟩
      (fun _ => 0) ⟨5, 0, false, 1, false⟩ 0 = Except.error (Err.outOfBounds 0 0) ∧
    getFn Mgr.empty (fun _ => 0) defaultByteMem 0 = Except.error Err.nullPointer := by
  constructor
  · exact (get_zero_empty_amended
      ⟨fun k => if k = (5, 0) then some 1 else none, fun _ => none, fun _ => none⟩
      (fun _ => 0) ⟨5, 0, false, 1, false⟩ (by decide)).2 (by decide) (by decide)
  · exact (get_zero_empty_amended Mgr.empty (fun _ => 0) defaultByteMem (by decide)).1 rfl

/-- C10: `pop()` on a region with zero elements returns the empty
option without raising any error and without changing the region or the
tracker, whatever its ownership, pointer or validity state. -/
theorem pop_empty_ok (fuel a t : Nat) (g : Mgr) (heap : Nat → Nat) (m : Mem)
    (h : m.elements = 0) :
    popFn fuel a t g heap m = Except.ok (none, m, g) := by
  unfold popFn
  rw [h]
  simp

/-- C10 witness: `pop()` on the default (null, borrowed, unallocated)
region. -/
theorem pop_empty_ok_witness :
    popFn 3 0 0 Mgr.empty (fun _ => 0) defaultByteMem =
      Except.ok (none, defaultByteMem, Mgr.empty) :=
  pop_empty_ok 3 0 0 Mgr.empty (fun _ => 0) defaultByteMem (by decide)

/-- C4: on every 64-bit PE the model of `va_to_rva` reaches the
undefined-behaviour point of `validate_address(VA)` (pe.hpp:336 calls
`NTHeaders::get_32()` on the 64-bit variant, dereferencing a null
`std::any_cast` result), so no result — in particular no range check
against `SizeOfImage` — is defined. -/
theorem va_to_rva_64_undefined (pe : PEView) (h : pe.is64 = true) (va : Nat) :
    vaToRVA pe va = none := by
  unfold vaToRVA validateVA
  rw [h]
  simp

/-- C4 witness: the 64-bit example view at its own image base. -/
theorem va_to_rva_64_undefined_witness :
    vaToRVA pe64example 0x140000000 = none :=
  va_to_rva_64_undefined pe64example (by decide) 0x140000000

/-- C3 counterexample: on a region of 4-byte elements and 12 bytes,
reading a 2-byte foreign type at byte offset 6 fails with the
alignment error although 6 lies in `[0, 12 - 2)` and is a multiple of
`min(4, 2) = 2`, so the claimed success condition is wrong. -/
theorem cast_ptr_min_rule_counterexample :
    (6 : Nat) % Nat.min 4 2 = 0 ∧ (6 : Nat) + 2 ≤ 12 ∧
    castPtrByte 4 12 2 6 = Except.error Err.alignment ∧
    castReadByte [0, 1, 2, 3, 4, 5, 6, 7, 8, 9, 10, 11] 4 2 6 =
      Except.error Err.alignment := by decide

/-- C3 amended: a typed read of a `szU`-byte foreign type at a positive
byte offset `o` of a non-variadic region (element size `es`, byte
length a multiple of `es`) succeeds iff the read fits
(`o + szU ≤ byte_len`) and both the pair `(es, szU)` and the pair
`(es, o)` satisfy the alignment rule `max % min = 0`; the value
produced is the little-endian decode of the `szU` bytes at
`(o / es) * es` — the element-aligned floor of `o`, which equals `o`
exactly when `es` divides `o`.  Offset 0 is excluded: there the source
computes `max(es, 0) % 0`, a division by zero. -/
theorem cast_read_byte_amended (bytes : List Nat) (es szU o : Nat)
    (hes : 0 < es) (ho : 0 < o) (hszU : 0 < szU) (hdiv : es ∣ bytes.length) :
    ((∃ v, castReadByte bytes es szU o = Except.ok v) ↔
      (o + szU ≤ bytes.length ∧ alignsPair es szU = true ∧ alignsPair es o = true)) ∧
    (∀ v, castReadByte bytes es szU o = Except.ok v →
      v = decodeLE bytes ((o / es) * es) szU) := by
  have hfwd : ∀ p, castPtrByte es bytes.length szU o = Except.ok p →
      (o + szU ≤ bytes.length ∧ alignsPair es szU = true ∧ alignsPair es o = true) ∧
      p = (o / es) * es := by
    intro p hp
    unfold castPtrByte at hp
    split_ifs at hp with h1 h2 h3 h4
    all_goals simp only [Except.ok.injEq, reduceCtorEq] at hp
    push_neg at h2
    exact ⟨⟨by omega, h2.1, h2.2⟩, hp.symm⟩
  have hbwd : (o + szU ≤ bytes.length ∧ alignsPair es szU = true ∧ alignsPair es o = true) →
      castPtrByte es bytes.length szU o = Except.ok ((o / es) * es) := by
    rintro ⟨hb, ha1, ha2⟩
    have hlt : o < bytes.length := by omega
    have hdivlt : o / es < bytes.length / es :=
      Nat.div_lt_div_of_lt_of_dvd hdiv hlt
    unfold castPtrByte
    rw [if_neg (by omega), if_neg (by simp [ha1, ha2]), if_neg (by omega),
      if_neg (by omega)]
  constructor
  · constructor
    · rintro ⟨v, hv⟩
      unfold castReadByte at hv
      cases hcp : castPtrByte es bytes.length szU o with
      | error e => rw [hcp] at hv; exact absurd hv (by simp)
      | ok p => exact (hfwd p hcp).1
    · intro hc
      refine ⟨decodeLE bytes ((o / es) * es) szU, ?_⟩
      unfold castReadByte
      rw [hbwd hc]
  · intro v hv
    unfold castReadByte at hv
    cases hcp : castPtrByte es bytes.length szU o with
    | error e => rw [hcp] at hv; exact absurd hv (by simp)
    | ok p =>
      rw [hcp] at hv
      have hp := (hfwd p hcp).2
      subst hp
      simpa using hv.symm

/-- C3 witness: the amended statement on a byte region of 8 bytes,
reading a 4-byte value at offset 2: the read succeeds and decodes the
bytes at offset 2 little-endian. -/
theorem cast_read_byte_amended_witness :
    (∃ v, castReadByte [1, 2, 3, 4, 5, 6, 7, 8] 1 4 2 = Except.ok v) ∧
    castReadByte [1, 2, 3, 4, 5, 6, 7, 8] 1 4 2 =
      Except.ok (3 + 256 * (4 + 256 * (5 + 256 * 6))) := by
  constructor
  · exact (cast_read_byte_amended [1, 2, 3, 4, 5, 6, 7, 8] 1 4 2 (by decide) (by decide)
      (by decide) (by decide)).1.mpr ⟨by decide, by decide, by decide⟩
  · decide

/-- C6 counterexample: on a table whose two sections' raw ranges
overlap (`[0, 8)` and `[4, 12)`), `section_by_offset(4)` returns the
first section, yet the second section also contains offset 4, so the
returned section is not the only one whose `has_offset` holds. -/
theorem section_by_offset_counterexample :
    sectionByOffset [c6s1, c6s2] 4 = Except.ok c6s1 ∧
    c6s2 ∈ [c6s1, c6s2] ∧ c6s2.hasOffset 4 = true ∧ c6s2 ≠ c6s1 := by decide

/-- A successful `section_by_offset` returns a member section that
contains the offset (the first such in table order). -/
theorem sectionByOffset_ok_spec (ss : List SectionRec) (o : Nat) (s : SectionRec)
    (h : sectionByOffset ss o = Except.ok s) :
    s ∈ ss ∧ s.hasOffset o = true := by
  induction ss with
  | nil => exact absurd h (by simp [sectionByOffset])
  | cons a tl ih =>
    unfold sectionByOffset at h
    split at h
    · rename_i hcond
      simp only [Except.ok.injEq] at h
      subst h
      exact ⟨List.mem_cons_self a tl, hcond⟩
    · rcases ih h with ⟨hm, hh⟩
      exact ⟨List.mem_cons_of_mem a hm, hh⟩

/-- C6 amended: a section returned by `section_by_offset(o)` does
contain `o` (it is the first such section in table order); and when the
table's raw ranges are pairwise disjoint, it is the only section of the
table containing `o`. -/
theorem section_by_offset_amended (ss : List SectionRec) (o : Nat) (s : SectionRec)
    (h : sectionByOffset ss o = Except.ok s) :
    s.hasOffset o = true ∧ s ∈ ss ∧
    (List.Pairwise (fun x y => ∀ i, ¬(x.hasOffset i = true ∧ y.hasOffset i = true)) ss →
      ∀ t ∈ ss, t.hasOffset o = true → t = s) := by
  rcases sectionByOffset_ok_spec ss o s h with ⟨hm, hh⟩
  refine ⟨hh, hm, ?_⟩
  intro hpw t ht hto
  by_contra hne
  have hsymm : Symmetric
      (fun x y : SectionRec => ∀ i, ¬(x.hasOffset i = true ∧ y.hasOffset i = true)) := by
    intro x y hxy i hh2
    exact hxy i ⟨hh2.2, hh2.1⟩
  exact hpw.forall hsymm ht hm hne o ⟨hto, hh⟩

/-- C6 witness: the amended statement on a one-section table. -/
theorem section_by_offset_amended_witness :
    (⟨16, 4096, 8, 0⟩ : SectionRec).hasOffset 3 = true ∧
    (⟨16, 4096, 8, 0⟩ : SectionRec) ∈ [(⟨16, 4096, 8, 0⟩ : SectionRec)] := by
  have h := section_by_offset_amended [⟨16, 4096, 8, 0⟩] 3 ⟨16, 4096, 8, 0⟩ (by decide)
  exact ⟨h.1, h.2.1⟩

/-! ### Checksum helper lemmas -/

/-- Bytes outside the 4 written positions are unchanged. -/
theorem writeLE32_bytes_outside (img : Image) (off v i : Nat) (h : i < off ∨ off + 4 ≤ i) :
    (writeLE32 img off v).bytes i = img.bytes i := by
  simp only [writeLE32]
  rw [if_neg (by omega), if_neg (by omega), if_neg (by omega), if_neg (by omega)]

/-- The write keeps the image size. -/
theorem writeLE32_isize (img : Image) (off v : Nat) :
    (writeLE32 img off v).isize = img.isize := rfl

/-- A little-endian read that ends before the written range is
unchanged. -/
theorem imgLE_write_before (img : Image) (off v : Nat) :
    ∀ n start, start + n ≤ off →
      imgLE (writeLE32 img off v) start n = imgLE img start n := by
  intro n
  induction n with
  | zero => intro start _; rfl
  | succ k ih =>
    intro start h
    unfold imgLE
    rw [writeLE32_bytes_outside img off v start (Or.inl (by omega)),
      ih (start + 1) (by omega)]

/-- Overwriting the `CheckSum` field leaves `e_lfanew` unchanged. -/
theorem eLfanew_write_ck (img : Image) (v : Nat) :
    eLfanew (writeLE32 img (checksumFieldOff img) v) = eLfanew img := by
  unfold eLfanew
  exact imgLE_write_before img (checksumFieldOff img) v 4 60 (by unfold checksumFieldOff; omega)

/-- Overwriting the `CheckSum` field leaves its own offset unchanged. -/
theorem checksumFieldOff_write_ck (img : Image) (v : Nat) :
    checksumFieldOff (writeLE32 img (checksumFieldOff img) v) = checksumFieldOff img := by
  show eLfanew (writeLE32 img (checksumFieldOff img) v) + 88 = eLfanew img + 88
  rw [eLfanew_write_ck]

/-- Overwriting the `CheckSum` field does not disturb any field that
`valid_nt_headers` examines. -/
theorem validNtHeadersCheck_write_ck (img : Image) (v : Nat) :
    validNtHeadersCheck (writeLE32 img (checksumFieldOff img) v) =
      validNtHeadersCheck img := by
  have hck : 88 ≤ checksumFieldOff img := by unfold checksumFieldOff; omega
  have hlf := eLfanew_write_ck img v
  have hdos : dosMagic (writeLE32 img (checksumFieldOff img) v) = dosMagic img := by
    unfold dosMagic
    exact imgLE_write_before img (checksumFieldOff img) v 2 0 (by omega)
  have hsig : ntSig (writeLE32 img (checksumFieldOff img) v) = ntSig img := by
    unfold ntSig
    rw [hlf]
    exact imgLE_write_before img (checksumFieldOff img) v 4 (eLfanew img)
      (by unfold checksumFieldOff; omega)
  have hmag : optMagic (writeLE32 img (checksumFieldOff img) v) = optMagic img := by
    unfold optMagic
    rw [hlf]
    exact imgLE_write_before img (checksumFieldOff img) v 2 (eLfanew img + 24)
      (by unfold checksumFieldOff; omega)
  unfold validNtHeadersCheck
  rw [hdos, hlf, hsig, hmag, writeLE32_isize]

/-- A checksum-loop dword at a 4-aligned offset other than the
4-aligned written offset is unchanged. -/
theorem dwordPadded_write_ck (img : Image) (ck v off : Nat) (h4o : 4 ∣ off) (h4c : 4 ∣ ck)
    (hne : off ≠ ck) :
    dwordPadded (writeLE32 img ck v) off = dwordPadded img off := by
  obtain ⟨x, rfl⟩ := h4o
  obtain ⟨y, rfl⟩ := h4c
  have hb : ∀ j, j < 4 →
      (writeLE32 img (4 * y) v).bytes (4 * x + j) = img.bytes (4 * x + j) := by
    intro j hj
    exact writeLE32_bytes_outside img (4 * y) v (4 * x + j) (by omega)
  simp only [dwordPadded, writeLE32_isize]
  rw [hb 0 (by omega), hb 1 (by omega), hb 2 (by omega), hb 3 (by omega)]

/-- Overwriting the (4-aligned) `CheckSum` field does not change the
calculated checksum: the loop skips exactly the dword the write
touched. -/
theorem calcChecksum_write_ck (img : Image) (v : Nat)
    (halign : checksumFieldOff img % 4 = 0) :
    calcChecksum (writeLE32 img (checksumFieldOff img) v) = calcChecksum img := by
  have hckw := checksumFieldOff_write_ck img v
  have hfold : List.foldl
      (ckStep (writeLE32 img (checksumFieldOff img) v) (checksumFieldOff img)) 0
      ((List.range ((img.isize + 3) / 4)).map (fun i => i * 4)) =
    List.foldl (ckStep img (checksumFieldOff img)) 0
      ((List.range ((img.isize + 3) / 4)).map (fun i => i * 4)) := by
    apply List.foldl_ext
    intro acc off hoff
    rcases List.mem_map.mp hoff with ⟨i, _, rfl⟩
    by_cases heq : i * 4 = checksumFieldOff img
    · unfold ckStep
      rw [if_pos heq, if_pos heq]
    · unfold ckStep
      rw [if_neg heq, if_neg heq,
        dwordPadded_write_ck img (checksumFieldOff img) v (i * 4) ⟨i, by omega⟩
          ⟨checksumFieldOff img / 4, by omega⟩ heq]
  simp only [calcChecksum, writeLE32_isize, hckw, hfold]

/-- The calculated checksum is below `2^32`. -/
theorem calcChecksum_lt (img : Image) : calcChecksum img < two32 := by
  unfold calcChecksum
  exact Nat.mod_lt _ (by decide)

/-- Reading back the 4 written bytes little-endian recovers the value
modulo `2^32`. -/
theorem imgLE_write_at (img : Image) (off v : Nat) :
    imgLE (writeLE32 img off v) off 4 = v % two32 := by
  have b0 : (writeLE32 img off v).bytes off = v % 256 := by
    simp only [writeLE32]
    split_ifs <;> omega
  have b1 : (writeLE32 img off v).bytes (off + 1) = v / 256 % 256 := by
    simp only [writeLE32]
    split_ifs <;> omega
  have b2 : (writeLE32 img off v).bytes (off + 1 + 1) = v / 256 ^ 2 % 256 := by
    have e2 : (256 : Nat) ^ 2 = 65536 := by norm_num
    simp only [writeLE32, e2]
    split_ifs <;> omega
  have b3 : (writeLE32 img off v).bytes (off + 1 + 1 + 1) = v / 256 ^ 3 % 256 := by
    have e3 : (256 : Nat) ^ 3 = 16777216 := by norm_num
    simp only [writeLE32, e3]
    split_ifs <;> omega
  simp only [imgLE]
  rw [b0, b1, b2, b3]
  have e2 : (256 : Nat) ^ 2 = 65536 := by norm_num
  have e3 : (256 : Nat) ^ 3 = 16777216 := by norm_num
  have e32 : two32 = 4294967296 := by decide
  rw [e2, e3, e32]
  omega

set_option maxRecDepth 40000 in
/-- C5 counterexample: a valid image whose `e_lfanew` is 2 puts the
`CheckSum` field at file offset 90; the checksum loop iterates over
offsets `0, 4, 8, ...` and never skips it, so after overwriting the
field with `calculate_checksum`'s result, `validate_checksum` returns
false. -/
theorem checksum_unaligned_counterexample :
    validNtHeadersCheck ckOddImg = Except.ok () ∧
    checksumFieldOff ckOddImg % 4 = 2 ∧
    validateChecksum
      (writeLE32 ckOddImg (checksumFieldOff ckOddImg) (calcChecksum ckOddImg)) =
      Except.ok false := by decide

/-- C5 amended: for every image that `valid_nt_headers` accepts and
whose `CheckSum` field offset (`e_lfanew + 88`) is a multiple of 4,
overwriting the field with `calculate_checksum`'s result makes
`validate_checksum` return true.  (When `e_lfanew` is not 4-aligned the
loop's skip never hits the field and validation can fail.) -/
theorem checksum_overwrite_validates (img : Image)
    (hok : validNtHeadersCheck img = Except.ok ())
    (halign : checksumFieldOff img % 4 = 0) :
    validateChecksum
      (writeLE32 img (checksumFieldOff img) (calcChecksum img)) = Except.ok true := by
  unfold validateChecksum
  rw [validNtHeadersCheck_write_ck, hok, checksumFieldOff_write_ck, imgLE_write_at,
    calcChecksum_write_ck img (calcChecksum img) halign,
    Nat.mod_eq_of_lt (calcChecksum_lt img)]
  simp

/-- C5 witness: the amended statement on the aligned example image
(`e_lfanew = 64`, checksum field at offset 152). -/
theorem checksum_overwrite_validates_witness :
    validateChecksum
      (writeLE32 ckAlignedImg (checksumFieldOff ckAlignedImg) (calcChecksum ckAlignedImg)) =
      Except.ok true :=
  checksum_overwrite_validates ckAlignedImg (by decide) (by decide)

/-! ### Round-trip helper lemmas -/

/-- Address addition without wraparound. -/
theorem addAddr_eq (a b : Nat) (h : a + b < two32) : addAddr two32 a b = a + b :=
  Nat.mod_eq_of_lt h

/-- Address subtraction without wraparound. -/
theorem subAddr_eq (a b : Nat) (ha : a < two32) (hb : b < two32) (hle : b ≤ a) :
    subAddr two32 a b = a - b := by
  unfold subAddr
  rw [Nat.mod_eq_of_lt hb]
  have he : a + (two32 - b) = (a - b) + two32 := by omega
  rw [he, Nat.add_mod_right, Nat.mod_eq_of_lt (by omega)]

/-- A 32-bit sum that the range check forces back above one summand
did not wrap. -/
theorem addAddr_no_wrap (x va : Nat) (hx : x < two32) (hva : va < two32)
    (h : va ≤ addAddr two32 x va) : x + va < two32 ∧ addAddr two32 x va = x + va := by
  unfold addAddr at h ⊢
  rcases Nat.lt_or_ge (x + va) two32 with h1 | h1
  · exact ⟨h1, Nat.mod_eq_of_lt h1⟩
  · have h2 : (x + va) % two32 = x + va - two32 := by
      rw [Nat.mod_eq_sub_mod h1, Nat.mod_eq_of_lt (by omega)]
    rw [h2] at h
    omega

/-- The plain-arithmetic reading of `has_offset` for an
overflow-free section. -/
theorem hasOffset_iff (s : SectionRec) (o : Nat)
    (h : s.pointerToRawData + s.sizeOfRawData < two32) :
    s.hasOffset o = true ↔
      (s.pointerToRawData ≤ o ∧ o < s.pointerToRawData + s.sizeOfRawData) := by
  unfold SectionRec.hasOffset
  rw [addAddr_eq _ _ h]
  simp

/-- The plain-arithmetic reading of `has_rva` for an overflow-free
section. -/
theorem hasRVA_iff (s : SectionRec) (r : Nat)
    (h : s.virtualAddress + s.virtualSize < two32) :
    s.hasRVA r = true ↔
      (s.virtualAddress ≤ r ∧ r < s.virtualAddress + s.virtualSize) := by
  unfold SectionRec.hasRVA
  rw [addAddr_eq _ _ h]
  simp

/-- A successful `section_by_rva` returns a member section containing
the RVA. -/
theorem sectionByRVA_ok_spec (ss : List SectionRec) (r : Nat) (s : SectionRec)
    (h : sectionByRVA ss r = Except.ok s) : s ∈ ss ∧ s.hasRVA r = true := by
  induction ss with
  | nil => exact absurd h (by simp [sectionByRVA])
  | cons a tl ih =>
    unfold sectionByRVA at h
    split at h
    · rename_i hcond
      simp only [Except.ok.injEq] at h
      subst h
      exact ⟨List.mem_cons_self a tl, hcond⟩
    · rcases ih h with ⟨hm, hh⟩
      exact ⟨List.mem_cons_of_mem a hm, hh⟩

/-- A table containing the offset gives `section_by_offset` a result. -/
theorem sectionByOffset_of_tableHas (ss : List SectionRec) (o : Nat)
    (h : tableHasOffset ss o = true) : ∃ s, sectionByOffset ss o = Except.ok s := by
  induction ss with
  | nil => exact absurd h (by simp [tableHasOffset])
  | cons a tl ih =>
    unfold sectionByOffset
    by_cases hc : a.hasOffset o = true
    · exact ⟨a, by rw [if_pos hc]⟩
    · have h2 : tableHasOffset tl o = true := by
        unfold tableHasOffset at h ⊢
        simp only [List.any_cons, Bool.or_eq_true] at h
        rcases h with h | h
        · exact absurd h hc
        · exact h
      rcases ih h2 with ⟨s, hs⟩
      exact ⟨s, by rw [if_neg hc]; exact hs⟩

/-- A table containing the RVA gives `section_by_rva` a result. -/
theorem sectionByRVA_of_tableHas (ss : List SectionRec) (r : Nat)
    (h : tableHasRVA ss r = true) : ∃ s, sectionByRVA ss r = Except.ok s := by
  induction ss with
  | nil => exact absurd h (by simp [tableHasRVA])
  | cons a tl ih =>
    unfold sectionByRVA
    by_cases hc : a.hasRVA r = true
    · exact ⟨a, by rw [if_pos hc]⟩
    · have h2 : tableHasRVA tl r = true := by
        unfold tableHasRVA at h ⊢
        simp only [List.any_cons, Bool.or_eq_true] at h
        rcases h with h | h
        · exact absurd h hc
        · exact h
      rcases ih h2 with ⟨s, hs⟩
      exact ⟨s, by rw [if_neg hc]; exact hs⟩

/-- With pairwise disjoint raw ranges, the section containing an
offset is unique. -/
theorem hasOffset_unique (ss : List SectionRec)
    (hb : ∀ s ∈ ss, SectionRec.noOverflow s)
    (hd : ss.Pairwise rawRangesDisjoint) (s t : SectionRec) (hs : s ∈ ss) (ht : t ∈ ss)
    (o : Nat) (hso : s.hasOffset o = true) (hto : t.hasOffset o = true) : s = t := by
  by_contra hne
  have hsym : Symmetric rawRangesDisjoint := by
    intro x y hxy
    unfold rawRangesDisjoint at hxy ⊢
    tauto
  have hdisj := hd.forall hsym hs ht hne
  rw [hasOffset_iff _ _ (hb s hs).1] at hso
  rw [hasOffset_iff _ _ (hb t ht).1] at hto
  unfold rawRangesDisjoint at hdisj
  omega

/-- With pairwise disjoint virtual ranges, the section containing an
RVA is unique. -/
theorem hasRVA_unique (ss : List SectionRec)
    (hb : ∀ s ∈ ss, SectionRec.noOverflow s)
    (hd : ss.Pairwise rvaRangesDisjoint) (s t : SectionRec) (hs : s ∈ ss) (ht : t ∈ ss)
    (r : Nat) (hso : s.hasRVA r = true) (hto : t.hasRVA r = true) : s = t := by
  by_contra hne
  have hsym : Symmetric rvaRangesDisjoint := by
    intro x y hxy
    unfold rvaRangesDisjoint at hxy ⊢
    tauto
  have hdisj := hd.forall hsym hs ht hne
  rw [hasRVA_iff _ _ (hb s hs).2] at hso
  rw [hasRVA_iff _ _ (hb t ht).2] at hto
  unfold rvaRangesDisjoint at hdisj
  omega

set_option maxRecDepth 40000 in
/-- C2 counterexample: on a PE whose two sections share a virtual range
(raw ranges `[0x400, 0x600)` and `[0x600, 0x800)`, both mapped at RVA
`0x1000`), the offset `0x600` converts to RVA `0x1000` through the
second section, but converting back resolves through the first section
and yields `0x400`, not `0x600`; and on a PE whose single section's raw
size exceeds its virtual size, the in-section offset `0x550` does not
convert at all (`InvalidRVAException`), so the claimed identity fails
both by value and by failure. -/
theorem offset_rva_roundtrip_counterexample :
    offsetToRVA peOverlap 0x600 = Except.ok 0x1000 ∧
    rvaToOffset peOverlap 0x1000 = Except.ok 0x400 ∧
    (0x400 : Nat) ≠ 0x600 ∧
    tableHasOffset peRawTail.sections 0x550 = true ∧
    offsetToRVA peRawTail 0x550 = Except.error (Err.invalidRVA 0x1150) := by decide

/-- C2 amended: on a PE whose sections have pairwise disjoint raw
ranges, pairwise disjoint virtual ranges, and no `uint32` overflow in
their range sums, the conversions are mutually inverse wherever they
succeed on in-section addresses: an in-section offset that
`offset_to_rva` maps to an RVA is mapped back to itself by
`rva_to_offset`, and an in-section RVA that `rva_to_offset` maps to an
offset is mapped back to itself by `offset_to_rva`. -/
theorem offset_rva_roundtrip_amended (pe : PEView)
    (hb : ∀ s ∈ pe.sections, SectionRec.noOverflow s)
    (hoffd : pe.sections.Pairwise rawRangesDisjoint)
    (hrvad : pe.sections.Pairwise rvaRangesDisjoint) :
    (∀ o, o < two32 → tableHasOffset pe.sections o = true →
      ∀ rva, offsetToRVA pe o = Except.ok rva → rvaToOffset pe rva = Except.ok o) ∧
    (∀ r, r < two32 → tableHasRVA pe.sections r = true →
      ∀ off, rvaToOffset pe r = Except.ok off → offsetToRVA pe off = Except.ok r) := by
  constructor
  · intro o ho hhas rva hok
    unfold offsetToRVA at hok
    by_cases hval : validateOffset pe o = true
    case neg =>
      rw [if_pos hval] at hok
      exact absurd hok (by simp)
    rw [if_neg (not_not_intro hval), if_neg (not_not_intro hhas)] at hok
    cases hsec : sectionByOffset pe.sections o with
    | error e =>
      rw [hsec] at hok
      exact absurd hok (by simp)
    | ok s =>
      rw [hsec] at hok
      dsimp only [] at hok
      obtain ⟨hmem, hso⟩ := sectionByOffset_ok_spec _ _ _ hsec
      by_cases hcheck : ¬ validateRVA pe
          (addAddr two32 (subAddr two32 o s.pointerToRawData) s.virtualAddress) = true ∨
          ¬ s.hasRVA
            (addAddr two32 (subAddr two32 o s.pointerToRawData) s.virtualAddress) = true
      case pos =>
        rw [if_pos hcheck] at hok
        exact absurd hok (by simp)
      rw [if_neg hcheck] at hok
      push_neg at hcheck
      simp only [Except.ok.injEq] at hok
      obtain ⟨hnov1, hnov2⟩ := hb s hmem
      rw [hasOffset_iff _ _ hnov1] at hso
      have hraw : s.pointerToRawData < two32 := by omega
      have hsub : subAddr two32 o s.pointerToRawData = o - s.pointerToRawData :=
        subAddr_eq o s.pointerToRawData ho hraw hso.1
      rw [hsub] at hok hcheck
      have hx : o - s.pointerToRawData < two32 := by omega
      have hva : s.virtualAddress < two32 := by omega
      have hrva1 := hcheck.2
      rw [hasRVA_iff _ _ hnov2] at hrva1
      obtain ⟨hnw, hplain⟩ := addAddr_no_wrap (o - s.pointerToRawData)
        s.virtualAddress hx hva hrva1.1
      rw [hplain] at hok hrva1 hcheck
      subst hok
      unfold rvaToOffset
      rw [if_neg (not_not_intro hcheck.1)]
      have hthr : tableHasRVA pe.sections
          (o - s.pointerToRawData + s.virtualAddress) = true := by
        unfold tableHasRVA
        rw [List.any_eq_true]
        refine ⟨s, hmem, ?_⟩
        rw [hasRVA_iff _ _ hnov2]
        omega
      rw [if_neg (not_not_intro hthr)]
      obtain ⟨t, htsec⟩ := sectionByRVA_of_tableHas pe.sections _ hthr
      obtain ⟨htmem, htr⟩ := sectionByRVA_ok_spec _ _ _ htsec
      have hts : t = s := by
        apply hasRVA_unique pe.sections hb hrvad t s htmem hmem
        · exact htr
        · rw [hasRVA_iff _ _ hnov2]
          omega
      subst hts
      rw [htsec]
      dsimp only []
      have hsub2 : subAddr two32 (o - t.pointerToRawData + t.virtualAddress)
          t.virtualAddress = o - t.pointerToRawData := by
        rw [subAddr_eq _ _ (by omega) (by omega) (by omega)]
        omega
      rw [hsub2]
      have hadd2 : addAddr two32 (o - t.pointerToRawData) t.pointerToRawData = o := by
        rw [addAddr_eq _ _ (by omega)]
        omega
      rw [hadd2]
      have hfin : ¬(¬ validateOffset pe o = true ∨ ¬ t.hasOffset o = true) := by
        push_neg
        refine ⟨hval, ?_⟩
        rw [hasOffset_iff _ _ hnov1]
        omega
      rw [if_neg hfin]
  · intro r hr hhas off hok
    unfold rvaToOffset at hok
    by_cases hval : validateRVA pe r = true
    case neg =>
      rw [if_pos hval] at hok
      exact absurd hok (by simp)
    rw [if_neg (not_not_intro hval), if_neg (not_not_intro hhas)] at hok
    cases hsec : sectionByRVA pe.sections r with
    | error e =>
      rw [hsec] at hok
      exact absurd hok (by simp)
    | ok s =>
      rw [hsec] at hok
      dsimp only [] at hok
      obtain ⟨hmem, hsr⟩ := sectionByRVA_ok_spec _ _ _ hsec
      by_cases hcheck : ¬ validateOffset pe
          (addAddr two32 (subAddr two32 r s.virtualAddress) s.pointerToRawData) = true ∨
          ¬ s.hasOffset
            (addAddr two32 (subAddr two32 r s.virtualAddress) s.pointerToRawData) = true
      case pos =>
        rw [if_pos hcheck] at hok
        exact absurd hok (by simp)
      rw [if_neg hcheck] at hok
      push_neg at hcheck
      simp only [Except.ok.injEq] at hok
      obtain ⟨hnov1, hnov2⟩ := hb s hmem
      rw [hasRVA_iff _ _ hnov2] at hsr
      have hvalt : s.virtualAddress < two32 := by omega
      have hsub : subAddr two32 r s.virtualAddress = r - s.virtualAddress :=
        subAddr_eq r s.virtualAddress hr hvalt hsr.1
      rw [hsub] at hok hcheck
      have hx : r - s.virtualAddress < two32 := by omega
      have hrawlt : s.pointerToRawData < two32 := by omega
      have hoff1 := hcheck.2
      rw [hasOffset_iff _ _ hnov1] at hoff1
      obtain ⟨hnw, hplain⟩ := addAddr_no_wrap (r - s.virtualAddress)
        s.pointerToRawData hx hrawlt hoff1.1
      rw [hplain] at hok hoff1 hcheck
      subst hok
      unfold offsetToRVA
      rw [if_neg (not_not_intro hcheck.1)]
      have hthr : tableHasOffset pe.sections
          (r - s.virtualAddress + s.pointerToRawData) = true := by
        unfold tableHasOffset
        rw [List.any_eq_true]
        refine ⟨s, hmem, ?_⟩
        rw [hasOffset_iff _ _ hnov1]
        omega
      rw [if_neg (not_not_intro hthr)]
      obtain ⟨t, htsec⟩ := sectionByOffset_of_tableHas pe.sections _ hthr
      obtain ⟨htmem, htr⟩ := sectionByOffset_ok_spec _ _ _ htsec
      have hts : t = s := by
        apply hasOffset_unique pe.sections hb hoffd t s htmem hmem
        · exact htr
        · rw [hasOffset_iff _ _ hnov1]
          omega
      subst hts
      rw [htsec]
      dsimp only []
      have hsub2 : subAddr two32 (r - t.virtualAddress + t.pointerToRawData)
          t.pointerToRawData = r - t.virtualAddress := by
        rw [subAddr_eq _ _ (by omega) (by omega) (by omega)]
        omega
      rw [hsub2]
      have hadd2 : addAddr two32 (r - t.virtualAddress) t.virtualAddress = r := by
        rw [addAddr_eq _ _ (by omega)]
        omega
      rw [hadd2]
      have hfin : ¬(¬ validateRVA pe r = true ∨ ¬ t.hasRVA r = true) := by
        push_neg
        refine ⟨hval, ?_⟩
        rw [hasRVA_iff _ _ hnov2]
        omega
      rw [if_neg hfin]


/-- C2 witness: the round trips on a two-section disjoint PE view at
offset `0x450` (RVA `0x1050`). -/
theorem offset_rva_roundtrip_amended_witness :
    rvaToOffset peDisjoint 0x1050 = Except.ok 0x450 ∧
    offsetToRVA peDisjoint 0x450 = Except.ok 0x1050 := by
  have h := offset_rva_roundtrip_amended peDisjoint (by decide) (by decide) (by decide)
  exact ⟨h.1 0x450 (by decide) (by decide) 0x1050 (by decide),
    h.2 0x1050 (by decide) (by decide) 0x450 (by decide)⟩

/-! ### Map and list lemmas -/

theorem mapSet_self {β : Type} (f : Key → Option β) (k : Key) (v : β) :
    mapSet f k v k = some v := by simp [mapSet]

theorem mapSet_ne {β : Type} (f : Key → Option β) (k x : Key) (v : β) (h : x ≠ k) :
    mapSet f k v x = f x := by simp [mapSet, h]

theorem mapErase_self {β : Type} (f : Key → Option β) (k : Key) :
    mapErase f k k = none := by simp [mapErase]

theorem mapErase_ne {β : Type} (f : Key → Option β) (k x : Key) (h : x ≠ k) :
    mapErase f k x = f x := by simp [mapErase, h]

theorem lerase_subset (k : Key) : ∀ (l : List Key), ∀ x ∈ lerase k l, x ∈ l := by
  intro l
  induction l with
  | nil => intro x hx; exact absurd hx (by simp [lerase])
  | cons a rest ih =>
    intro x hx
    by_cases ha : a = k
    · rw [show lerase k (a :: rest) = rest from by simp [lerase, ha]] at hx
      exact List.mem_cons_of_mem a hx
    · rw [show lerase k (a :: rest) = a :: lerase k rest from by simp [lerase, ha]] at hx
      rcases List.mem_cons.mp hx with h | h
      · exact h ▸ List.mem_cons_self a rest
      · exact List.mem_cons_of_mem a (ih x h)

theorem mem_lerase_of_ne (k x : Key) (hx : x ≠ k) :
    ∀ (l : List Key), x ∈ l → x ∈ lerase k l := by
  intro l
  induction l with
  | nil => intro h; exact absurd h (by simp)
  | cons a rest ih =>
    intro h
    by_cases ha : a = k
    · rw [show lerase k (a :: rest) = rest from by simp [lerase, ha]]
      rcases List.mem_cons.mp h with h1 | h1
      · exact absurd (h1.trans ha) hx
      · exact h1
    · rw [show lerase k (a :: rest) = a :: lerase k rest from by simp [lerase, ha]]
      rcases List.mem_cons.mp h with h1 | h1
      · exact h1 ▸ List.mem_cons_self a _
      · exact List.mem_cons_of_mem a (ih h1)

theorem lerase_nodup (k : Key) : ∀ (l : List Key), l.Nodup → (lerase k l).Nodup := by
  intro l
  induction l with
  | nil => intro _; simp [lerase]
  | cons a rest ih =>
    intro h
    by_cases ha : a = k
    · rw [show lerase k (a :: rest) = rest from by simp [lerase, ha]]
      exact (List.nodup_cons.mp h).2
    · rw [show lerase k (a :: rest) = a :: lerase k rest from by simp [lerase, ha]]
      rcases List.nodup_cons.mp h with ⟨hna, hrest⟩
      exact List.nodup_cons.mpr ⟨fun hmem => hna (lerase_subset k rest a hmem), ih hrest⟩

theorem not_mem_lerase_self (k : Key) : ∀ (l : List Key), l.Nodup → k ∉ lerase k l := by
  intro l
  induction l with
  | nil => intro _; simp [lerase]
  | cons a rest ih =>
    intro h
    rcases List.nodup_cons.mp h with ⟨hna, hrest⟩
    by_cases ha : a = k
    · rw [show lerase k (a :: rest) = rest from by simp [lerase, ha]]
      exact fun hk => hna (ha ▸ hk)
    · rw [show lerase k (a :: rest) = a :: lerase k rest from by simp [lerase, ha]]
      intro hk
      rcases List.mem_cons.mp hk with h1 | h1
      · exact ha h1.symm
      · exact ih hrest h1

theorem linsert_mono (k x : Key) (l : List Key) (h : x ∈ l) : x ∈ linsertNew k l := by
  unfold linsertNew
  split
  · exact h
  · exact List.mem_append_left _ h

theorem mem_linsert (k x : Key) (l : List Key) (h : x ∈ linsertNew k l) : x ∈ l ∨ x = k := by
  unfold linsertNew at h
  split at h
  · exact Or.inl h
  · rcases List.mem_append.mp h with h1 | h1
    · exact Or.inl h1
    · exact Or.inr (by simpa using h1)

theorem linsert_nodup (k : Key) (l : List Key) (h : l.Nodup) : (linsertNew k l).Nodup := by
  unfold linsertNew
  split
  · exact h
  · next hnotmem =>
      refine List.Nodup.append h (List.nodup_singleton k) ?_
      intro x hx hk
      rw [List.mem_singleton] at hk
      exact hnotmem (hk ▸ hx)

theorem foldl_pres {α β : Type} (P : α → Prop) (f : α → β → α) :
    ∀ (l : List β) (s : α), (∀ t x, x ∈ l → P t → P (f t x)) → P s → P (l.foldl f s) := by
  intro l
  induction l with
  | nil => intro s _ hs; exact hs
  | cons a rest ih =>
    intro s hstep hs
    exact ih (f s a) (fun t x hx ht => hstep t x (List.mem_cons_of_mem a hx) ht)
      (hstep s a (List.mem_cons_self a rest) hs)

/-! ### Reduction equations for the walker bodies -/

theorem mgrRun_deref_eq (f : Nat) (k : Key) (m : Mgr) :
    mgrRun (f + 1) (MCall.deref k) m = derefBody (mgrRun f) k m := rfl

theorem mgrRun_inval_eq (f : Nat) (k : Key) (b : Bool) (m : Mgr) :
    mgrRun (f + 1) (MCall.inval k b) m = invalBody (mgrRun f) k b m := rfl

theorem derefBody_none (rec : MCall → Mgr → Mgr) (k : Key) (m : Mgr) (h : m.rc k = none) :
    derefBody rec k m = m := by
  unfold derefBody; rw [h]

theorem derefBody_some (rec : MCall → Mgr → Mgr) (k : Key) (m : Mgr) (cnt : Nat)
    (h : m.rc k = some cnt) :
    derefBody rec k m =
      (if decWrap cnt = 0 then
        rec (MCall.inval k true) (derefParent rec k { m with rc := mapSet m.rc k (decWrap cnt) })
      else derefParent rec k { m with rc := mapSet m.rc k (decWrap cnt) }) := by
  unfold derefBody; rw [h]

theorem invalBody_none (rec : MCall → Mgr → Mgr) (k : Key) (b : Bool) (m : Mgr)
    (h : m.rc k = none) : invalBody rec k b m = m := by
  unfold invalBody; rw [h]

theorem invalBody_some (rec : MCall → Mgr → Mgr) (k : Key) (b : Bool) (m : Mgr) (cnt : Nat)
    (h : m.rc k = some cnt) :
    invalBody rec k b m =
      invalFinish k (invalKids rec k (invalParent rec k b { m with rc := mapErase m.rc k })) := by
  unfold invalBody; rw [h]

theorem derefParent_none (rec : MCall → Mgr → Mgr) (k : Key) (m1 : Mgr)
    (h : m1.par k = none) : derefParent rec k m1 = m1 := by
  unfold derefParent; rw [h]

theorem derefParent_some (rec : MCall → Mgr → Mgr) (k : Key) (m1 : Mgr) (p : Key)
    (h : m1.par k = some p) : derefParent rec k m1 = rec (MCall.deref p) m1 := by
  unfold derefParent; rw [h]

theorem invalParent_none (rec : MCall → Mgr → Mgr) (k : Key) (b : Bool) (m1 : Mgr)
    (h : m1.par k = none) : invalParent rec k b m1 = m1 := by
  unfold invalParent; rw [h]

theorem invalParent_some (rec : MCall → Mgr → Mgr) (k : Key) (b : Bool) (m1 : Mgr) (p : Key)
    (h : m1.par k = some p) :
    invalParent rec k b m1 =
      (if b then invalChl k p m1 else rec (MCall.deref p) (invalChl k p m1)) := by
  unfold invalParent; rw [h]

theorem invalChl_none (k p : Key) (m1 : Mgr) (h : m1.chl p = none) : invalChl k p m1 = m1 := by
  unfold invalChl; rw [h]

theorem invalChl_some (k p : Key) (m1 : Mgr) (kids : List Key) (h : m1.chl p = some kids) :
    invalChl k p m1 = { m1 with chl := mapSet m1.chl p (lerase k kids) } := by
  unfold invalChl; rw [h]

theorem invalChl_rc (k p : Key) (m1 : Mgr) : (invalChl k p m1).rc = m1.rc := by
  unfold invalChl; split <;> rfl

theorem invalChl_par (k p : Key) (m1 : Mgr) : (invalChl k p m1).par = m1.par := by
  unfold invalChl; split <;> rfl

theorem invalFinish_rc (k : Key) (m3 : Mgr) : (invalFinish k m3).rc = m3.rc := rfl

theorem invalFinish_par (k : Key) (m3 : Mgr) :
    (invalFinish k m3).par = mapErase m3.par k := rfl

theorem invalFinish_chl (k : Key) (m3 : Mgr) :
    (invalFinish k m3).chl = mapErase m3.chl k := rfl

theorem invalKids_pres (P : Mgr → Prop) (rec : MCall → Mgr → Mgr) (k : Key) (m2 : Mgr)
    (hstep : ∀ t c, c ∈ childrenOf m2 k → P t → P (rec (MCall.inval c false) t))
    (h : P m2) : P (invalKids rec k m2) :=
  foldl_pres P _ _ m2 hstep h

theorem deref_absent (f : Nat) (k : Key) (m : Mgr) (h : m.rc k = none) :
    mgrRun f (MCall.deref k) m = m := by
  cases f with
  | zero => rfl
  | succ n => rw [mgrRun_deref_eq, derefBody_none _ _ _ h]

theorem inval_absent (f : Nat) (k : Key) (b : Bool) (m : Mgr) (h : m.rc k = none) :
    mgrRun f (MCall.inval k b) m = m := by
  cases f with
  | zero => rfl
  | succ n => rw [mgrRun_inval_eq, invalBody_none _ _ _ _ h]

/-! ### Pointwise preservation through runs -/

theorem run_rc_none (f : Nat) :
    ∀ (c : MCall) (m : Mgr) (v : Key), m.rc v = none → (mgrRun f c m).rc v = none := by
  induction f with
  | zero => intro c m v h; exact h
  | succ n ih =>
    intro c m v h
    cases c with
    | deref k =>
      rw [mgrRun_deref_eq]
      cases hk : m.rc k with
      | none => rw [derefBody_none _ _ _ hk]; exact h
      | some cnt =>
        rw [derefBody_some _ _ _ _ hk]
        have hvk : v ≠ k := fun he => by rw [he, hk] at h; exact Option.noConfusion h
        have h1 : ({ m with rc := mapSet m.rc k (decWrap cnt) } : Mgr).rc v = none := by
          show mapSet m.rc k (decWrap cnt) v = none
          rw [mapSet_ne _ _ _ _ hvk]; exact h
        have h2 : (derefParent (mgrRun n) k { m with rc := mapSet m.rc k (decWrap cnt) }).rc v = none := by
          cases hp : ({ m with rc := mapSet m.rc k (decWrap cnt) } : Mgr).par k with
          | none => rw [derefParent_none _ _ _ hp]; exact h1
          | some p => rw [derefParent_some _ _ _ _ hp]; exact ih _ _ _ h1
        split
        · exact ih _ _ _ h2
        · exact h2
    | inval k b =>
      rw [mgrRun_inval_eq]
      cases hk : m.rc k with
      | none => rw [invalBody_none _ _ _ _ hk]; exact h
      | some cnt =>
        rw [invalBody_some _ _ _ _ _ hk]
        have h1 : ({ m with rc := mapErase m.rc k } : Mgr).rc v = none := by
          show mapErase m.rc k v = none
          by_cases hvk : v = k
          · rw [hvk]; exact mapErase_self _ _
          · rw [mapErase_ne _ _ _ hvk]; exact h
        have h2 : (invalParent (mgrRun n) k b { m with rc := mapErase m.rc k }).rc v = none := by
          cases hp : ({ m with rc := mapErase m.rc k } : Mgr).par k with
          | none => rw [invalParent_none _ _ _ _ hp]; exact h1
          | some p =>
            rw [invalParent_some _ _ _ _ _ hp]
            have hc : (invalChl k p { m with rc := mapErase m.rc k }).rc v = none := by
              rw [invalChl_rc]; exact h1
            split
            · exact hc
            · exact ih _ _ _ hc
        have h3 : (invalKids (mgrRun n) k
            (invalParent (mgrRun n) k b { m with rc := mapErase m.rc k })).rc v = none :=
          invalKids_pres (fun s => s.rc v = none) _ _ _ (fun t c _ ht => ih _ _ _ ht) h2
        rw [show ∀ m3 : Mgr, (invalFinish k m3).rc v = m3.rc v from fun m3 => rfl]
        exact h3

theorem run_par_opt (f : Nat) :
    ∀ (c : MCall) (m : Mgr) (x : Key),
      (mgrRun f c m).par x = m.par x ∨ (mgrRun f c m).par x = none := by
  induction f with
  | zero => intro c m x; exact Or.inl rfl
  | succ n ih =>
    intro c m x
    cases c with
    | deref k =>
      rw [mgrRun_deref_eq]
      cases hk : m.rc k with
      | none => rw [derefBody_none _ _ _ hk]; exact Or.inl rfl
      | some cnt =>
        rw [derefBody_some _ _ _ _ hk]
        have h2 : (derefParent (mgrRun n) k { m with rc := mapSet m.rc k (decWrap cnt) }).par x = m.par x ∨
            (derefParent (mgrRun n) k { m with rc := mapSet m.rc k (decWrap cnt) }).par x = none := by
          cases hp : ({ m with rc := mapSet m.rc k (decWrap cnt) } : Mgr).par k with
          | none => rw [derefParent_none _ _ _ hp]; exact Or.inl rfl
          | some p => rw [derefParent_some _ _ _ _ hp]; exact ih _ _ x
        split
        · rcases ih (MCall.inval k true) _ x with hi | hi
          · rw [hi]; exact h2
          · exact Or.inr hi
        · exact h2
    | inval k b =>
      rw [mgrRun_inval_eq]
      cases hk : m.rc k with
      | none => rw [invalBody_none _ _ _ _ hk]; exact Or.inl rfl
      | some cnt =>
        rw [invalBody_some _ _ _ _ _ hk]
        have h2 : (invalParent (mgrRun n) k b { m with rc := mapErase m.rc k }).par x = m.par x ∨
            (invalParent (mgrRun n) k b { m with rc := mapErase m.rc k }).par x = none := by
          cases hp : ({ m with rc := mapErase m.rc k } : Mgr).par k with
          | none => rw [invalParent_none _ _ _ _ hp]; exact Or.inl rfl
          | some p =>
            rw [invalParent_some _ _ _ _ _ hp]
            have hc : (invalChl k p { m with rc := mapErase m.rc k }).par x = m.par x := by
              rw [invalChl_par]
            split
            · exact Or.inl hc
            · rcases ih (MCall.deref p) _ x with hi | hi
              · rw [hi]; exact Or.inl hc
              · exact Or.inr hi
        have h3 : (invalKids (mgrRun n) k
              (invalParent (mgrRun n) k b { m with rc := mapErase m.rc k })).par x = m.par x ∨
            (invalKids (mgrRun n) k
              (invalParent (mgrRun n) k b { m with rc := mapErase m.rc k })).par x = none := by
          refine invalKids_pres (fun s => s.par x = m.par x ∨ s.par x = none) _ _ _ ?_ h2
          intro t c _ ht
          rcases ht with ht | ht
          · rcases ih (MCall.inval c false) t x with hi | hi
            · rw [hi]; exact Or.inl ht
            · exact Or.inr hi
          · rcases ih (MCall.inval c false) t x with hi | hi
            · rw [hi]; exact Or.inr ht
            · exact Or.inr hi
        rw [show ∀ m3 : Mgr, (invalFinish k m3).par x = mapErase m3.par k x from fun m3 => rfl]
        by_cases hxk : x = k
        · subst hxk; rw [mapErase_self]; exact Or.inr rfl
        · rw [mapErase_ne _ _ _ hxk]; exact h3

/-! ### Evolution and reachability lemmas -/

theorem EC_mem (g : Mgr) (hEC : EdgeConsistent g) (p c : Key) (hc : c ∈ childrenOf g p) :
    g.par c = some p := by
  unfold childrenOf at hc
  cases hck : g.chl p with
  | none => rw [hck] at hc; exact absurd hc (by simp)
  | some l => rw [hck] at hc; exact hEC p l hck c hc

theorem evolves_refl (m : Mgr) : Evolves m m :=
  ⟨fun v => Or.inl rfl, fun v => Or.inl rfl, fun p w h => Or.inl h, fun p w h => h⟩

theorem evolves_trans {a b c : Mgr} (h1 : Evolves a b) (h2 : Evolves b c) : Evolves a c := by
  obtain ⟨h1rc, h1par, h1mem, h1sub⟩ := h1
  obtain ⟨h2rc, h2par, h2mem, h2sub⟩ := h2
  refine ⟨?_, ?_, ?_, ?_⟩
  · intro v
    rcases h2rc v with h | h
    · rw [h]; exact h1rc v
    · exact Or.inr h
  · intro v
    rcases h2par v with h | ⟨h, hrc⟩
    · rw [h]
      rcases h1par v with h' | ⟨h', hrc'⟩
      · exact Or.inl h'
      · refine Or.inr ⟨h', ?_⟩
        rcases h2rc v with h'' | h''
        · rw [h'']; exact hrc'
        · exact h''
    · exact Or.inr ⟨h, hrc⟩
  · intro p w hw
    rcases h1mem p w hw with h | h | h
    · rcases h2mem p w h with h' | h' | h'
      · exact Or.inl h'
      · exact Or.inr (Or.inl h')
      · exact Or.inr (Or.inr h')
    · refine Or.inr (Or.inl ?_)
      rcases h2rc w with h' | h'
      · rw [h']; exact h
      · exact h'
    · refine Or.inr (Or.inr ?_)
      rcases h2rc p with h' | h'
      · rw [h']; exact h
      · exact h'
  · intro p w hw
    exact h1sub p w (h2sub p w hw)

theorem ReachD_trans {g : Mgr} {a b c : Key} (h1 : ReachD g a b) (h2 : ReachD g b c) :
    ReachD g a c := by
  induction h2 with
  | refl => exact h1
  | step x y hx hrc hy ih => exact ReachD.step x y ih hrc hy

theorem ReachD_lift {a s : Mgr} {c v : Key} (hEv : Evolves a s) (h : ReachD s c v) :
    ReachD a c v := by
  induction h with
  | refl => exact ReachD.refl
  | step x y hx hrc hy ih =>
    refine ReachD.step x y ih ?_ (hEv.2.2.2 x y hy)
    intro hnone
    rcases hEv.1 x with h' | h'
    · rw [h', hnone] at hrc; exact hrc rfl
    · rw [h'] at hrc; exact hrc rfl

/-! ### The invalidation cascade under the parent-gone discipline -/

theorem invalGood : ∀ (f : Nat) (k : Key) (b : Bool) (m : Mgr),
    EdgeConsistent m → ChlDupFree m → ParentGone m k →
    Evolves m (mgrRun f (MCall.inval k b) m) ∧
    EdgeConsistent (mgrRun f (MCall.inval k b) m) ∧
    ChlDupFree (mgrRun f (MCall.inval k b) m) ∧
    (0 < f → m.rc k ≠ none → (mgrRun f (MCall.inval k b) m).rc k = none) ∧
    (∀ v, m.rc v ≠ none → (mgrRun f (MCall.inval k b) m).rc v = none → ReachD m k v) ∧
    (∀ v, m.rc v ≠ none → (mgrRun f (MCall.inval k b) m).rc v = none →
      (mgrRun f (MCall.inval k b) m).par v = none) := by
  intro f
  induction f with
  | zero =>
    intro k b m hEC hDup hPG
    exact ⟨evolves_refl m, hEC, hDup, fun h0 => absurd h0 (lt_irrefl 0),
      fun v hv h => absurd h hv, fun v hv h => absurd h hv⟩
  | succ n ih =>
    intro k b m hEC hDup hPG
    cases hk : m.rc k with
    | none =>
      rw [mgrRun_inval_eq, invalBody_none _ _ _ _ hk]
      exact ⟨evolves_refl m, hEC, hDup, fun _ hkk => absurd rfl hkk,
        fun v hv h => absurd h hv, fun v hv h => absurd h hv⟩
    | some cnt =>
      rw [mgrRun_inval_eq, invalBody_some _ _ _ _ _ hk]
      set m1 : Mgr := { m with rc := mapErase m.rc k } with hm1def
      set m2 : Mgr := invalParent (mgrRun n) k b m1 with hm2def
      set m3 : Mgr := invalKids (mgrRun n) k m2 with hm3def
      have hm1rc_k : m1.rc k = none := mapErase_self _ _
      have hm1rc_ne : ∀ v, v ≠ k → m1.rc v = m.rc v := fun v hv => mapErase_ne _ _ _ hv
      have hm1par : m1.par = m.par := rfl
      have hm1chl : m1.chl = m.chl := rfl
      have hm2eq : (m.par k = none ∧ m2 = m1) ∨
          (∃ p, m.par k = some p ∧ m.chl p = none ∧ m2 = m1) ∨
          (∃ p kids, m.par k = some p ∧ m.chl p = some kids ∧
            m2 = { m1 with chl := mapSet m.chl p (lerase k kids) }) := by
        rw [hm2def]
        cases hp : m1.par k with
        | none =>
          rw [invalParent_none _ _ _ _ hp]
          exact Or.inl ⟨rfl, rfl⟩
        | some p =>
          rw [invalParent_some _ _ _ _ _ hp]
          have hpm : m.par k = some p := hp
          have hpk : m.rc p = none := hPG p hpm
          have hpne : p ≠ k := by
            intro he
            rw [he, hk] at hpk
            exact Option.noConfusion hpk
          have hcrc : (invalChl k p m1).rc p = none := by
            rw [invalChl_rc]
            rw [hm1rc_ne p hpne]
            exact hpk
          have hder : (if b then invalChl k p m1 else mgrRun n (MCall.deref p) (invalChl k p m1)) =
              invalChl k p m1 := by
            cases b with
            | true => rfl
            | false =>
              show mgrRun n (MCall.deref p) _ = _
              exact deref_absent n p _ hcrc
          rw [hder]
          cases hcp : m1.chl p with
          | none =>
            rw [invalChl_none _ _ _ hcp]
            exact Or.inr (Or.inl ⟨p, rfl, hcp, rfl⟩)
          | some kids =>
            rw [invalChl_some _ _ _ _ hcp]
            exact Or.inr (Or.inr ⟨p, kids, rfl, hcp, rfl⟩)
      have hm2rc : m2.rc = m1.rc := by
        rcases hm2eq with ⟨_, h⟩ | ⟨p, _, _, h⟩ | ⟨p, kids, _, _, h⟩ <;> rw [h]
      have hm2par : m2.par = m.par := by
        rcases hm2eq with ⟨_, h⟩ | ⟨p, _, _, h⟩ | ⟨p, kids, _, _, h⟩ <;> rw [h]
      have hm2rck : m2.rc k = none := by rw [hm2rc]; exact hm1rc_k
      have hm2rc_ne : ∀ v, v ≠ k → m2.rc v = m.rc v := by
        intro v hv
        rw [hm2rc]
        exact hm1rc_ne v hv
      have hEv2 : Evolves m m2 := by
        refine ⟨?_, ?_, ?_, ?_⟩
        · intro v
          by_cases hv : v = k
          · subst hv; exact Or.inr hm2rck
          · exact Or.inl (hm2rc_ne v hv)
        · intro v
          rw [hm2par]
          exact Or.inl rfl
        · intro p w hw
          rcases hm2eq with ⟨_, h⟩ | ⟨q, _, _, h⟩ | ⟨q, kids, hq, hkq, h⟩
          · rw [h]; exact Or.inl hw
          · rw [h]; exact Or.inl hw
          · by_cases hpq : p = q
            · subst hpq
              have hwk : w ∈ kids := by
                unfold childrenOf at hw
                rw [hkq] at hw
                exact hw
              by_cases hwkk : w = k
              · subst hwkk
                exact Or.inr (Or.inl hm2rck)
              · refine Or.inl ?_
                have : childrenOf m2 p = lerase k kids := by
                  rw [h]
                  show (mapSet m.chl p (lerase k kids) p).getD [] = _
                  rw [mapSet_self]; rfl
                rw [this]
                exact mem_lerase_of_ne k w hwkk kids hwk
            · refine Or.inl ?_
              have : childrenOf m2 p = childrenOf m p := by
                rw [h]
                show (mapSet m.chl q (lerase k kids) p).getD [] = _
                rw [mapSet_ne _ _ _ _ hpq]
                rfl
              rw [this]
              exact hw
        · intro p w hw
          rcases hm2eq with ⟨_, h⟩ | ⟨q, _, _, h⟩ | ⟨q, kids, hq, hkq, h⟩
          · rw [h] at hw; exact hw
          · rw [h] at hw; exact hw
          · by_cases hpq : p = q
            · subst hpq
              have : childrenOf m2 p = lerase k kids := by
                rw [h]
                show (mapSet m.chl p (lerase k kids) p).getD [] = _
                rw [mapSet_self]; rfl
              rw [this] at hw
              unfold childrenOf
              rw [hkq]
              exact lerase_subset k kids w hw
            · have : childrenOf m2 p = childrenOf m p := by
                rw [h]
                show (mapSet m.chl q (lerase k kids) p).getD [] = _
                rw [mapSet_ne _ _ _ _ hpq]
                rfl
              rw [this] at hw
              exact hw
      have hEC2 : EdgeConsistent m2 := by
        intro p l hl c hc
        rw [hm2par]
        rcases hm2eq with ⟨_, h⟩ | ⟨q, _, _, h⟩ | ⟨q, kids, hq, hkq, h⟩
        · rw [h] at hl; exact hEC p l hl c hc
        · rw [h] at hl; exact hEC p l hl c hc
        · by_cases hpq : p = q
          · subst hpq
            rw [h] at hl
            have hl' : mapSet m.chl p (lerase k kids) p = some l := hl
            rw [mapSet_self] at hl'
            cases hl'
            exact hEC p kids hkq c (lerase_subset k kids c hc)
          · rw [h] at hl
            have hl' : mapSet m.chl q (lerase k kids) p = some l := hl
            rw [mapSet_ne _ _ _ _ hpq] at hl'
            exact hEC p l hl' c hc
      have hDup2 : ChlDupFree m2 := by
        intro p l hl
        rcases hm2eq with ⟨_, h⟩ | ⟨q, _, _, h⟩ | ⟨q, kids, hq, hkq, h⟩
        · rw [h] at hl; exact hDup p l hl
        · rw [h] at hl; exact hDup p l hl
        · by_cases hpq : p = q
          · subst hpq
            rw [h] at hl
            have hl' : mapSet m.chl p (lerase k kids) p = some l := hl
            rw [mapSet_self] at hl'
            cases hl'
            exact lerase_nodup k kids (hDup p kids hkq)
          · rw [h] at hl
            have hl' : mapSet m.chl q (lerase k kids) p = some l := hl
            rw [mapSet_ne _ _ _ _ hpq] at hl'
            exact hDup p l hl'
      have hkids : childrenOf m2 k = childrenOf m k := by
        rcases hm2eq with ⟨_, h⟩ | ⟨q, _, _, h⟩ | ⟨q, kids, hq, hkq, h⟩
        · rw [h]; rfl
        · rw [h]; rfl
        · have hqk : k ≠ q := by
            intro he
            have := hPG q hq
            rw [← he, hk] at this
            exact Option.noConfusion this
          rw [h]
          show (mapSet m.chl q (lerase k kids) k).getD [] = _
          rw [mapSet_ne _ _ _ _ hqk]
          rfl
      have hknotin : ∀ q, k ∉ childrenOf m2 q := by
        intro q hqmem
        rcases hm2eq with ⟨hpn, h⟩ | ⟨p, hp, hcp, h⟩ | ⟨p, kids, hp, hkp, h⟩
        · rw [h] at hqmem
          have := EC_mem m hEC q k hqmem
          rw [hpn] at this
          exact Option.noConfusion this
        · rw [h] at hqmem
          have := EC_mem m hEC q k hqmem
          rw [hp] at this
          have hqp : q = p := (Option.some.inj this).symm
          subst hqp
          unfold childrenOf at hqmem
          rw [hcp] at hqmem
          exact absurd hqmem (by simp)
        · by_cases hqp : q = p
          · subst hqp
            have : childrenOf m2 q = lerase k kids := by
              rw [h]
              show (mapSet m.chl q (lerase k kids) q).getD [] = _
              rw [mapSet_self]; rfl
            rw [this] at hqmem
            exact not_mem_lerase_self k kids (hDup q kids hkp) hqmem
          · have : childrenOf m2 q = childrenOf m q := by
              rw [h]
              show (mapSet m.chl p (lerase k kids) q).getD [] = _
              rw [mapSet_ne _ _ _ _ hqp]
              rfl
            rw [this] at hqmem
            have := EC_mem m hEC q k hqmem
            rw [hp] at this
            exact hqp ((Option.some.inj this).symm)
      have hQ3 : Evolves m2 m3 ∧ EdgeConsistent m3 ∧ ChlDupFree m3 ∧ m3.rc k = none ∧
          (∀ v, m2.rc v ≠ none → m3.rc v = none → ReachD m k v) ∧
          (∀ v, m2.rc v ≠ none → m3.rc v = none → m3.par v = none) := by
        rw [hm3def]
        refine invalKids_pres (fun s => Evolves m2 s ∧ EdgeConsistent s ∧ ChlDupFree s ∧
          s.rc k = none ∧ (∀ v, m2.rc v ≠ none → s.rc v = none → ReachD m k v) ∧
          (∀ v, m2.rc v ≠ none → s.rc v = none → s.par v = none)) _ _ _ ?_ ?_
        · intro t c hc hQ
          obtain ⟨hEvT, hECt, hDupt, hrckT, hreachT, hparT⟩ := hQ
          cases hct : t.rc c with
          | none =>
            rw [inval_absent n c false t hct]
            exact ⟨hEvT, hECt, hDupt, hrckT, hreachT, hparT⟩
          | some cc =>
            have hcpar_m : m.par c = some k := EC_mem m hEC k c (hkids ▸ hc)
            have hcpar2 : m2.par c = some k := by rw [hm2par]; exact hcpar_m
            have hcpart : t.par c = some k := by
              rcases hEvT.2.1 c with h | ⟨h1, h2⟩
              · rw [h]; exact hcpar2
              · rw [hct] at h2; exact Option.noConfusion h2
            have hPGt : ParentGone t c := by
              intro p hp
              rw [hcpart] at hp
              injection hp with he
              rw [← he]
              exact hrckT
            obtain ⟨hEvS, hECs, hDups, hselfS, hreachS, hparS⟩ := ih c false t hECt hDupt hPGt
            refine ⟨evolves_trans hEvT hEvS, hECs, hDups, ?_, ?_, ?_⟩
            · rcases hEvS.1 k with h | h
              · rw [h]; exact hrckT
              · exact h
            · intro v hm2v hrv
              cases htv : t.rc v with
              | none => exact hreachT v hm2v htv
              | some vv =>
                have hre : ReachD t c v := by
                  refine hreachS v ?_ hrv
                  rw [htv]
                  exact fun x => Option.noConfusion x
                have h1 : ReachD m2 c v := ReachD_lift hEvT hre
                have h2 : ReachD m c v := ReachD_lift hEv2 h1
                have h0 : ReachD m k c := by
                  refine ReachD.step k c ReachD.refl ?_ (hkids ▸ hc)
                  rw [hk]
                  exact fun x => Option.noConfusion x
                exact ReachD_trans h0 h2
            · intro v hm2v hrv
              cases htv : t.rc v with
              | none =>
                have hpv : t.par v = none := hparT v hm2v htv
                rcases hEvS.2.1 v with h | ⟨h, _⟩
                · rw [h]; exact hpv
                · exact h
              | some vv =>
                refine hparS v ?_ hrv
                rw [htv]
                exact fun x => Option.noConfusion x
        · exact ⟨evolves_refl m2, hEC2, hDup2, hm2rck,
            fun v hv h => absurd h hv, fun v hv h => absurd h hv⟩
      obtain ⟨hEv3, hEC3, hDup3, hrck3, hreach3, hpar3⟩ := hQ3
      have hEvF : Evolves m3 (invalFinish k m3) := by
        refine ⟨?_, ?_, ?_, ?_⟩
        · intro v
          rw [invalFinish_rc]
          exact Or.inl rfl
        · intro v
          rw [invalFinish_par]
          by_cases hv : v = k
          · subst hv
            refine Or.inr ⟨mapErase_self _ _, ?_⟩
            rw [invalFinish_rc]
            exact hrck3
          · rw [mapErase_ne _ _ _ hv]
            exact Or.inl rfl
        · intro p w hw
          by_cases hp : p = k
          · refine Or.inr (Or.inr ?_)
            rw [invalFinish_rc, hp]
            exact hrck3
          · refine Or.inl ?_
            have : childrenOf (invalFinish k m3) p = childrenOf m3 p := by
              unfold childrenOf
              rw [invalFinish_chl, mapErase_ne _ _ _ hp]
            rw [this]
            exact hw
        · intro p w hw
          by_cases hp : p = k
          · have : childrenOf (invalFinish k m3) p = [] := by
              unfold childrenOf
              rw [invalFinish_chl, hp, mapErase_self]
              rfl
            rw [this] at hw
            exact absurd hw (by simp)
          · have : childrenOf (invalFinish k m3) p = childrenOf m3 p := by
              unfold childrenOf
              rw [invalFinish_chl, mapErase_ne _ _ _ hp]
            rw [this] at hw
            exact hw
      refine ⟨evolves_trans hEv2 (evolves_trans hEv3 hEvF), ?_, ?_, ?_, ?_, ?_⟩
      · intro p l hl c hc
        have hl' : mapErase m3.chl k p = some l := hl
        by_cases hp : p = k
        · rw [hp, mapErase_self] at hl'
          exact Option.noConfusion hl'
        · rw [mapErase_ne _ _ _ hp] at hl'
          have hpc : m3.par c = some p := hEC3 p l hl' c hc
          have hck : c ≠ k := by
            intro he
            subst he
            have hmem3 : c ∈ childrenOf m3 p := by
              unfold childrenOf
              rw [hl']
              exact hc
            exact hknotin p (hEv3.2.2.2 p c hmem3)
          show mapErase m3.par k c = some p
          rw [mapErase_ne _ _ _ hck]
          exact hpc
      · intro p l hl
        have hl' : mapErase m3.chl k p = some l := hl
        by_cases hp : p = k
        · rw [hp, mapErase_self] at hl'
          exact Option.noConfusion hl'
        · rw [mapErase_ne _ _ _ hp] at hl'
          exact hDup3 p l hl'
      · intro _ _
        rw [invalFinish_rc]
        exact hrck3
      · intro v hv hrv
        rw [invalFinish_rc] at hrv
        by_cases hvk : v = k
        · subst hvk
          exact ReachD.refl
        · refine hreach3 v ?_ hrv
          rw [hm2rc_ne v hvk]
          exact hv
      · intro v hv hrv
        rw [invalFinish_rc] at hrv
        rw [invalFinish_par]
        by_cases hvk : v = k
        · subst hvk
          exact mapErase_self _ _
        · rw [mapErase_ne _ _ _ hvk]
          refine hpar3 v ?_ hrv
          rw [hm2rc_ne v hvk]
          exact hv

/-! ### Chain lemmas -/

theorem chainFrom_parchain (g : Mgr) :
    ∀ (ks : List Key) (k : Key), ChainFrom g k ks → ParChainF g k ks := by
  intro ks
  induction ks with
  | nil => intro k _; trivial
  | cons c rest ih => intro k h; exact ⟨h.1.1, ih c h.2⟩

theorem chain_reach_decomp (s : Mgr) (hEC : EdgeConsistent s) :
    ∀ (ks : List Key) (k : Key), ParChainF s k ks →
      ∀ x ∈ ks, ∀ d, ReachD s d x → d ∈ ks ∨ (s.rc k ≠ none ∧ ReachD s d k) := by
  intro ks
  induction ks with
  | nil => intro k _ x hx; exact absurd hx (by simp)
  | cons c rest ih =>
    intro k hpc x hx d hre
    have hc1 : ∀ e, ReachD s e c → e = c ∨ (s.rc k ≠ none ∧ ReachD s e k) := by
      intro e hec
      cases hec with
      | refl => exact Or.inl rfl
      | step x2 y2 hre2 hrc2 hmem2 =>
        have hpar : s.par c = some x2 := EC_mem s hEC x2 c hmem2
        have hx2k : x2 = k := by
          rw [hpc.1] at hpar
          exact (Option.some.inj hpar).symm
        subst hx2k
        exact Or.inr ⟨hrc2, hre2⟩
    rcases List.mem_cons.mp hx with hxc | hxrest
    · subst hxc
      rcases hc1 d hre with h | h
      · exact Or.inl (h ▸ List.mem_cons_self x rest)
      · exact Or.inr h
    · rcases ih c hpc.2 x hxrest d hre with h | ⟨hcrc, hdc⟩
      · exact Or.inl (List.mem_cons_of_mem c h)
      · rcases hc1 d hdc with h | h
        · exact Or.inl (h ▸ List.mem_cons_self d rest)
        · exact Or.inr h

theorem parchain_mem_par (s : Mgr) :
    ∀ (ks : List Key) (k : Key), ParChainF s k ks →
      ∀ c ∈ ks, ∃ pr, s.par c = some pr ∧ pr ∈ k :: ks := by
  intro ks
  induction ks with
  | nil => intro k _ c hc; exact absurd hc (by simp)
  | cons c0 rest ih =>
    intro k hpc c hc
    rcases List.mem_cons.mp hc with h | h
    · subst h
      exact ⟨k, hpc.1, List.mem_cons_self k (c :: rest)⟩
    · obtain ⟨pr, hpr, hprmem⟩ := ih c0 hpc.2 c h
      exact ⟨pr, hpr, List.mem_cons_of_mem k hprmem⟩

theorem chain_no_reach (s : Mgr) (k k1 : Key) (rest : List Key) (d : Key)
    (hEC : EdgeConsistent s)
    (hpc : ParChainF s k (k1 :: rest))
    (hnd : (k :: k1 :: rest).Nodup)
    (hrck : s.rc k = none)
    (hdp : s.par d = some k)
    (hdrc : s.rc d ≠ none)
    (hd1 : d ≠ k1) :
    ∀ x ∈ k1 :: rest, ¬ ReachD s d x := by
  intro x hx hre
  have hdnotin : d ∉ k1 :: rest := by
    intro hdin
    rcases List.mem_cons.mp hdin with h | h
    · exact hd1 h
    · obtain ⟨pr, hpr, hprmem⟩ := parchain_mem_par s rest k1 hpc.2 d h
      rw [hdp] at hpr
      have hkpr : k = pr := Option.some.inj hpr
      rw [← hkpr] at hprmem
      exact (List.nodup_cons.mp hnd).1 hprmem
  rcases chain_reach_decomp s hEC (k1 :: rest) k hpc x hx d hre with h | ⟨hkrc, _⟩
  · exact hdnotin h
  · exact hkrc hrck

theorem chainFrom_evolves (t r : Mgr) (hEv : Evolves t r) :
    ∀ (ks : List Key) (k : Key), (∀ x ∈ k :: ks, r.rc x ≠ none) →
      ChainFrom t k ks → ChainFrom r k ks := by
  intro ks
  induction ks with
  | nil => intro k _ _; trivial
  | cons c rest ih =>
    intro k hr h
    refine ⟨⟨?_, ?_⟩, ?_⟩
    · rcases hEv.2.1 c with hp | ⟨_, hrc⟩
      · rw [hp]; exact h.1.1
      · exact absurd hrc (hr c (List.mem_cons_of_mem k (List.mem_cons_self c rest)))
    · rcases hEv.2.2.1 k c h.1.2 with hm | hm | hm
      · exact hm
      · exact absurd hm (hr c (List.mem_cons_of_mem k (List.mem_cons_self c rest)))
      · exact absurd hm (hr k (List.mem_cons_self k (c :: rest)))
    · refine ih c ?_ h.2
      intro x hx
      rcases List.mem_cons.mp hx with hxc | hxr
      · exact hr x (by rw [hxc]; exact List.mem_cons_of_mem k (List.mem_cons_self c rest))
      · exact hr x (List.mem_cons_of_mem k (List.mem_cons_of_mem c hxr))

/-! ### The parent phase in isolation -/

theorem invalParent_facts (n : Nat) (k : Key) (b : Bool) (m : Mgr) (cnt : Nat)
    (hEC : EdgeConsistent m) (hDup : ChlDupFree m) (hPG : ParentGone m k)
    (hk : m.rc k = some cnt) :
    Evolves m (invalParent (mgrRun n) k b { m with rc := mapErase m.rc k }) ∧
    EdgeConsistent (invalParent (mgrRun n) k b { m with rc := mapErase m.rc k }) ∧
    ChlDupFree (invalParent (mgrRun n) k b { m with rc := mapErase m.rc k }) ∧
    (invalParent (mgrRun n) k b { m with rc := mapErase m.rc k }).rc k = none ∧
    (∀ v, v ≠ k → (invalParent (mgrRun n) k b { m with rc := mapErase m.rc k }).rc v = m.rc v) ∧
    (invalParent (mgrRun n) k b { m with rc := mapErase m.rc k }).par = m.par ∧
    (∀ q, m.rc q ≠ none →
      childrenOf (invalParent (mgrRun n) k b { m with rc := mapErase m.rc k }) q = childrenOf m q) ∧
    (∀ q, k ∉ childrenOf (invalParent (mgrRun n) k b { m with rc := mapErase m.rc k }) q) := by
  set m1 : Mgr := { m with rc := mapErase m.rc k } with hm1def
  set m2 : Mgr := invalParent (mgrRun n) k b m1 with hm2def
  have hm1rc_k : m1.rc k = none := mapErase_self _ _
  have hm1rc_ne : ∀ v, v ≠ k → m1.rc v = m.rc v := fun v hv => mapErase_ne _ _ _ hv
  have hm2eq : (m.par k = none ∧ m2 = m1) ∨
      (∃ p, m.par k = some p ∧ m.chl p = none ∧ m2 = m1) ∨
      (∃ p kids, m.par k = some p ∧ m.chl p = some kids ∧
        m2 = { m1 with chl := mapSet m.chl p (lerase k kids) }) := by
    rw [hm2def]
    cases hp : m1.par k with
    | none =>
      rw [invalParent_none _ _ _ _ hp]
      exact Or.inl ⟨rfl, rfl⟩
    | some p =>
      rw [invalParent_some _ _ _ _ _ hp]
      have hpk : m.rc p = none := hPG p hp
      have hpne : p ≠ k := by
        intro he
        rw [he, hk] at hpk
        exact Option.noConfusion hpk
      have hcrc : (invalChl k p m1).rc p = none := by
        rw [invalChl_rc]
        rw [hm1rc_ne p hpne]
        exact hpk
      have hder : (if b then invalChl k p m1 else mgrRun n (MCall.deref p) (invalChl k p m1)) =
          invalChl k p m1 := by
        cases b with
        | true => rfl
        | false =>
          show mgrRun n (MCall.deref p) _ = _
          exact deref_absent n p _ hcrc
      rw [hder]
      cases hcp : m1.chl p with
      | none =>
        rw [invalChl_none _ _ _ hcp]
        exact Or.inr (Or.inl ⟨p, rfl, hcp, rfl⟩)
      | some kids =>
        rw [invalChl_some _ _ _ _ hcp]
        exact Or.inr (Or.inr ⟨p, kids, rfl, hcp, rfl⟩)
  have hm2rc : m2.rc = m1.rc := by
    rcases hm2eq with ⟨_, h⟩ | ⟨p, _, _, h⟩ | ⟨p, kids, _, _, h⟩ <;> rw [h]
  have hm2par : m2.par = m.par := by
    rcases hm2eq with ⟨_, h⟩ | ⟨p, _, _, h⟩ | ⟨p, kids, _, _, h⟩ <;> rw [h]
  have hm2rck : m2.rc k = none := by rw [hm2rc]; exact hm1rc_k
  have hm2rc_ne : ∀ v, v ≠ k → m2.rc v = m.rc v := by
    intro v hv
    rw [hm2rc]
    exact hm1rc_ne v hv
  have hchpres : ∀ q, m.rc q ≠ none → childrenOf m2 q = childrenOf m q := by
    intro q hq
    rcases hm2eq with ⟨_, h⟩ | ⟨p, _, _, h⟩ | ⟨p, kids, hp, hkp, h⟩
    · rw [h]; rfl
    · rw [h]; rfl
    · have hqp : q ≠ p := by
        intro he
        rw [he] at hq
        exact hq (hPG p hp)
      rw [h]
      show (mapSet m.chl p (lerase k kids) q).getD [] = _
      rw [mapSet_ne _ _ _ _ hqp]
      rfl
  have hEv2 : Evolves m m2 := by
    refine ⟨?_, ?_, ?_, ?_⟩
    · intro v
      by_cases hv : v = k
      · subst hv; exact Or.inr hm2rck
      · exact Or.inl (hm2rc_ne v hv)
    · intro v
      rw [hm2par]
      exact Or.inl rfl
    · intro p w hw
      rcases hm2eq with ⟨_, h⟩ | ⟨q, _, _, h⟩ | ⟨q, kids, hq, hkq, h⟩
      · rw [h]; exact Or.inl hw
      · rw [h]; exact Or.inl hw
      · by_cases hpq : p = q
        · subst hpq
          have hwk : w ∈ kids := by
            unfold childrenOf at hw
            rw [hkq] at hw
            exact hw
          by_cases hwkk : w = k
          · subst hwkk
            exact Or.inr (Or.inl hm2rck)
          · refine Or.inl ?_
            have : childrenOf m2 p = lerase k kids := by
              rw [h]
              show (mapSet m.chl p (lerase k kids) p).getD [] = _
              rw [mapSet_self]; rfl
            rw [this]
            exact mem_lerase_of_ne k w hwkk kids hwk
        · refine Or.inl ?_
          have : childrenOf m2 p = childrenOf m p := by
            rw [h]
            show (mapSet m.chl q (lerase k kids) p).getD [] = _
            rw [mapSet_ne _ _ _ _ hpq]
            rfl
          rw [this]
          exact hw
    · intro p w hw
      rcases hm2eq with ⟨_, h⟩ | ⟨q, _, _, h⟩ | ⟨q, kids, hq, hkq, h⟩
      · rw [h] at hw; exact hw
      · rw [h] at hw; exact hw
      · by_cases hpq : p = q
        · subst hpq
          have : childrenOf m2 p = lerase k kids := by
            rw [h]
            show (mapSet m.chl p (lerase k kids) p).getD [] = _
            rw [mapSet_self]; rfl
          rw [this] at hw
          unfold childrenOf
          rw [hkq]
          exact lerase_subset k kids w hw
        · have : childrenOf m2 p = childrenOf m p := by
            rw [h]
            show (mapSet m.chl q (lerase k kids) p).getD [] = _
            rw [mapSet_ne _ _ _ _ hpq]
            rfl
          rw [this] at hw
          exact hw
  have hEC2 : EdgeConsistent m2 := by
    intro p l hl c hc
    rw [hm2par]
    rcases hm2eq with ⟨_, h⟩ | ⟨q, _, _, h⟩ | ⟨q, kids, hq, hkq, h⟩
    · rw [h] at hl; exact hEC p l hl c hc
    · rw [h] at hl; exact hEC p l hl c hc
    · by_cases hpq : p = q
      · subst hpq
        rw [h] at hl
        have hl2 : mapSet m.chl p (lerase k kids) p = some l := hl
        rw [mapSet_self] at hl2
        cases hl2
        exact hEC p kids hkq c (lerase_subset k kids c hc)
      · rw [h] at hl
        have hl2 : mapSet m.chl q (lerase k kids) p = some l := hl
        rw [mapSet_ne _ _ _ _ hpq] at hl2
        exact hEC p l hl2 c hc
  have hDup2 : ChlDupFree m2 := by
    intro p l hl
    rcases hm2eq with ⟨_, h⟩ | ⟨q, _, _, h⟩ | ⟨q, kids, hq, hkq, h⟩
    · rw [h] at hl; exact hDup p l hl
    · rw [h] at hl; exact hDup p l hl
    · by_cases hpq : p = q
      · subst hpq
        rw [h] at hl
        have hl2 : mapSet m.chl p (lerase k kids) p = some l := hl
        rw [mapSet_self] at hl2
        cases hl2
        exact lerase_nodup k kids (hDup p kids hkq)
      · rw [h] at hl
        have hl2 : mapSet m.chl q (lerase k kids) p = some l := hl
        rw [mapSet_ne _ _ _ _ hpq] at hl2
        exact hDup p l hl2
  have hknotin : ∀ q, k ∉ childrenOf m2 q := by
    intro q hqmem
    rcases hm2eq with ⟨hpn, h⟩ | ⟨p, hp, hcp, h⟩ | ⟨p, kids, hp, hkp, h⟩
    · rw [h] at hqmem
      have := EC_mem m hEC q k hqmem
      rw [hpn] at this
      exact Option.noConfusion this
    · rw [h] at hqmem
      have := EC_mem m hEC q k hqmem
      rw [hp] at this
      have hqp : q = p := (Option.some.inj this).symm
      subst hqp
      unfold childrenOf at hqmem
      rw [hcp] at hqmem
      exact absurd hqmem (by simp)
    · by_cases hqp : q = p
      · subst hqp
        have : childrenOf m2 q = lerase k kids := by
          rw [h]
          show (mapSet m.chl q (lerase k kids) q).getD [] = _
          rw [mapSet_self]; rfl
        rw [this] at hqmem
        exact not_mem_lerase_self k kids (hDup q kids hkp) hqmem
      · have : childrenOf m2 q = childrenOf m q := by
          rw [h]
          show (mapSet m.chl p (lerase k kids) q).getD [] = _
          rw [mapSet_ne _ _ _ _ hqp]
          rfl
        rw [this] at hqmem
        have := EC_mem m hEC q k hqmem
        rw [hp] at this
        exact hqp ((Option.some.inj this).symm)
  exact ⟨hEv2, hEC2, hDup2, hm2rck, hm2rc_ne, hm2par, hchpres, hknotin⟩

/-! ### The cascade erases a registered descendant chain -/

theorem chainErased : ∀ (ks : List Key) (f : Nat) (k : Key) (b : Bool) (m : Mgr),
    EdgeConsistent m → ChlDupFree m → ParentGone m k →
    (k :: ks).Nodup → AllPresent m (k :: ks) → ChainFrom m k ks →
    ks.length + 1 ≤ f →
    ∀ x ∈ ks, (mgrRun f (MCall.inval k b) m).rc x = none := by
  intro ks
  induction ks with
  | nil => intro f k b m _ _ _ _ _ _ _ x hx; exact absurd hx (by simp)
  | cons k1 rest ih =>
    intro f k b m hEC hDup hPG hnd hpres hch hf
    obtain ⟨n, rfl⟩ : ∃ n, f = n + 1 := ⟨f - 1, by omega⟩
    have hn : rest.length + 1 ≤ n := by
      have : (k1 :: rest).length = rest.length + 1 := rfl
      omega
    have hkp : m.rc k ≠ none := hpres k (List.mem_cons_self _ _)
    obtain ⟨cnt, hk⟩ : ∃ cnt, m.rc k = some cnt := by
      cases hmk : m.rc k with
      | none => exact absurd hmk hkp
      | some c => exact ⟨c, rfl⟩
    rw [mgrRun_inval_eq, invalBody_some _ _ _ _ _ hk]
    obtain ⟨hEv2, hEC2, hDup2, hrck2, hrcne2, hpar2, hchpres2, hknotin2⟩ :=
      invalParent_facts n k b m cnt hEC hDup hPG hk
    set m2 : Mgr := invalParent (mgrRun n) k b { m with rc := mapErase m.rc k } with hm2def
    have hknotmem : k ∉ k1 :: rest := (List.nodup_cons.mp hnd).1
    have hk1mem2 : k1 ∈ childrenOf m2 k := by
      rw [hchpres2 k hkp]
      exact hch.1.2
    have hm2pres : AllPresent m2 (k1 :: rest) := by
      intro x hx
      have hxk : x ≠ k := fun he => hknotmem (he ▸ hx)
      rw [hrcne2 x hxk]
      exact hpres x (List.mem_cons_of_mem _ hx)
    have hm2park1 : m2.par k1 = some k := by
      rw [hpar2]
      exact hch.1.1
    have hm2chain : ChainFrom m2 k1 rest := by
      refine chainFrom_evolves m m2 hEv2 rest k1 ?_ hch.2
      intro x hx
      exact hm2pres x hx
    obtain ⟨pre, post, hsplit⟩ : ∃ pre post, childrenOf m2 k = pre ++ k1 :: post :=
      List.append_of_mem hk1mem2
    -- The fold invariant
    have hINV : ∀ s : Mgr,
        (EdgeConsistent s ∧ ChlDupFree s ∧ s.rc k = none ∧
          (∀ d, d ∈ childrenOf m2 k → s.par d = some k ∨ s.rc d = none) ∧
          ((∀ x ∈ k1 :: rest, s.rc x = none) ∨
           (AllPresent s (k1 :: rest) ∧ s.par k1 = some k ∧ ChainFrom s k1 rest))) →
        ∀ c, c ∈ childrenOf m2 k →
        (EdgeConsistent (mgrRun n (MCall.inval c false) s) ∧
          ChlDupFree (mgrRun n (MCall.inval c false) s) ∧
          (mgrRun n (MCall.inval c false) s).rc k = none ∧
          (∀ d, d ∈ childrenOf m2 k →
            (mgrRun n (MCall.inval c false) s).par d = some k ∨
            (mgrRun n (MCall.inval c false) s).rc d = none) ∧
          ((∀ x ∈ k1 :: rest, (mgrRun n (MCall.inval c false) s).rc x = none) ∨
           (AllPresent (mgrRun n (MCall.inval c false) s) (k1 :: rest) ∧
            (mgrRun n (MCall.inval c false) s).par k1 = some k ∧
            ChainFrom (mgrRun n (MCall.inval c false) s) k1 rest))) ∧
        (c = k1 → (∀ x ∈ k1 :: rest, (mgrRun n (MCall.inval c false) s).rc x = none)) := by
      intro s hQ c hc
      obtain ⟨hECs, hDups, hrcks, hdich, hdisj⟩ := hQ
      cases hcs : s.rc c with
      | none =>
        rw [inval_absent n c false s hcs]
        constructor
        · refine ⟨hECs, hDups, hrcks, hdich, ?_⟩
          rcases hdisj with hdone | hint
          · exact Or.inl hdone
          · exact Or.inr hint
        · intro hck1
          subst hck1
          rcases hdisj with hdone | hint
          · exact hdone
          · exact absurd hcs (hint.1 c (List.mem_cons_self _ _))
      | some cc =>
        have hcpar : s.par c = some k := by
          rcases hdich c hc with h | h
          · exact h
          · rw [hcs] at h; exact Option.noConfusion h
        have hPGs : ParentGone s c := by
          intro p hp
          rw [hcpar] at hp
          rw [← Option.some.inj hp]
          exact hrcks
        obtain ⟨hEvS, hECr, hDupr, hselfS, hreachS, hparS⟩ := invalGood n c false s hECs hDups hPGs
        have hrckr : (mgrRun n (MCall.inval c false) s).rc k = none := by
          rcases hEvS.1 k with h | h
          · rw [h]; exact hrcks
          · exact h
        have hdichr : ∀ d, d ∈ childrenOf m2 k →
            (mgrRun n (MCall.inval c false) s).par d = some k ∨
            (mgrRun n (MCall.inval c false) s).rc d = none := by
          intro d hd
          rcases hdich d hd with h | h
          · rcases hEvS.2.1 d with h2 | ⟨h2, h3⟩
            · exact Or.inl (h2.trans h)
            · exact Or.inr h3
          · refine Or.inr ?_
            rcases hEvS.1 d with h2 | h2
            · rw [h2]; exact h
            · exact h2
        by_cases hck1 : c = k1
        · subst hck1
          have hdone : ∀ x ∈ c :: rest, (mgrRun n (MCall.inval c false) s).rc x = none := by
            rcases hdisj with hdone | ⟨hintp, hintk, hintc⟩
            · intro x hx
              have := hdone x hx
              rcases hEvS.1 x with h2 | h2
              · rw [h2]; exact this
              · exact h2
            · intro x hx
              rcases List.mem_cons.mp hx with hxc | hxr
              · subst hxc
                refine hselfS ?_ ?_
                · omega
                · rw [hcs]; exact fun h => Option.noConfusion h
              · have hPGsc : ParentGone s c := hPGs
                refine ih n c false s hECs hDups ?_ ?_ ?_ hintc hn x hxr
                · intro p hp
                  rw [hintk] at hp
                  rw [← Option.some.inj hp]
                  exact hrcks
                · exact (List.nodup_cons.mp hnd).2
                · exact hintp
          exact ⟨⟨hECr, hDupr, hrckr, hdichr, Or.inl hdone⟩, fun _ => hdone⟩
        · have hkeep : AllPresent s (k1 :: rest) → s.par k1 = some k → ChainFrom s k1 rest →
              AllPresent (mgrRun n (MCall.inval c false) s) (k1 :: rest) := by
            intro hintp hintk hintc
            intro x hx
            intro hxnone
            cases hsx : s.rc x with
            | none => exact hintp x hx hsx
            | some xc =>
              have hre : ReachD s c x := by
                refine hreachS x ?_ hxnone
                rw [hsx]; exact fun h => Option.noConfusion h
              refine chain_no_reach s k k1 rest c hECs ⟨hintk, chainFrom_parchain s rest k1 hintc⟩
                hnd hrcks hcpar ?_ hck1 x hx hre
              rw [hcs]; exact fun h => Option.noConfusion h
          constructor
          · refine ⟨hECr, hDupr, hrckr, hdichr, ?_⟩
            rcases hdisj with hdone | ⟨hintp, hintk, hintc⟩
            · refine Or.inl ?_
              intro x hx
              have := hdone x hx
              rcases hEvS.1 x with h2 | h2
              · rw [h2]; exact this
              · exact h2
            · refine Or.inr ?_
              have hpresr := hkeep hintp hintk hintc
              refine ⟨hpresr, ?_, ?_⟩
              · rcases hEvS.2.1 k1 with h2 | ⟨h2, h3⟩
                · rw [h2]; exact hintk
                · exact absurd h3 (hpresr k1 (List.mem_cons_self _ _))
              · refine chainFrom_evolves s _ hEvS rest k1 ?_ hintc
                intro x hx
                exact hpresr x hx
          · intro hck1f
            exact absurd hck1f hck1
    -- run the fold in three stages
    have hbase : EdgeConsistent m2 ∧ ChlDupFree m2 ∧ m2.rc k = none ∧
        (∀ d, d ∈ childrenOf m2 k → m2.par d = some k ∨ m2.rc d = none) ∧
        ((∀ x ∈ k1 :: rest, m2.rc x = none) ∨
         (AllPresent m2 (k1 :: rest) ∧ m2.par k1 = some k ∧ ChainFrom m2 k1 rest)) := by
      refine ⟨hEC2, hDup2, hrck2, ?_, Or.inr ⟨hm2pres, hm2park1, hm2chain⟩⟩
      intro d hd
      exact Or.inl (EC_mem m2 hEC2 k d hd)
    have hpreINV := foldl_pres (fun s => EdgeConsistent s ∧ ChlDupFree s ∧ s.rc k = none ∧
        (∀ d, d ∈ childrenOf m2 k → s.par d = some k ∨ s.rc d = none) ∧
        ((∀ x ∈ k1 :: rest, s.rc x = none) ∨
         (AllPresent s (k1 :: rest) ∧ s.par k1 = some k ∧ ChainFrom s k1 rest)))
      (fun acc c => mgrRun n (MCall.inval c false) acc) pre m2
      (fun t x hx ht => (hINV t ht x (by rw [hsplit]; exact List.mem_append_left _ hx)).1)
      hbase
    set mPre := pre.foldl (fun acc c => mgrRun n (MCall.inval c false) acc) m2 with hmPre
    have hafterk1 : ∀ x ∈ k1 :: rest,
        (mgrRun n (MCall.inval k1 false) mPre).rc x = none :=
      (hINV mPre hpreINV k1 (by rw [hsplit]; exact List.mem_append_right _ (List.mem_cons_self _ _))).2 rfl
    have hpost : ∀ x ∈ k1 :: rest,
        (post.foldl (fun acc c => mgrRun n (MCall.inval c false) acc)
          (mgrRun n (MCall.inval k1 false) mPre)).rc x = none := by
      intro x hx
      refine foldl_pres (fun s : Mgr => s.rc x = none)
        (fun acc c => mgrRun n (MCall.inval c false) acc) post
        (mgrRun n (MCall.inval k1 false) mPre) ?_ (hafterk1 x hx)
      intro t c hc ht
      exact run_rc_none n _ t x ht
    have hm3done : ∀ x ∈ k1 :: rest, (invalKids (mgrRun n) k m2).rc x = none := by
      intro x hx
      unfold invalKids
      rw [hsplit, List.foldl_append, List.foldl_cons]
      exact hpost x hx
    intro x hx
    rw [invalFinish_rc]
    exact hm3done x hx


/-! ### Reference and registration equations -/

theorem refRun_succ (f : Nat) (k : Key) (s : Mgr) :
    refRun (f + 1) k s =
      (match s.par k with
       | some p => refRun f p { s with rc := mapSet s.rc k (incWrap ((s.rc k).getD 0)) }
       | none => { s with rc := mapSet s.rc k (incWrap ((s.rc k).getD 0)) }) := rfl

theorem refRun_root (f : Nat) (k : Key) (s : Mgr) (h : s.par k = none) :
    refRun (f + 1) k s = { s with rc := mapSet s.rc k (incWrap ((s.rc k).getD 0)) } := by
  rw [refRun_succ, h]

theorem refRun_step (f : Nat) (k p : Key) (s : Mgr) (h : s.par k = some p) :
    refRun (f + 1) k s =
      refRun f p { s with rc := mapSet s.rc k (incWrap ((s.rc k).getD 0)) } := by
  rw [refRun_succ, h]

theorem refRun_par (f : Nat) : ∀ (k : Key) (s : Mgr), (refRun f k s).par = s.par := by
  induction f with
  | zero => intro k s; rfl
  | succ n ih =>
    intro k s
    rw [refRun_succ]
    cases h : s.par k with
    | none => rfl
    | some p => exact ih p _

theorem refRun_chl (f : Nat) : ∀ (k : Key) (s : Mgr), (refRun f k s).chl = s.chl := by
  induction f with
  | zero => intro k s; rfl
  | succ n ih =>
    intro k s
    rw [refRun_succ]
    cases h : s.par k with
    | none => rfl
    | some p => exact ih p _

theorem refRun_rc_pres (f : Nat) :
    ∀ (k : Key) (s : Mgr) (v : Key), s.rc v ≠ none → (refRun f k s).rc v ≠ none := by
  induction f with
  | zero => intro k s v h; exact h
  | succ n ih =>
    intro k s v h
    have h1 : ({ s with rc := mapSet s.rc k (incWrap ((s.rc k).getD 0)) } : Mgr).rc v ≠ none := by
      show mapSet s.rc k (incWrap ((s.rc k).getD 0)) v ≠ none
      by_cases hv : v = k
      · rw [hv, mapSet_self]; exact fun x => Option.noConfusion x
      · rw [mapSet_ne _ _ _ _ hv]; exact h
    rw [refRun_succ]
    cases hp : s.par k with
    | none => exact h1
    | some p => exact ih p _ v h1

theorem refRun_rc_other_root (f : Nat) (k : Key) (s : Mgr) (v : Key)
    (hp : s.par k = none) (hv : v ≠ k) : (refRun f k s).rc v = s.rc v := by
  cases f with
  | zero => rfl
  | succ n =>
    rw [refRun_root n k s hp]
    exact mapSet_ne _ _ _ _ hv

theorem refRun_link (f : Nat) (k p : Key) (s : Mgr) (hk : s.par k = some p)
    (hp : s.par p = none) :
    refRun (f + 2) k s =
      { s with rc := (mapSet (mapSet s.rc k (incWrap ((s.rc k).getD 0))) p
          (incWrap ((s.rc p).getD 0))) } := by
  have hkp : k ≠ p := by
    intro he
    rw [he, hp] at hk
    exact Option.noConfusion hk
  rw [refRun_step (f + 1) k p s hk]
  rw [refRun_root f p _
    (show ({ s with rc := mapSet s.rc k (incWrap ((s.rc k).getD 0)) } : Mgr).par p = none from hp)]
  show ({ s with rc := (mapSet (mapSet s.rc k (incWrap ((s.rc k).getD 0))) p
      (incWrap ((mapSet s.rc k (incWrap ((s.rc k).getD 0)) p).getD 0))) } : Mgr) = _
  rw [mapSet_ne _ _ _ _ (Ne.symm hkp)]

theorem refRun_rc_other_link (f : Nat) (k p : Key) (s : Mgr) (v : Key)
    (hk : s.par k = some p) (hp : s.par p = none) (hv1 : v ≠ k) (hv2 : v ≠ p) :
    (refRun (f + 2) k s).rc v = s.rc v := by
  rw [refRun_link f k p s hk hp]
  show mapSet (mapSet s.rc k (incWrap ((s.rc k).getD 0))) p (incWrap ((s.rc p).getD 0)) v = s.rc v
  rw [mapSet_ne _ _ _ _ hv2, mapSet_ne _ _ _ _ hv1]

theorem relationship_self (pk : Key) (s : Mgr) : relationship pk pk s = s := by
  unfold relationship
  rw [if_pos rfl]

theorem relationship_rc (pk ck : Key) (s : Mgr) : (relationship pk ck s).rc = s.rc := by
  unfold relationship
  split <;> rfl

theorem relationship_fresh (pk ck : Key) (s : Mgr) (hne : pk ≠ ck) (hpar : s.par ck = none) :
    relationship pk ck s =
      { s with par := mapSet s.par ck pk,
               chl := mapSet s.chl pk (linsertNew ck ((s.chl pk).getD [])) } := by
  unfold relationship
  rw [if_neg hne,
    show mapInsertNew s.par ck pk = mapSet s.par ck pk from by unfold mapInsertNew; rw [hpar]]

theorem regchild_fresh (f : Nat) (s : Mgr) (R ck : Key) (hne : R ≠ ck)
    (hpar : s.par ck = none) (hroot : s.par R = none) :
    refRun (f + 2) ck (relationship R ck s) =
      { s with rc := (mapSet (mapSet s.rc ck (incWrap ((s.rc ck).getD 0))) R
                 (incWrap ((s.rc R).getD 0))),
               par := mapSet s.par ck R,
               chl := mapSet s.chl R (linsertNew ck ((s.chl R).getD [])) } := by
  rw [relationship_fresh R ck s hne hpar]
  rw [refRun_link f ck R _
    (show ({ s with par := mapSet s.par ck R,
                    chl := mapSet s.chl R (linsertNew ck ((s.chl R).getD [])) } : Mgr).par ck = some R from
      mapSet_self _ _ _)
    (show ({ s with par := mapSet s.par ck R,
                    chl := mapSet s.chl R (linsertNew ck ((s.chl R).getD [])) } : Mgr).par R = none from by
      show mapSet s.par ck R R = none
      rw [mapSet_ne _ _ _ _ hne]
      exact hroot)]

theorem regchild_self (f : Nat) (s : Mgr) (R : Key) (hroot : s.par R = none) :
    refRun (f + 1) R (relationship R R s) =
      { s with rc := mapSet s.rc R (incWrap ((s.rc R).getD 0)) } := by
  rw [relationship_self, refRun_root f R s hroot]

/-! ### Dereference equations -/

theorem deref_root_live (f : Nat) (k : Key) (s : Mgr) (n : Nat)
    (hk : s.rc k = some n) (hnz : decWrap n ≠ 0) (hp : s.par k = none) :
    mgrRun (f + 1) (MCall.deref k) s = { s with rc := mapSet s.rc k (decWrap n) } := by
  rw [mgrRun_deref_eq, derefBody_some _ _ _ _ hk, if_neg hnz,
    derefParent_none _ _ _
      (show ({ s with rc := mapSet s.rc k (decWrap n) } : Mgr).par k = none from hp)]

theorem deref_link_live (f : Nat) (k p : Key) (s : Mgr) (n np : Nat)
    (hk : s.rc k = some n) (hnz : decWrap n ≠ 0)
    (hp : s.par k = some p) (hpc : s.rc p = some np) (hpnz : decWrap np ≠ 0)
    (hpp : s.par p = none) :
    mgrRun (f + 2) (MCall.deref k) s =
      { s with rc := mapSet (mapSet s.rc k (decWrap n)) p (decWrap np) } := by
  have hkp : k ≠ p := by
    intro he
    rw [he, hpp] at hp
    exact Option.noConfusion hp
  rw [mgrRun_deref_eq, derefBody_some _ _ _ _ hk, if_neg hnz,
    derefParent_some _ _ _ p
      (show ({ s with rc := mapSet s.rc k (decWrap n) } : Mgr).par k = some p from hp)]
  rw [deref_root_live f p _ np
    (show ({ s with rc := mapSet s.rc k (decWrap n) } : Mgr).rc p = some np from by
      show mapSet s.rc k (decWrap n) p = some np
      rw [mapSet_ne _ _ _ _ (Ne.symm hkp)]
      exact hpc)
    hpnz
    (show ({ s with rc := mapSet s.rc k (decWrap n) } : Mgr).par p = none from hpp)]

theorem deref_child_zero (f : Nat) (k p : Key) (s : Mgr) (n np : Nat) (kids : List Key)
    (hk : s.rc k = some n) (hz : decWrap n = 0)
    (hp : s.par k = some p) (hpc : s.rc p = some np) (hpnz : decWrap np ≠ 0)
    (hpp : s.par p = none)
    (hkids : s.chl p = some kids) (hck : s.chl k = none) :
    mgrRun (f + 3) (MCall.deref k) s =
      { s with rc := mapErase (mapSet (mapSet s.rc k 0) p (decWrap np)) k,
               par := mapErase s.par k,
               chl := mapErase (mapSet s.chl p (lerase k kids)) k } := by
  have hkp : k ≠ p := by
    intro he
    rw [he, hpp] at hp
    exact Option.noConfusion hp
  have e1 : mgrRun (f + 3) (MCall.deref k) s =
      mgrRun (f + 2) (MCall.inval k true)
        { s with rc := mapSet (mapSet s.rc k 0) p (decWrap np) } := by
    rw [mgrRun_deref_eq, derefBody_some _ _ _ _ hk, hz, if_pos rfl,
      derefParent_some _ _ _ p
        (show ({ s with rc := mapSet s.rc k 0 } : Mgr).par k = some p from hp)]
    rw [deref_root_live (f + 1) p _ np
      (show ({ s with rc := mapSet s.rc k 0 } : Mgr).rc p = some np from by
        show mapSet s.rc k 0 p = some np
        rw [mapSet_ne _ _ _ _ (Ne.symm hkp)]
        exact hpc)
      hpnz
      (show ({ s with rc := mapSet s.rc k 0 } : Mgr).par p = none from hpp)]
  have e2 : mgrRun (f + 2) (MCall.inval k true)
      ({ s with rc := mapSet (mapSet s.rc k 0) p (decWrap np) } : Mgr) =
      { s with rc := mapErase (mapSet (mapSet s.rc k 0) p (decWrap np)) k,
               par := mapErase s.par k,
               chl := mapErase (mapSet s.chl p (lerase k kids)) k } := by
    rw [mgrRun_inval_eq, invalBody_some _ _ _ _ 0
      (show ({ s with rc := mapSet (mapSet s.rc k 0) p (decWrap np) } : Mgr).rc k = some 0 from by
        show mapSet (mapSet s.rc k 0) p (decWrap np) k = some 0
        rw [mapSet_ne _ _ _ _ hkp]
        exact mapSet_self _ _ _)]
    show invalFinish k (invalKids (mgrRun (f + 1)) k (invalParent (mgrRun (f + 1)) k true
      { s with rc := mapErase (mapSet (mapSet s.rc k 0) p (decWrap np)) k })) = _
    rw [invalParent_some _ _ _ _ p
      (show ({ s with rc := mapErase (mapSet (mapSet s.rc k 0) p (decWrap np)) k } : Mgr).par k = some p from hp),
      if_pos rfl,
      invalChl_some k p _ kids
      (show ({ s with rc := mapErase (mapSet (mapSet s.rc k 0) p (decWrap np)) k } : Mgr).chl p = some kids from hkids)]
    show invalFinish k (invalKids (mgrRun (f + 1)) k ({ s with rc := mapErase (mapSet (mapSet s.rc k 0) p (decWrap np)) k, chl := mapSet s.chl p (lerase k kids) } : Mgr)) = _
    have hkidsnil : childrenOf ({ s with rc := mapErase (mapSet (mapSet s.rc k 0) p (decWrap np)) k, chl := mapSet s.chl p (lerase k kids) } : Mgr) k = [] := by
      unfold childrenOf
      show (mapSet s.chl p (lerase k kids) k).getD [] = []
      rw [mapSet_ne _ _ _ _ hkp, hck]
      rfl
    have hkidsid : invalKids (mgrRun (f + 1)) k ({ s with rc := mapErase (mapSet (mapSet s.rc k 0) p (decWrap np)) k, chl := mapSet s.chl p (lerase k kids) } : Mgr) = ({ s with rc := mapErase (mapSet (mapSet s.rc k 0) p (decWrap np)) k, chl := mapSet s.chl p (lerase k kids) } : Mgr) := by
      unfold invalKids
      rw [hkidsnil]
      rfl
    rw [hkidsid]
    rfl
  exact e1.trans e2

/-! ### The packaged cascade and the dangling read -/

theorem cascade_gone (f : Nat) (s : Mgr) (R : Key) (ks : List Key) (b : Bool) (v : Key)
    (hEC : EdgeConsistent s) (hDup : ChlDupFree s) (hPG : ParentGone s R)
    (hnd : (R :: ks).Nodup) (hpres : AllPresent s (R :: ks))
    (hch : ChainFrom s R ks) (hv : v ∈ ks) (hf : ks.length + 1 ≤ f) :
    (mgrRun f (MCall.inval R b) s).rc v = none ∧
    (mgrRun f (MCall.inval R b) s).par v = none := by
  have h1 := chainErased ks f R b s hEC hDup hPG hnd hpres hch hf v hv
  refine ⟨h1, ?_⟩
  exact (invalGood f R b s hEC hDup hPG).2.2.2.2.2 v (hpres v (List.mem_cons_of_mem _ hv)) h1

theorem parentGone_of_root (s : Mgr) (R : Key) (hroot : s.par R = none) : ParentGone s R := by
  intro p hp
  rw [hroot] at hp
  exact Option.noConfusion hp

theorem dangling_get (g : Mgr) (heap : Nat → Nat) (V : Mem) (i : Nat)
    (hrc : g.rc V.key = none) (ha : V.addr ≠ 0) :
    getFn g heap V i = Except.error (Err.invalidPointer V.addr V.msize) := by
  have hval : isValid g V.key = false := by
    unfold isValid
    rw [hrc]
  unfold getFn ptrFn
  rw [if_neg ha, hval]
  simp

/-! ### Operation extraction lemmas -/

theorem throwIf_alloc (m : Mem) (h : m.allocated = true) :
    throwIfUnallocated m = Except.ok () := by
  unfold throwIfUnallocated
  rw [if_neg]
  intro hcon
  rw [h] at hcon
  exact Bool.noConfusion hcon.2

theorem deallocateM_eq (f : Nat) (s : Mgr) (m : Mem) (h : m.allocated = true) :
    deallocateM f s m = Except.ok ({ m with addr := 0, msize := 0, allocated := false },
      mgrRun f (MCall.inval m.key false) s) := by
  unfold deallocateM
  rw [throwIf_alloc m h]

theorem allocateM_unalloc_eq (f a2 : Nat) (g : Mgr) (m : Mem) (size : Nat) (inB : Bool)
    (hna : m.allocated = false) :
    allocateM f a2 g m size inB =
      (if (if inB then size else size * m.elemSize) < m.elemSize then
        Except.error (Err.insufficientAllocation (if inB then size else size * m.elemSize) m.elemSize)
      else if a2 = 0 then Except.error Err.badAllocation
      else Except.ok ({ m with addr := a2, msize := (if inB then size else size * m.elemSize), allocated := true },
        refRun f (a2, (if inB then size else size * m.elemSize)) g)) := by
  unfold allocateM
  rw [if_neg (show ¬(m.allocated = true) from by rw [hna]; exact fun hcon => Bool.noConfusion hcon)]

theorem ptrFn_some (g : Mgr) (m : Mem) (a : Nat) (h : ptrFn g m = Except.ok (some a)) :
    a = m.addr ∧ m.addr ≠ 0 := by
  unfold ptrFn at h
  split at h
  next h0 => simp at h
  next h0 =>
    split at h
    next => simp at h
    next =>
      simp only [Except.ok.injEq, Option.some.injEq] at h
      exact ⟨h.symm, h0⟩

theorem reinterpret_es1 (f : Nat) (s : Mgr) (d : Mem) (sub : Mem) (s2 : Mgr)
    (h : reinterpretM f s d 1 false = Except.ok (sub, s2)) :
    sub = ⟨d.addr, d.msize, false, 1, false⟩ ∧ s2 = refRun f d.key s := by
  unfold reinterpretM at h
  simp only [Nat.div_one, Nat.mul_one] at h
  cases hptr : ptrFn s d with
  | error e =>
    simp only [hptr] at h
    repeat' split at h
    all_goals exact Except.noConfusion h
  | ok oa =>
    cases oa with
    | none =>
      simp only [hptr] at h
      repeat' split at h
      all_goals exact Except.noConfusion h
    | some a =>
      obtain ⟨ha, h0⟩ := ptrFn_some s d a hptr
      subst ha
      simp only [hptr] at h
      repeat' split at h
      all_goals try exact Except.noConfusion h
      all_goals injection h with h2
      all_goals rw [Prod.mk.injEq] at h2
      all_goals refine ⟨h2.1.symm, ?_⟩
      all_goals rw [← h2.2]
      all_goals show refRun f d.key (relationship d.key d.key s) = refRun f d.key s
      all_goals rw [relationship_self]

theorem writeMem_absence (f : Nat) (s : Mgr) (dst : Mem) (off : Nat) (d : Mem) (inB : Bool)
    (s3 : Mgr) (v : Key)
    (hes : dst.elemSize = 1) (hvar : dst.variadic = false)
    (hpd : s.par d.key = none) (hne : v ≠ d.key) (hvrc : s.rc v = none)
    (h : writeMemM f s dst off d inB = Except.ok s3) : s3.rc v = none := by
  unfold writeMemM at h
  rw [hes, hvar] at h
  cases hptr : ptrFn s dst with
  | error e =>
    simp only [hptr] at h
    exact Except.noConfusion h
  | ok oa =>
    cases oa with
    | none =>
      simp only [hptr] at h
      exact Except.noConfusion h
    | some a =>
      simp only [hptr] at h
      cases hri : reinterpretM f s d 1 false with
      | error e =>
        simp only [hri] at h
        repeat' split at h
        all_goals exact Except.noConfusion h
      | ok pr =>
        obtain ⟨sub, s1⟩ := pr
        simp only [hri] at h
        obtain ⟨hsub, hs1⟩ := reinterpret_es1 f s d sub s1 hri
        repeat' split at h
        all_goals try exact Except.noConfusion h
        all_goals injection h with h2
        all_goals rw [← h2]
        all_goals refine run_rc_none f _ _ v ?_
        all_goals rw [hs1]
        all_goals rw [refRun_rc_other_root f d.key s v hpd hne]
        all_goals exact hvrc

theorem writePtr_absence (f : Nat) (s : Mgr) (dst : Mem) (off : Nat) (srcKey : Key)
    (srcEs : Nat) (srcVar : Bool) (inB : Bool) (s3 : Mgr) (v : Key)
    (hes : dst.elemSize = 1) (hvar : dst.variadic = false)
    (hps : s.par srcKey = none) (hne : v ≠ srcKey) (hvrc : s.rc v = none)
    (h : writePtrM f s dst off srcKey srcEs srcVar inB = Except.ok s3) : s3.rc v = none := by
  unfold writePtrM at h
  split at h
  next => simp at h
  next =>
    cases hw : writeMemM f (refRun f srcKey s) dst off ⟨srcKey.1, srcKey.2, false, srcEs, srcVar⟩ inB with
    | error e =>
      simp only [hw] at h
      exact Except.noConfusion h
    | ok g4 =>
      simp only [hw] at h
      simp only [Except.ok.injEq] at h
      rw [← h]
      refine run_rc_none f _ _ v ?_
      refine writeMem_absence f (refRun f srcKey s) dst off _ inB g4 v hes hvar ?_ ?_ ?_ hw
      · show (refRun f srcKey s).par srcKey = none
        rw [refRun_par]
        exact hps
      · exact hne
      · rw [refRun_rc_other_root f srcKey s v hps hne]
        exact hvrc

theorem writeMem_par (f : Nat) (s : Mgr) (dst : Mem) (off : Nat) (d : Mem) (inB : Bool)
    (s3 : Mgr)
    (hes : dst.elemSize = 1) (hvar : dst.variadic = false)
    (h : writeMemM f s dst off d inB = Except.ok s3) :
    ∀ k, s3.par k = s.par k ∨ s3.par k = none := by
  unfold writeMemM at h
  rw [hes, hvar] at h
  cases hptr : ptrFn s dst with
  | error e =>
    simp only [hptr] at h
    exact Except.noConfusion h
  | ok oa =>
    cases oa with
    | none =>
      simp only [hptr] at h
      exact Except.noConfusion h
    | some a =>
      simp only [hptr] at h
      cases hri : reinterpretM f s d 1 false with
      | error e =>
        simp only [hri] at h
        repeat' split at h
        all_goals exact Except.noConfusion h
      | ok pr =>
        obtain ⟨sub, s1⟩ := pr
        simp only [hri] at h
        obtain ⟨hsub, hs1⟩ := reinterpret_es1 f s d sub s1 hri
        repeat' split at h
        all_goals try exact Except.noConfusion h
        all_goals injection h with h2
        all_goals intro k
        all_goals rw [← h2, hs1]
        all_goals rcases run_par_opt f (MCall.deref sub.key) (refRun f d.key s) k with hp | hp
        all_goals first
        | (rw [hp, refRun_par]; exact Or.inl rfl)
        | exact Or.inr hp

theorem writePtr_par (f : Nat) (s : Mgr) (dst : Mem) (off : Nat) (srcKey : Key)
    (srcEs : Nat) (srcVar : Bool) (inB : Bool) (s3 : Mgr)
    (hes : dst.elemSize = 1) (hvar : dst.variadic = false)
    (h : writePtrM f s dst off srcKey srcEs srcVar inB = Except.ok s3) :
    ∀ k, s3.par k = s.par k ∨ s3.par k = none := by
  unfold writePtrM at h
  split at h
  next => simp at h
  next =>
    cases hw : writeMemM f (refRun f srcKey s) dst off ⟨srcKey.1, srcKey.2, false, srcEs, srcVar⟩ inB with
    | error e =>
      simp only [hw] at h
      exact Except.noConfusion h
    | ok g4 =>
      simp only [hw] at h
      simp only [Except.ok.injEq] at h
      intro k
      rw [← h]
      rcases run_par_opt f (MCall.deref srcKey) g4 k with hp | hp
      · rw [hp]
        rcases writeMem_par f (refRun f srcKey s) dst off _ inB g4 hes hvar hw k with hq | hq
        · rw [hq, refRun_par]; exact Or.inl rfl
        · exact Or.inr hq
      · exact Or.inr hp

theorem chainFrom_congr (g g2 : Mgr) (hp : g2.par = g.par)
    (hc : ∀ x, childrenOf g2 x = childrenOf g x) :
    ∀ (l : List Key) (k : Key), ChainFrom g k l → ChainFrom g2 k l := by
  intro l
  induction l with
  | nil => intro k _; trivial
  | cons c rest ih =>
    intro k h
    refine ⟨⟨?_, ?_⟩, ih c h.2⟩
    · rw [hp]; exact h.1.1
    · rw [hc]
      exact h.1.2

theorem chainFrom_mono (g g2 : Mgr)
    (hp : ∀ x p, g.par x = some p → g2.par x = some p)
    (hc : ∀ p x, x ∈ childrenOf g p → x ∈ childrenOf g2 p) :
    ∀ (l : List Key) (k : Key), ChainFrom g k l → ChainFrom g2 k l := by
  intro l
  induction l with
  | nil => intro k _; trivial
  | cons c rest ih =>
    intro k h
    exact ⟨⟨hp c k h.1.1, hc k c h.1.2⟩, ih c h.2⟩

theorem EC_congr (g g2 : Mgr) (hp : g2.par = g.par) (hc : g2.chl = g.chl)
    (h : EdgeConsistent g) : EdgeConsistent g2 := by
  intro p l hl c hcl
  rw [hp]
  rw [hc] at hl
  exact h p l hl c hcl

theorem Dup_congr (g g2 : Mgr) (hc : g2.chl = g.chl) (h : ChlDupFree g) : ChlDupFree g2 := by
  intro p l hl
  rw [hc] at hl
  exact h p l hl

/-! ### The reallocation core -/

theorem realloc_core (f : Nat) (a t size : Nat) (inB : Bool) (s : Mgr) (m : Mem)
    (ks : List Key) (v : Key) (m2 : Mem) (g2 : Mgr)
    (hes : m.elemSize = 1) (hvar : m.variadic = false) (halloc : m.allocated = true)
    (hEC : EdgeConsistent s) (hDup : ChlDupFree s) (hroot : s.par m.key = none)
    (hnd : (m.key :: ks).Nodup) (hpres : AllPresent s (m.key :: ks))
    (hch : ChainFrom s m.key ks) (hv : v ∈ ks) (hf : ks.length + 1 ≤ f)
    (hpa : ∀ sz, s.par (a, sz) = none ∨ (ChainLink s m.key (a, sz) ∧ s.rc (a, sz) ≠ none))
    (hpt : ∀ sz, s.par (t, sz) = none ∨ (ChainLink s m.key (t, sz) ∧ s.rc (t, sz) ≠ none))
    (hva : ∀ sz, v ≠ (a, sz)) (hvt : ∀ sz, v ≠ (t, sz))
    (hrun : reallocateM f a t s m size inB = Except.ok (m2, g2)) :
    g2.rc v = none ∧ m2.elemSize = m.elemSize ∧ m2.variadic = m.variadic ∧
      (∀ k, (s.par k = none ∨ (ChainLink s m.key k ∧ s.rc k ≠ none)) → g2.par k = none) := by
  have hkslen : 1 ≤ ks.length := List.length_pos.mpr (List.ne_nil_of_mem hv)
  have hPG : ParentGone s m.key := parentGone_of_root s m.key hroot
  have hCV : (mgrRun f (MCall.inval m.key false) s).rc v = none :=
    (cascade_gone f s m.key ks false v hEC hDup hPG hnd hpres hch hv (by omega)).1
  have hParGone : ∀ (k : Key),
      (s.par k = none ∨ (ChainLink s m.key k ∧ s.rc k ≠ none)) →
      (mgrRun f (MCall.inval m.key false) s).par k = none := by
    intro k hk
    rcases hk with hk | ⟨hlink, hpresk⟩
    · rcases run_par_opt f _ s k with h | h
      · rw [h]; exact hk
      · exact h
    · have hkne : k ≠ m.key := by
        intro he
        have h1 : s.par k = some m.key := hlink.1
        rw [he, hroot] at h1
        exact Option.noConfusion h1
      have hrcnone : (mgrRun f (MCall.inval m.key false) s).rc k = none := by
        refine chainErased [k] f m.key false s hEC hDup hPG ?_ ?_ ⟨hlink, trivial⟩
          (by simp only [List.length_singleton]; omega) k (List.mem_cons_self _ _)
        · refine List.nodup_cons.mpr ⟨?_, List.nodup_singleton k⟩
          intro hmem
          rw [List.mem_singleton] at hmem
          exact hkne hmem.symm
        · intro x hx
          rcases List.mem_cons.mp hx with hx | hx
          · rw [hx]; exact hpres m.key (List.mem_cons_self _ _)
          · rw [List.mem_singleton] at hx
            rw [hx]; exact hpresk
      exact (invalGood f m.key false s hEC hDup hPG).2.2.2.2.2 k hpresk hrcnone
  unfold reallocateM at hrun
  simp only [throwIf_alloc m halloc] at hrun
  rw [if_neg (show ¬¬(m.allocated = true) from not_not_intro halloc)] at hrun
  simp only [deallocateM_eq f s m halloc] at hrun
  rw [allocateM_unalloc_eq f a (mgrRun f (MCall.inval m.key false) s)
    { m with addr := 0, msize := 0, allocated := false }
    (if inB then size else size * m.elemSize) true rfl] at hrun
  rw [if_pos rfl] at hrun
  split at hrun
  next => simp at hrun
  next am ag heq1 =>
    split at hrun
    next => simp at hrun
    next g3 heq2 =>
      injection hrun with h2
      rw [Prod.mk.injEq] at h2
      repeat' split at heq1
      all_goals
        first
        | exact Except.noConfusion heq1
        | (injection heq1 with h3
           rw [Prod.mk.injEq] at h3
           have hes1 : am.elemSize = 1 := by rw [← h3.1]; exact hes
           have hvar1 : am.variadic = false := by rw [← h3.1]; exact hvar
           have hagp : ∀ sz, ag.par (t, sz) = none := by
             intro sz
             rw [← h3.2, refRun_par]
             exact hParGone _ (hpt _)
           have hagv : ag.rc v = none := by
             rw [← h3.2, refRun_rc_other_root f _ _ v (hParGone _ (hpa _)) (hva _)]
             exact hCV
           refine ⟨?_, ?_, ?_, ?_⟩
           · rw [← h2.2]
             exact writePtr_absence f ag am 0 _ 1 false true g3 v hes1 hvar1 (hagp _) (hvt _)
               hagv heq2
           · rw [← h2.1]
             exact (congrArg Mem.elemSize h3.1).symm
           · rw [← h2.1]
             exact (congrArg Mem.variadic h3.1).symm
           · intro k hk
             have hcasc : (mgrRun f (MCall.inval m.key false) s).par k = none :=
               hParGone k hk
             have hag2 : ag.par k = none := by
               rw [← h3.2, refRun_par]
               exact hcasc
             rw [← h2.2]
             rcases writePtr_par f ag am 0 _ 1 false true g3 hes1 hvar1 heq2 k with hq | hq
             · rw [hq]; exact hag2
             · exact hq)

theorem resize_core (f : Nat) (a t size : Nat) (inB : Bool) (s : Mgr) (m : Mem)
    (ks : List Key) (v : Key) (m2 : Mem) (g2 : Mgr)
    (hes : m.elemSize = 1) (hvar : m.variadic = false) (halloc : m.allocated = true)
    (hEC : EdgeConsistent s) (hDup : ChlDupFree s) (hroot : s.par m.key = none)
    (hnd : (m.key :: ks).Nodup) (hpres : AllPresent s (m.key :: ks))
    (hch : ChainFrom s m.key ks) (hv : v ∈ ks) (hf : ks.length + 1 ≤ f)
    (hpa : ∀ sz, s.par (a, sz) = none ∨ (ChainLink s m.key (a, sz) ∧ s.rc (a, sz) ≠ none))
    (hpt : ∀ sz, s.par (t, sz) = none ∨ (ChainLink s m.key (t, sz) ∧ s.rc (t, sz) ≠ none))
    (hva : ∀ sz, v ≠ (a, sz)) (hvt : ∀ sz, v ≠ (t, sz))
    (hrun : resizeM f a t s m size inB = Except.ok (m2, g2)) :
    g2.rc v = none ∧ m2.elemSize = m.elemSize ∧ m2.variadic = m.variadic ∧
      (∀ k, (s.par k = none ∨ (ChainLink s m.key k ∧ s.rc k ≠ none)) → g2.par k = none) := by
  unfold resizeM at hrun
  rw [throwIf_alloc m halloc] at hrun
  exact realloc_core f a t size inB s m ks v m2 g2 hes hvar halloc hEC hDup hroot hnd hpres
    hch hv hf hpa hpt hva hvt hrun

/-! ### Wrap arithmetic and child-set round trips -/

theorem two64_eq : two64 = 18446744073709551616 := by norm_num [two64]

theorem incWrap_small (n : Nat) (h : n + 1 < two64) : incWrap n = n + 1 :=
  Nat.mod_eq_of_lt h

theorem decWrap_succ (n : Nat) (h : n + 1 < two64) : decWrap (n + 1) = n := by
  unfold decWrap
  rw [two64_eq] at h ⊢
  omega

theorem lerase_append_self (k : Key) : ∀ (l : List Key), k ∉ l → lerase k (l ++ [k]) = l := by
  intro l
  induction l with
  | nil =>
    intro _
    show lerase k ([] ++ [k]) = []
    rw [List.nil_append]
    unfold lerase
    rw [if_pos rfl]
  | cons a rest ih =>
    intro hk
    have ha : a ≠ k := fun he => hk (he ▸ List.mem_cons_self a rest)
    show lerase k (a :: (rest ++ [k])) = a :: rest
    unfold lerase
    rw [if_neg ha, ih (fun hm => hk (List.mem_cons_of_mem a hm))]

theorem lerase_linsertNew (k : Key) (l : List Key) (h : k ∉ l) :
    lerase k (linsertNew k l) = l := by
  unfold linsertNew
  rw [if_neg h]
  exact lerase_append_self k l h

theorem linsertNew_nodup (k : Key) (l : List Key) (h : l.Nodup) : (linsertNew k l).Nodup := by
  unfold linsertNew
  split
  next => exact h
  next hk =>
    refine List.Nodup.append h (List.nodup_singleton k) ?_
    intro x hx hx2
    rw [List.mem_singleton] at hx2
    exact hk (hx2 ▸ hx)

theorem mem_linsertNew (k : Key) (l : List Key) : ∀ x ∈ l, x ∈ linsertNew k l := by
  intro x hx
  unfold linsertNew
  split
  · exact hx
  · exact List.mem_append_left _ hx

theorem self_mem_linsertNew (k : Key) (l : List Key) : k ∈ linsertNew k l := by
  unfold linsertNew
  split
  · assumption
  · exact List.mem_append_right _ (List.mem_singleton_self k)

theorem elementSize_es1 (m : Mem) (hes : m.elemSize = 1) (hvar : m.variadic = false) :
    m.elementSize = 1 := by
  unfold Mem.elementSize
  rw [hvar, hes]
  rfl

/-! ### Sub-view registration extraction -/

theorem subsection_es1 (f : Nat) (s : Mgr) (m : Mem) (off bsz : Nat) (sub : Mem) (s2 : Mgr)
    (hes : m.elemSize = 1) (hvar : m.variadic = false)
    (h : subsectionBytesM f s m off bsz 1 false = Except.ok (sub, s2)) :
    sub = ⟨m.addr + off, bsz, false, 1, false⟩ ∧
      s2 = refRun f (m.addr + off, bsz) (relationship m.key (m.addr + off, bsz) s) ∧
      off < m.msize := by
  unfold subsectionBytesM at h
  simp only [elementSize_es1 m hes hvar, hes, Nat.div_one, Nat.mul_one] at h
  cases hptr : ptrFn s m with
  | error e =>
    simp only [hptr] at h
    exact Except.noConfusion h
  | ok oa =>
    cases oa with
    | none =>
      simp only [hptr] at h
      exact Except.noConfusion h
    | some a =>
      obtain ⟨ha, h0⟩ := ptrFn_some s m a hptr
      subst ha
      simp only [hptr] at h
      by_cases hb : off ≥ m.msize
      · rw [if_pos hb] at h
        exact Except.noConfusion h
      · rw [if_neg hb] at h
        repeat' split at h
        all_goals try exact Except.noConfusion h
        all_goals injection h with h2
        all_goals rw [Prod.mk.injEq] at h2
        all_goals exact ⟨h2.1.symm, h2.2.symm, by omega⟩

theorem splitAt_es1 (f : Nat) (s : Mgr) (m : Mem) (mid : Nat) (l r : Mem) (s2 : Mgr)
    (hes : m.elemSize = 1) (hvar : m.variadic = false)
    (h : splitAtM f s m mid false = Except.ok ((l, r), s2)) :
    l = ⟨m.addr, mid, false, 1, false⟩ ∧
      r = ⟨m.addr + mid, m.msize - mid, false, 1, false⟩ ∧
      s2 = refRun f (m.addr + mid, m.msize - mid)
        (relationship m.key (m.addr + mid, m.msize - mid)
          (refRun f (m.addr, mid) (relationship m.key (m.addr, mid) s))) ∧
      mid < m.msize := by
  unfold splitAtM at h
  simp only [hes, hvar, Nat.mul_one, Bool.false_eq_true, if_false, false_and] at h
  split at h
  next => exact Except.noConfusion h
  next =>
    cases h1 : subsectionBytesM f s m 0 mid 1 false with
    | error e =>
      simp only [h1] at h
      exact Except.noConfusion h
    | ok pr =>
      obtain ⟨left, g1⟩ := pr
      simp only [h1] at h
      obtain ⟨hleft, hg1, hpos⟩ := subsection_es1 f s m 0 mid left g1 hes hvar h1
      cases h2 : subsectionBytesM f g1 m mid (m.msize - mid) 1 false with
      | error e =>
        simp only [h2] at h
        exact Except.noConfusion h
      | ok pr2 =>
        obtain ⟨right, g1b⟩ := pr2
        simp only [h2] at h
        obtain ⟨hright, hg1b, hmid⟩ := subsection_es1 f g1 m mid (m.msize - mid) right g1b hes hvar h2
        injection h with h3
        rw [Prod.mk.injEq] at h3
        obtain ⟨hlr, hs2⟩ := h3
        rw [Prod.mk.injEq] at hlr
        refine ⟨?_, ?_, ?_, hmid⟩
        · rw [← hlr.1, hleft]
          simp
        · rw [← hlr.2, hright]
        · rw [← hs2, hg1b, hg1]
          simp

theorem regchild_round (f : Nat) (s : Mgr) (R ck : Key) (c : Nat)
    (hfr : Fresh2 s ck) (hroot : s.par R = none) (hrc : s.rc R = some c)
    (h1 : 1 ≤ c) (hlt : c + 1 < two64) (hEC : EdgeConsistent s) :
    mgrRun (f + 3) (MCall.deref ck) (refRun (f + 3) ck (relationship R ck s)) =
      { s with chl := mapSet s.chl R ((s.chl R).getD []) } := by
  have hrcck : s.rc ck = none := hfr.1.1
  have hpar : s.par ck = none := hfr.1.2.1
  have hchl : s.chl ck = none := hfr.1.2.2
  have hne : R ≠ ck := by
    intro he
    rw [← he, hrc] at hrcck
    exact Option.noConfusion hrcck
  have hckL : ck ∉ (s.chl R).getD [] := by
    cases hcl : s.chl R with
    | none => exact List.not_mem_nil ck
    | some L0 =>
      intro hmem
      have hp2 := hEC R L0 hcl ck hmem
      rw [hpar] at hp2
      exact Option.noConfusion hp2
  have e1 : refRun (f + 3) ck (relationship R ck s) =
      { s with rc := (mapSet (mapSet s.rc ck (incWrap ((s.rc ck).getD 0))) R
                 (incWrap ((s.rc R).getD 0))),
               par := mapSet s.par ck R,
               chl := mapSet s.chl R (linsertNew ck ((s.chl R).getD [])) } :=
    regchild_fresh (f + 1) s R ck hne hpar hroot
  have e1b : refRun (f + 3) ck (relationship R ck s) =
      { s with rc := (mapSet (mapSet s.rc ck 1) R (c + 1)),
               par := mapSet s.par ck R,
               chl := mapSet s.chl R (linsertNew ck ((s.chl R).getD [])) } := by
    rw [e1, hrcck, hrc]
    rw [show incWrap ((none : Option Nat).getD 0) = 1 from rfl]
    rw [show incWrap ((some c).getD 0) = incWrap c from rfl, incWrap_small c hlt]
  rw [e1b]
  have e2 := deref_child_zero f ck R
    ({ s with rc := (mapSet (mapSet s.rc ck 1) R (c + 1)),
              par := mapSet s.par ck R,
              chl := mapSet s.chl R (linsertNew ck ((s.chl R).getD [])) } : Mgr)
    1 (c + 1) (linsertNew ck ((s.chl R).getD []))
    (by show mapSet (mapSet s.rc ck 1) R (c + 1) ck = some 1
        rw [mapSet_ne _ _ _ _ (Ne.symm hne), mapSet_self])
    (show decWrap 1 = 0 from rfl)
    (mapSet_self _ _ _)
    (mapSet_self _ _ _)
    (by rw [decWrap_succ c hlt]; omega)
    (by show mapSet s.par ck R R = none
        rw [mapSet_ne _ _ _ _ hne]; exact hroot)
    (mapSet_self _ _ _)
    (by show mapSet s.chl R (linsertNew ck ((s.chl R).getD [])) ck = none
        rw [mapSet_ne _ _ _ _ (Ne.symm hne)]; exact hchl)
  rw [e2]
  have hRC : mapErase (mapSet (mapSet
      (mapSet (mapSet s.rc ck 1) R (c + 1)) ck 0) R (decWrap (c + 1))) ck = s.rc := by
    funext x
    by_cases hx : x = ck
    · rw [hx, mapErase_self, hrcck]
    · rw [mapErase_ne _ _ _ hx]
      by_cases hxr : x = R
      · rw [hxr, mapSet_self, decWrap_succ c hlt, hrc]
      · rw [mapSet_ne _ _ _ _ hxr, mapSet_ne _ _ _ _ hx,
          mapSet_ne _ _ _ _ hxr, mapSet_ne _ _ _ _ hx]
  have hPAR : mapErase (mapSet s.par ck R) ck = s.par := by
    funext x
    by_cases hx : x = ck
    · rw [hx, mapErase_self, hpar]
    · rw [mapErase_ne _ _ _ hx, mapSet_ne _ _ _ _ hx]
  have hCHL : mapErase (mapSet (mapSet s.chl R (linsertNew ck ((s.chl R).getD []))) R
      (lerase ck (linsertNew ck ((s.chl R).getD [])))) ck
      = mapSet s.chl R ((s.chl R).getD []) := by
    funext x
    by_cases hx : x = ck
    · rw [hx, mapErase_self]
      show none = mapSet s.chl R ((s.chl R).getD []) ck
      rw [mapSet_ne _ _ _ _ (Ne.symm hne), hchl]
    · rw [mapErase_ne _ _ _ hx]
      by_cases hxr : x = R
      · rw [hxr, mapSet_self, lerase_linsertNew ck _ hckL]
        show some ((s.chl R).getD []) = mapSet s.chl R ((s.chl R).getD []) R
        rw [mapSet_self]
      · rw [mapSet_ne _ _ _ _ hxr, mapSet_ne _ _ _ _ hxr, mapSet_ne _ _ _ _ hxr]
  show Mgr.mk (mapErase (mapSet (mapSet
      (mapSet (mapSet s.rc ck 1) R (c + 1)) ck 0) R (decWrap (c + 1))) ck)
      (mapErase (mapSet s.par ck R) ck)
      (mapErase (mapSet (mapSet s.chl R (linsertNew ck ((s.chl R).getD []))) R
        (lerase ck (linsertNew ck ((s.chl R).getD [])))) ck) =
      { s with chl := mapSet s.chl R ((s.chl R).getD []) }
  rw [hRC, hPAR, hCHL]

theorem regchild_self_round (f : Nat) (s : Mgr) (R : Key) (c : Nat)
    (hroot : s.par R = none) (hrc : s.rc R = some c)
    (h1 : 1 ≤ c) (hlt : c + 1 < two64) :
    mgrRun (f + 1) (MCall.deref R) (refRun (f + 1) R (relationship R R s)) = s := by
  have e1 : refRun (f + 1) R (relationship R R s) =
      { s with rc := mapSet s.rc R (incWrap ((s.rc R).getD 0)) } := regchild_self f s R hroot
  have e1b : refRun (f + 1) R (relationship R R s) =
      { s with rc := mapSet s.rc R (c + 1) } := by
    rw [e1, hrc]
    rw [show incWrap ((some c).getD 0) = incWrap c from rfl, incWrap_small c hlt]
  rw [e1b]
  have e2 : mgrRun (f + 1) (MCall.deref R) ({ s with rc := mapSet s.rc R (c + 1) } : Mgr) =
      { ({ s with rc := mapSet s.rc R (c + 1) } : Mgr) with
        rc := mapSet (mapSet s.rc R (c + 1)) R (decWrap (c + 1)) } :=
    deref_root_live f R _ (c + 1) (mapSet_self _ _ _)
      (by rw [decWrap_succ c hlt]; omega) hroot
  rw [e2]
  have hRC : mapSet (mapSet s.rc R (c + 1)) R (decWrap (c + 1)) = s.rc := by
    funext x
    by_cases hx : x = R
    · rw [hx, mapSet_self, decWrap_succ c hlt, hrc]
    · rw [mapSet_ne _ _ _ _ hx, mapSet_ne _ _ _ _ hx]
  show Mgr.mk (mapSet (mapSet s.rc R (c + 1)) R (decWrap (c + 1))) s.par s.chl = s
  rw [hRC]

theorem childrenOf_setL (s : Mgr) (R : Key) :
    ∀ x, childrenOf { s with chl := mapSet s.chl R ((s.chl R).getD []) } x
      = childrenOf s x := by
  intro x
  show (mapSet s.chl R ((s.chl R).getD []) x).getD [] = (s.chl x).getD []
  by_cases hx : x = R
  · rw [hx, mapSet_self, Option.getD_some]
  · rw [mapSet_ne _ _ _ _ hx]

theorem EC_setL (s : Mgr) (R : Key) (h : EdgeConsistent s) :
    EdgeConsistent { s with chl := mapSet s.chl R ((s.chl R).getD []) } := by
  intro p l hl c hc
  show s.par c = some p
  by_cases hp : p = R
  · subst hp
    have hl2 : mapSet s.chl p ((s.chl p).getD []) p = some l := hl
    rw [mapSet_self] at hl2
    have hleq : l = (s.chl p).getD [] := (Option.some.inj hl2).symm
    cases hcl : s.chl p with
    | none =>
      rw [hleq, hcl] at hc
      exact absurd hc (List.not_mem_nil c)
    | some L0 =>
      refine h p L0 hcl c ?_
      rw [hleq, hcl] at hc
      exact hc
  · have hl2 : mapSet s.chl R ((s.chl R).getD []) p = some l := hl
    rw [mapSet_ne _ _ _ _ hp] at hl2
    exact h p l hl2 c hc

theorem Dup_setL (s : Mgr) (R : Key) (h : ChlDupFree s) :
    ChlDupFree { s with chl := mapSet s.chl R ((s.chl R).getD []) } := by
  intro p l hl
  by_cases hp : p = R
  · subst hp
    have hl2 : mapSet s.chl p ((s.chl p).getD []) p = some l := hl
    rw [mapSet_self] at hl2
    have hleq : l = (s.chl p).getD [] := (Option.some.inj hl2).symm
    cases hcl : s.chl p with
    | none => rw [hleq, hcl]; exact List.nodup_nil
    | some L0 =>
      rw [hleq, hcl]
      exact h p L0 hcl
  · have hl2 : mapSet s.chl R ((s.chl R).getD []) p = some l := hl
    rw [mapSet_ne _ _ _ _ hp] at hl2
    exact h p l hl2

/-! ### Per-operation dangling lemmas -/

theorem addrFresh_par (s : Mgr) (a2 : Nat) (hfa : AddrFresh s a2) :
    ∀ sz, s.par (a2, sz) = none := fun sz => (hfa sz).1.2.1

theorem addrFresh_ne (s : Mgr) (a2 : Nat) (v : Key) (hfa : AddrFresh s a2)
    (hvpres : s.rc v ≠ none) : ∀ sz, v ≠ (a2, sz) := by
  intro sz he
  rw [he] at hvpres
  exact hvpres (hfa sz).1.1

theorem dealloc_gone (f : Nat) (s : Mgr) (m : Mem) (ks : List Key) (v : Key)
    (m2 : Mem) (g2 : Mgr)
    (halloc : m.allocated = true)
    (hEC : EdgeConsistent s) (hDup : ChlDupFree s) (hroot : s.par m.key = none)
    (hnd : (m.key :: ks).Nodup) (hpres : AllPresent s (m.key :: ks))
    (hch : ChainFrom s m.key ks) (hv : v ∈ ks) (hf : ks.length + 1 ≤ f)
    (hrun : deallocateM f s m = Except.ok (m2, g2)) : g2.rc v = none := by
  rw [deallocateM_eq f s m halloc] at hrun
  injection hrun with h2
  rw [Prod.mk.injEq] at h2
  rw [← h2.2]
  exact (cascade_gone f s m.key ks false v hEC hDup (parentGone_of_root s m.key hroot)
    hnd hpres hch hv hf).1

theorem clear_gone (f : Nat) (s : Mgr) (m : Mem) (ks : List Key) (v : Key)
    (m2 : Mem) (g2 : Mgr)
    (halloc : m.allocated = true)
    (hEC : EdgeConsistent s) (hDup : ChlDupFree s) (hroot : s.par m.key = none)
    (hnd : (m.key :: ks).Nodup) (hpres : AllPresent s (m.key :: ks))
    (hch : ChainFrom s m.key ks) (hv : v ∈ ks) (hf : ks.length + 1 ≤ f)
    (hrun : clearM f s m = Except.ok (m2, g2)) : g2.rc v = none := by
  unfold clearM at hrun
  rw [throwIf_alloc m halloc] at hrun
  exact dealloc_gone f s m ks v m2 g2 halloc hEC hDup hroot hnd hpres hch hv hf hrun

theorem append_gone (f a t : Nat) (s : Mgr) (m d : Mem) (ks : List Key) (v : Key)
    (m2 : Mem) (g2 : Mgr)
    (hes : m.elemSize = 1) (hvar : m.variadic = false) (halloc : m.allocated = true)
    (hEC : EdgeConsistent s) (hDup : ChlDupFree s) (hroot : s.par m.key = none)
    (hnd : (m.key :: ks).Nodup) (hpres : AllPresent s (m.key :: ks))
    (hch : ChainFrom s m.key ks) (hv : v ∈ ks) (hf : ks.length + 1 ≤ f)
    (hfa : AddrFresh s a) (hft : AddrFresh s t)
    (hpd : s.par d.key = none) (hdk : d.key ∉ m.key :: ks)
    (hrun : appendM f a t s m d = Except.ok (m2, g2)) : g2.rc v = none := by
  unfold appendM at hrun
  rw [throwIf_alloc m halloc, hes, hvar] at hrun
  cases hri : reinterpretM f s d 1 false with
  | error e =>
    simp only [hri] at hrun
    exact Except.noConfusion hrun
  | ok pr =>
    obtain ⟨dsub, g1⟩ := pr
    simp only [hri] at hrun
    obtain ⟨hsub, hg1⟩ := reinterpret_es1 f s d dsub g1 hri
    have hg1par : g1.par = s.par := by rw [hg1, refRun_par]
    have hg1chl : g1.chl = s.chl := by rw [hg1, refRun_chl]
    have hvpres : s.rc v ≠ none := hpres v (List.mem_cons_of_mem _ hv)
    have hvd : v ≠ d.key := by
      intro he
      rw [he] at hv
      exact hdk (List.mem_cons_of_mem _ hv)
    have hg1pres : AllPresent g1 (m.key :: ks) := by
      intro x hx
      have hxd : x ≠ d.key := by
        intro he
        rw [he] at hx
        exact hdk hx
      rw [hg1, refRun_rc_other_root f d.key s x hpd hxd]
      exact hpres x hx
    cases hrs : resizeM f a t g1 m (m.msize + dsub.msize) true with
    | error e =>
      simp only [hrs] at hrun
      exact Except.noConfusion hrun
    | ok pr2 =>
      obtain ⟨m2a, g2a⟩ := pr2
      simp only [hrs] at hrun
      have hres := resize_core f a t (m.msize + dsub.msize) true g1 m ks v m2a g2a
        hes hvar halloc
        (EC_congr s g1 hg1par hg1chl hEC)
        (Dup_congr s g1 hg1chl hDup)
        (by rw [hg1par]; exact hroot)
        hnd hg1pres
        (chainFrom_congr s g1 hg1par (fun x => by unfold childrenOf; rw [hg1chl]) ks m.key hch)
        hv hf
        (fun sz => Or.inl (by rw [hg1par]; exact addrFresh_par s a hfa sz))
        (fun sz => Or.inl (by rw [hg1par]; exact addrFresh_par s t hft sz))
        (addrFresh_ne s a v hfa hvpres)
        (addrFresh_ne s t v hft hvpres)
        hrs
      cases hwm : writeMemM f g2a m2a (m2a.msize - dsub.msize) dsub true with
      | error e =>
        simp only [hwm] at hrun
        exact Except.noConfusion hrun
      | ok g3 =>
        simp only [hwm] at hrun
        injection hrun with h2
        rw [Prod.mk.injEq] at h2
        rw [← h2.2]
        refine run_rc_none f _ _ v ?_
        refine writeMem_absence f g2a m2a _ dsub true g3 v ?_ ?_ ?_ ?_ ?_ hwm
        · rw [hres.2.1]; exact hes
        · rw [hres.2.2.1]; exact hvar
        · have hg2ad : g2a.par d.key = none :=
            hres.2.2.2 d.key (Or.inl (by rw [hg1par]; exact hpd))
          rw [hsub]
          exact hg2ad
        · rw [hsub]
          exact hvd
        · exact hres.1

theorem eq_or_mem_of_mem_linsertNew (k : Key) (l : List Key) (x : Key)
    (h : x ∈ linsertNew k l) : x = k ∨ x ∈ l := by
  unfold linsertNew at h
  split at h
  · exact Or.inr h
  · rcases List.mem_append.mp h with h | h
    · exact Or.inr h
    · exact Or.inl (List.mem_singleton.mp h)

theorem childrenOf_nodup (X : Mgr) (hDup : ChlDupFree X) (p : Key) :
    ((X.chl p).getD []).Nodup := by
  cases h : X.chl p with
  | none => exact List.nodup_nil
  | some L0 => exact hDup p L0 h

theorem regchild_bundle (f : Nat) (X : Mgr) (R ck : Key) (hf2 : 2 ≤ f)
    (hne : R ≠ ck)
    (hEC : EdgeConsistent X) (hDup : ChlDupFree X)
    (hroot : X.par R = none) (hpar : X.par ck = none) :
    EdgeConsistent (refRun f ck (relationship R ck X)) ∧
    ChlDupFree (refRun f ck (relationship R ck X)) ∧
    (refRun f ck (relationship R ck X)).par R = none ∧
    (∀ x, x ≠ ck → (refRun f ck (relationship R ck X)).par x = X.par x) ∧
    (refRun f ck (relationship R ck X)).par ck = some R ∧
    (∀ x, x ≠ ck → x ≠ R → (refRun f ck (relationship R ck X)).rc x = X.rc x) ∧
    (refRun f ck (relationship R ck X)).rc ck ≠ none ∧
    (refRun f ck (relationship R ck X)).rc R ≠ none ∧
    ck ∈ childrenOf (refRun f ck (relationship R ck X)) R ∧
    (∀ p x, x ∈ childrenOf X p → x ∈ childrenOf (refRun f ck (relationship R ck X)) p) := by
  obtain ⟨f2, rfl⟩ : ∃ f2, f = f2 + 2 := ⟨f - 2, by omega⟩
  rw [regchild_fresh f2 X R ck hne hpar hroot]
  refine ⟨?_, ?_, ?_, ?_, ?_, ?_, ?_, ?_, ?_, ?_⟩
  · intro p l hl x hx
    show mapSet X.par ck R x = some p
    by_cases hp : p = R
    · subst hp
      have hl2 : mapSet X.chl p (linsertNew ck ((X.chl p).getD [])) p = some l := hl
      rw [mapSet_self] at hl2
      have hleq : l = linsertNew ck ((X.chl p).getD []) := (Option.some.inj hl2).symm
      rw [hleq] at hx
      rcases eq_or_mem_of_mem_linsertNew ck _ x hx with hxck | hxmem
      · rw [hxck, mapSet_self]
      · have hxp : X.par x = some p := by
          cases hcl : X.chl p with
          | none =>
            rw [hcl] at hxmem
            exact absurd hxmem (List.not_mem_nil x)
          | some L0 =>
            refine hEC p L0 hcl x ?_
            rw [hcl] at hxmem
            exact hxmem
        have hxck2 : x ≠ ck := by
          intro he
          rw [he, hpar] at hxp
          exact Option.noConfusion hxp
        rw [mapSet_ne _ _ _ _ hxck2]
        exact hxp
    · have hl2 : mapSet X.chl R (linsertNew ck ((X.chl R).getD [])) p = some l := hl
      rw [mapSet_ne _ _ _ _ hp] at hl2
      have hxp : X.par x = some p := hEC p l hl2 x hx
      have hxck2 : x ≠ ck := by
        intro he
        rw [he, hpar] at hxp
        exact Option.noConfusion hxp
      rw [mapSet_ne _ _ _ _ hxck2]
      exact hxp
  · intro p l hl
    by_cases hp : p = R
    · subst hp
      have hl2 : mapSet X.chl p (linsertNew ck ((X.chl p).getD [])) p = some l := hl
      rw [mapSet_self] at hl2
      rw [← Option.some.inj hl2]
      exact linsertNew_nodup ck _ (childrenOf_nodup X hDup p)
    · have hl2 : mapSet X.chl R (linsertNew ck ((X.chl R).getD [])) p = some l := hl
      rw [mapSet_ne _ _ _ _ hp] at hl2
      exact hDup p l hl2
  · show mapSet X.par ck R R = none
    rw [mapSet_ne _ _ _ _ hne]
    exact hroot
  · intro x hx
    show mapSet X.par ck R x = X.par x
    rw [mapSet_ne _ _ _ _ hx]
  · exact mapSet_self _ _ _
  · intro x hx hxR
    show mapSet (mapSet X.rc ck (incWrap ((X.rc ck).getD 0))) R
      (incWrap ((X.rc R).getD 0)) x = X.rc x
    rw [mapSet_ne _ _ _ _ hxR, mapSet_ne _ _ _ _ hx]
  · show mapSet (mapSet X.rc ck (incWrap ((X.rc ck).getD 0))) R
      (incWrap ((X.rc R).getD 0)) ck ≠ none
    rw [mapSet_ne _ _ _ _ (Ne.symm hne), mapSet_self]
    intro h
    exact Option.noConfusion h
  · show mapSet (mapSet X.rc ck (incWrap ((X.rc ck).getD 0))) R
      (incWrap ((X.rc R).getD 0)) R ≠ none
    rw [mapSet_self]
    intro h
    exact Option.noConfusion h
  · show ck ∈ (mapSet X.chl R (linsertNew ck ((X.chl R).getD [])) R).getD []
    rw [mapSet_self, Option.getD_some]
    exact self_mem_linsertNew ck _
  · intro p x hx
    by_cases hp : p = R
    · subst hp
      show x ∈ (mapSet X.chl p (linsertNew ck ((X.chl p).getD [])) p).getD []
      rw [mapSet_self, Option.getD_some]
      exact mem_linsertNew ck _ x hx
    · show x ∈ (mapSet X.chl R (linsertNew ck ((X.chl R).getD [])) p).getD []
      rw [mapSet_ne _ _ _ _ hp]
      exact hx

theorem regself_bundle (f : Nat) (X : Mgr) (R : Key) (hf1 : 1 ≤ f)
    (hroot : X.par R = none) :
    (refRun f R (relationship R R X)).par = X.par ∧
    (refRun f R (relationship R R X)).chl = X.chl ∧
    (∀ x, x ≠ R → (refRun f R (relationship R R X)).rc x = X.rc x) ∧
    (refRun f R (relationship R R X)).rc R ≠ none := by
  obtain ⟨f1, rfl⟩ : ∃ f1, f = f1 + 1 := ⟨f - 1, by omega⟩
  rw [regchild_self f1 X R hroot]
  refine ⟨rfl, rfl, ?_, ?_⟩
  · intro x hx
    show mapSet X.rc R (incWrap ((X.rc R).getD 0)) x = X.rc x
    rw [mapSet_ne _ _ _ _ hx]
  · show mapSet X.rc R (incWrap ((X.rc R).getD 0)) R ≠ none
    rw [mapSet_self]
    intro h
    exact Option.noConfusion h

theorem realloc_at_like (f a2 t1 t2 sz : Nat) (s Z : Mgr) (m : Mem)
    (ks : List Key) (v : Key) (m2a : Mem) (g3 : Mgr)
    (hes : m.elemSize = 1) (hvar : m.variadic = false) (halloc : m.allocated = true)
    (hZEC : EdgeConsistent Z) (hZDup : ChlDupFree Z)
    (hZpar : Z.par = s.par) (hZrc : Z.rc = s.rc)
    (hZch : ∀ x, childrenOf Z x = childrenOf s x)
    (hroot : s.par m.key = none)
    (hnd : (m.key :: ks).Nodup) (hpres : AllPresent s (m.key :: ks))
    (hch : ChainFrom s m.key ks) (hv : v ∈ ks) (hf : ks.length + 1 ≤ f)
    (hfa : AddrFresh s a2) (hft1 : AddrFresh s t1) (hft2 : AddrFresh s t2)
    (hre : reallocateM f a2 t1 Z m sz false = Except.ok (m2a, g3)) :
    g3.rc v = none ∧ m2a.elemSize = m.elemSize ∧ m2a.variadic = m.variadic ∧
      (∀ sz2, g3.par (t2, sz2) = none) := by
  have hvpres : s.rc v ≠ none := hpres v (List.mem_cons_of_mem _ hv)
  have hcore := realloc_core f a2 t1 sz false Z m ks v m2a g3 hes hvar halloc hZEC hZDup
    (by rw [hZpar]; exact hroot) hnd
    (fun x hx => by rw [hZrc]; exact hpres x hx)
    (chainFrom_congr s Z hZpar hZch ks m.key hch) hv hf
    (fun sz2 => Or.inl (by rw [hZpar]; exact addrFresh_par s a2 hfa sz2))
    (fun sz2 => Or.inl (by rw [hZpar]; exact addrFresh_par s t1 hft1 sz2))
    (addrFresh_ne s a2 v hfa hvpres)
    (addrFresh_ne s t1 v hft1 hvpres)
    hre
  exact ⟨hcore.1, hcore.2.1, hcore.2.2.1,
    fun sz2 => hcore.2.2.2 (t2, sz2)
      (Or.inl (by rw [hZpar]; exact addrFresh_par s t2 hft2 sz2))⟩

theorem erase_gone (f a t1 t2 : Nat) (s : Mgr) (m : Mem) (start stop : Nat) (inB : Bool)
    (ks : List Key) (v : Key) (c : Nat) (m2 : Mem) (g2 : Mgr)
    (hes : m.elemSize = 1) (hvar : m.variadic = false) (halloc : m.allocated = true)
    (hEC : EdgeConsistent s) (hDup : ChlDupFree s) (hroot : s.par m.key = none)
    (hnd : (m.key :: ks).Nodup) (hpres : AllPresent s (m.key :: ks))
    (hch : ChainFrom s m.key ks) (hv : v ∈ ks) (hf : ks.length + 2 ≤ f)
    (hcnt : s.rc m.key = some c) (hc1 : 1 ≤ c) (hclt : c + 4 < two64)
    (hfa : AddrFresh s a) (hft1 : AddrFresh s t1) (hft2 : AddrFresh s t2)
    (htk : (m.addr + stop, m.msize - stop) = m.key ∨ Fresh2 s (m.addr + stop, m.msize - stop))
    (hrun : eraseM f a t1 t2 s m start stop inB = Except.ok (m2, g2)) : g2.rc v = none := by
  have hkslen : 1 ≤ ks.length := List.length_pos.mpr (List.ne_nil_of_mem hv)
  have hvpres : s.rc v ≠ none := hpres v (List.mem_cons_of_mem _ hv)
  obtain ⟨f0, rfl⟩ : ∃ f0, f = f0 + 3 := ⟨f - 3, by omega⟩
  unfold eraseM at hrun
  simp only [throwIf_alloc m halloc, elementSize_es1 m hes hvar, hes, hvar,
    Nat.mul_one, Nat.div_one, ite_self] at hrun
  by_cases hwhole : start = 0 ∧ stop = m.msize
  · rw [if_pos hwhole] at hrun
    exact dealloc_gone (f0 + 3) s m ks v m2 g2 halloc hEC hDup hroot hnd hpres hch hv
      (by omega) hrun
  · rw [if_neg hwhole] at hrun
    by_cases hoob : stop > m.msize
    · rw [if_pos hoob] at hrun
      exact Except.noConfusion hrun
    · rw [if_neg hoob] at hrun
      by_cases htail : stop = m.msize
      · -- the erased range ends exactly at the byte size: no tail is saved
        rw [if_neg (not_not_intro htail)] at hrun
        split at hrun
        next e heq => exact Except.noConfusion heq
        next g2t heq =>
          have hg2t : s = g2t := Except.ok.inj heq
          subst hg2t
          cases hre : reallocateM (f0 + 3) a t1 s m (m.msize - (stop - start)) false with
          | error e =>
            simp only [hre] at hrun
            exact Except.noConfusion hrun
          | ok pr =>
            obtain ⟨m2a, g3⟩ := pr
            simp only [hre] at hrun
            rw [if_neg (not_not_intro htail)] at hrun
            injection hrun with h2
            rw [Prod.mk.injEq] at h2
            rw [← h2.2]
            exact (realloc_at_like (f0 + 3) a t1 t2 (m.msize - (stop - start)) s s m ks v
              m2a g3 hes hvar halloc hEC hDup rfl rfl (fun _ => rfl) hroot hnd hpres hch hv
              (by omega) hfa hft1 hft2 hre).1
      · -- a proper tail: saved through a temporary sub-view, then written back
        rw [if_pos htail] at hrun
        cases hsb : subsectionBytesM (f0 + 3) s m stop (m.msize - stop) 1 false with
        | error e =>
          simp only [hsb] at hrun
          exact Except.noConfusion hrun
        | ok pr =>
          obtain ⟨sub, g1t⟩ := pr
          simp only [hsb] at hrun
          obtain ⟨hsubv, hg1t, hstoplt⟩ :=
            subsection_es1 (f0 + 3) s m stop (m.msize - stop) sub g1t hes hvar hsb
          have hZ : mgrRun (f0 + 3) (MCall.deref sub.key) g1t =
              { s with chl := mapSet s.chl m.key ((s.chl m.key).getD []) } ∨
              mgrRun (f0 + 3) (MCall.deref sub.key) g1t = s := by
            rcases htk with htk | htk
            · right
              rw [hg1t, hsubv]
              show mgrRun (f0 + 3) (MCall.deref (m.addr + stop, m.msize - stop))
                (refRun (f0 + 3) (m.addr + stop, m.msize - stop)
                  (relationship m.key (m.addr + stop, m.msize - stop) s)) = s
              rw [htk]
              exact regchild_self_round (f0 + 2) s m.key c hroot hcnt hc1 (by omega)
            · left
              rw [hg1t, hsubv]
              show mgrRun (f0 + 3) (MCall.deref (m.addr + stop, m.msize - stop))
                (refRun (f0 + 3) (m.addr + stop, m.msize - stop)
                  (relationship m.key (m.addr + stop, m.msize - stop) s)) = _
              exact regchild_round f0 s m.key (m.addr + stop, m.msize - stop) c htk hroot
                hcnt hc1 (by omega) hEC
          rcases hZ with hZ | hZ
          · rw [hZ] at hrun
            cases hre : reallocateM (f0 + 3) a t1
                ({ s with chl := mapSet s.chl m.key ((s.chl m.key).getD []) } : Mgr) m
                (m.msize - (stop - start)) false with
            | error e =>
              simp only [hre] at hrun
              exact Except.noConfusion hrun
            | ok pr2 =>
              obtain ⟨m2a, g3⟩ := pr2
              simp only [hre] at hrun
              rw [if_pos htail] at hrun
              have hlike := realloc_at_like (f0 + 3) a t1 t2 (m.msize - (stop - start)) s
                ({ s with chl := mapSet s.chl m.key ((s.chl m.key).getD []) } : Mgr) m ks v
                m2a g3 hes hvar halloc (EC_setL s m.key hEC) (Dup_setL s m.key hDup)
                rfl rfl (childrenOf_setL s m.key) hroot hnd hpres hch hv (by omega)
                hfa hft1 hft2 hre
              split at hrun
              next e heq => exact Except.noConfusion hrun
              next g4 heq =>
                injection hrun with h2
                rw [Prod.mk.injEq] at h2
                rw [← h2.2]
                refine writePtr_absence (f0 + 3) g3 m2a start _ 1 false true g4 v ?_ ?_
                  (hlike.2.2.2 _) (addrFresh_ne s t2 v hft2 hvpres _) hlike.1 heq
                · rw [hlike.2.1]; exact hes
                · rw [hlike.2.2.1]; exact hvar
          · rw [hZ] at hrun
            cases hre : reallocateM (f0 + 3) a t1 s m (m.msize - (stop - start)) false with
            | error e =>
              simp only [hre] at hrun
              exact Except.noConfusion hrun
            | ok pr2 =>
              obtain ⟨m2a, g3⟩ := pr2
              simp only [hre] at hrun
              rw [if_pos htail] at hrun
              have hlike := realloc_at_like (f0 + 3) a t1 t2 (m.msize - (stop - start)) s s m
                ks v m2a g3 hes hvar halloc hEC hDup rfl rfl (fun _ => rfl) hroot hnd hpres
                hch hv (by omega) hfa hft1 hft2 hre
              split at hrun
              next e heq => exact Except.noConfusion hrun
              next g4 heq =>
                injection hrun with h2
                rw [Prod.mk.injEq] at h2
                rw [← h2.2]
                refine writePtr_absence (f0 + 3) g3 m2a start _ 1 false true g4 v ?_ ?_
                  (hlike.2.2.2 _) (addrFresh_ne s t2 v hft2 hvpres _) hlike.1 heq
                · rw [hlike.2.1]; exact hes
                · rw [hlike.2.2.1]; exact hvar

theorem insert_gone (f a t1 t2 : Nat) (s : Mgr) (m d : Mem) (off : Nat) (offB : Bool)
    (ks : List Key) (v : Key) (m2 : Mem) (g2 : Mgr)
    (hes : m.elemSize = 1) (hvar : m.variadic = false) (halloc : m.allocated = true)
    (hEC : EdgeConsistent s) (hDup : ChlDupFree s) (hroot : s.par m.key = none)
    (hnd : (m.key :: ks).Nodup) (hpres : AllPresent s (m.key :: ks))
    (hch : ChainFrom s m.key ks) (hv : v ∈ ks) (hf : ks.length + 2 ≤ f)
    (hfa : AddrFresh s a) (hft1 : AddrFresh s t1) (hft2 : AddrFresh s t2)
    (hpd : s.par d.key = none) (hdk : d.key ∉ m.key :: ks)
    (hlf : Fresh2 s (m.addr, off))
    (hrk : (m.addr + off, m.msize - off) = m.key ∨ Fresh2 s (m.addr + off, m.msize - off))
    (hrun : insertM f a t1 t2 s m off d offB = Except.ok (m2, g2)) : g2.rc v = none := by
  have hkslen : 1 ≤ ks.length := List.length_pos.mpr (List.ne_nil_of_mem hv)
  have hvpres : s.rc v ≠ none := hpres v (List.mem_cons_of_mem _ hv)
  have hmpres : s.rc m.key ≠ none := hpres m.key (List.mem_cons_self _ _)
  have hvd : v ≠ d.key := by
    intro he
    rw [he] at hv
    exact hdk (List.mem_cons_of_mem _ hv)
  unfold insertM at hrun
  simp only [throwIf_alloc m halloc, elementSize_es1 m hes hvar, hes, hvar,
    Nat.mul_one, Nat.div_one, ite_self] at hrun
  split at hrun
  next => exact Except.noConfusion hrun
  next =>
    cases hri : reinterpretM f s d 1 false with
    | error e =>
      simp only [hri] at hrun
      exact Except.noConfusion hrun
    | ok pr =>
      obtain ⟨dsub, g1⟩ := pr
      simp only [hri] at hrun
      obtain ⟨hsub, hg1⟩ := reinterpret_es1 f s d dsub g1 hri
      have hg1par : g1.par = s.par := by rw [hg1, refRun_par]
      have hg1chl : g1.chl = s.chl := by rw [hg1, refRun_chl]
      have hg1rco : ∀ x, x ≠ d.key → g1.rc x = s.rc x := fun x hx => by
        rw [hg1, refRun_rc_other_root f d.key s x hpd hx]
      cases hsp : splitAtM f g1 m off false with
      | error e =>
        simp only [hsp] at hrun
        exact Except.noConfusion hrun
      | ok pr2 =>
        obtain ⟨lr, g2s⟩ := pr2
        obtain ⟨l, r⟩ := lr
        simp only [hsp] at hrun
        obtain ⟨hl, hr, hg2s, hofflt⟩ := splitAt_es1 f g1 m off l r g2s hes hvar hsp
        have hm_lneq : m.key ≠ (m.addr, off) := by
          intro he
          rw [← he] at hlf
          exact hmpres hlf.1.1
        have hrl : (m.addr + off, m.msize - off) ≠ (m.addr, off) := by
          intro he
          rw [Prod.mk.injEq] at he
          omega
        have hbL := regchild_bundle f g1 m.key (m.addr, off) (by omega) hm_lneq
          (EC_congr s g1 hg1par hg1chl hEC) (Dup_congr s g1 hg1chl hDup)
          (by rw [hg1par]; exact hroot) (by rw [hg1par]; exact hlf.1.2.1)
        obtain ⟨hLEC, hLDup, hLroot, hLparo, hLparck, hLrco, hLrcck, hLrcR, hLmem, hLsup⟩ := hbL
        have hfacts : EdgeConsistent g2s ∧ ChlDupFree g2s ∧ g2s.par m.key = none ∧
            AllPresent g2s (m.key :: ks) ∧ ChainFrom g2s m.key ks ∧
            (∀ α : Nat, AddrFresh s α → ∀ sz2, g2s.par (α, sz2) = none ∨
              (ChainLink g2s m.key (α, sz2) ∧ g2s.rc (α, sz2) ≠ none)) ∧
            (g2s.par d.key = none ∨ (ChainLink g2s m.key d.key ∧ g2s.rc d.key ≠ none)) := by
          rcases hrk with hrkm | hrkf
          · rw [hrkm] at hg2s
            have hbS := regself_bundle f
              (refRun f (m.addr, off) (relationship m.key (m.addr, off) g1)) m.key
              (by omega) hLroot
            rw [← hg2s] at hbS
            obtain ⟨hSpar, hSchl, hSrco, hSrcR⟩ := hbS
            have hchl2 : ∀ x, childrenOf g2s x = childrenOf
                (refRun f (m.addr, off) (relationship m.key (m.addr, off) g1)) x := by
              intro x
              unfold childrenOf
              rw [hSchl]
            refine ⟨EC_congr _ g2s hSpar hSchl hLEC, Dup_congr _ g2s hSchl hLDup,
              by rw [hSpar]; exact hLroot, ?_, ?_, ?_, ?_⟩
            · intro x hx
              by_cases hxm : x = m.key
              · rw [hxm]; exact hSrcR
              · have hxl : x ≠ (m.addr, off) := by
                  intro he
                  have hxp := hpres x hx
                  rw [he] at hxp
                  exact hxp hlf.1.1
                rw [hSrco x hxm, hLrco x hxl hxm, hg1rco x (fun he => hdk (he ▸ hx))]
                exact hpres x hx
            · refine chainFrom_mono s g2s ?_ ?_ ks m.key hch
              · intro x p hxp
                have hxl : x ≠ (m.addr, off) := by
                  intro he
                  rw [he, hlf.1.2.1] at hxp
                  exact Option.noConfusion hxp
                rw [hSpar, hLparo x hxl, hg1par]
                exact hxp
              · intro p x hx
                rw [hchl2]
                refine hLsup p x ?_
                show x ∈ (g1.chl p).getD []
                rw [hg1chl]
                exact hx
            · intro α hfr2 sz2
              by_cases hel : (α, sz2) = (m.addr, off)
              · right
                rw [hel]
                refine ⟨⟨?_, ?_⟩, ?_⟩
                · rw [hSpar]; exact hLparck
                · rw [hchl2]; exact hLmem
                · rw [hSrco _ (Ne.symm hm_lneq)]
                  exact hLrcck
              · left
                rw [hSpar, hLparo _ hel, hg1par]
                exact (hfr2 sz2).1.2.1
            · by_cases hel : d.key = (m.addr, off)
              · right
                rw [hel]
                refine ⟨⟨?_, ?_⟩, ?_⟩
                · rw [hSpar]; exact hLparck
                · rw [hchl2]; exact hLmem
                · rw [hSrco _ (Ne.symm hm_lneq)]
                  exact hLrcck
              · left
                rw [hSpar, hLparo _ hel, hg1par]
                exact hpd
          · have hm_rneq : m.key ≠ (m.addr + off, m.msize - off) := by
              intro he
              rw [← he] at hrkf
              exact hmpres hrkf.1.1
            have hbR := regchild_bundle f
              (refRun f (m.addr, off) (relationship m.key (m.addr, off) g1)) m.key
              (m.addr + off, m.msize - off) (by omega) hm_rneq hLEC hLDup hLroot
              (by rw [hLparo _ hrl, hg1par]; exact hrkf.1.2.1)
            rw [← hg2s] at hbR
            obtain ⟨hREC, hRDup, hRroot, hRparo, hRparck, hRrco, hRrcck, hRrcR, hRmem,
              hRsup⟩ := hbR
            refine ⟨hREC, hRDup, hRroot, ?_, ?_, ?_, ?_⟩
            · intro x hx
              by_cases hxm : x = m.key
              · rw [hxm]; exact hRrcR
              · have hxl : x ≠ (m.addr, off) := by
                  intro he
                  have hxp := hpres x hx
                  rw [he] at hxp
                  exact hxp hlf.1.1
                have hxr : x ≠ (m.addr + off, m.msize - off) := by
                  intro he
                  have hxp := hpres x hx
                  rw [he] at hxp
                  exact hxp hrkf.1.1
                rw [hRrco x hxr hxm, hLrco x hxl hxm, hg1rco x (fun he => hdk (he ▸ hx))]
                exact hpres x hx
            · refine chainFrom_mono s g2s ?_ ?_ ks m.key hch
              · intro x p hxp
                have hxl : x ≠ (m.addr, off) := by
                  intro he
                  rw [he, hlf.1.2.1] at hxp
                  exact Option.noConfusion hxp
                have hxr : x ≠ (m.addr + off, m.msize - off) := by
                  intro he
                  rw [he, hrkf.1.2.1] at hxp
                  exact Option.noConfusion hxp
                rw [hRparo x hxr, hLparo x hxl, hg1par]
                exact hxp
              · intro p x hx
                refine hRsup p x (hLsup p x ?_)
                show x ∈ (g1.chl p).getD []
                rw [hg1chl]
                exact hx
            · intro α hfr2 sz2
              by_cases hel : (α, sz2) = (m.addr, off)
              · right
                rw [hel]
                refine ⟨⟨?_, ?_⟩, ?_⟩
                · rw [hRparo _ (Ne.symm hrl)]
                  exact hLparck
                · exact hRsup m.key _ hLmem
                · rw [hRrco _ (Ne.symm hrl) (Ne.symm hm_lneq)]
                  exact hLrcck
              · by_cases her : (α, sz2) = (m.addr + off, m.msize - off)
                · right
                  rw [her]
                  exact ⟨⟨hRparck, hRmem⟩, hRrcck⟩
                · left
                  rw [hRparo _ her, hLparo _ hel, hg1par]
                  exact (hfr2 sz2).1.2.1
            · by_cases hel : d.key = (m.addr, off)
              · right
                rw [hel]
                refine ⟨⟨?_, ?_⟩, ?_⟩
                · rw [hRparo _ (Ne.symm hrl)]
                  exact hLparck
                · exact hRsup m.key _ hLmem
                · rw [hRrco _ (Ne.symm hrl) (Ne.symm hm_lneq)]
                  exact hLrcck
              · by_cases her : d.key = (m.addr + off, m.msize - off)
                · right
                  rw [her]
                  exact ⟨⟨hRparck, hRmem⟩, hRrcck⟩
                · left
                  rw [hRparo _ her, hLparo _ hel, hg1par]
                  exact hpd
        obtain ⟨hEC2, hDup2, hroot2, hpres2, hch2, hdich, hdichD⟩ := hfacts
        cases hre : reallocateM f a t1 g2s m (m.msize + dsub.msize) true with
        | error e =>
          simp only [hre] at hrun
          exact Except.noConfusion hrun
        | ok pr3 =>
          obtain ⟨m2a, g3⟩ := pr3
          simp only [hre] at hrun
          have hcore := realloc_core f a t1 (m.msize + dsub.msize) true g2s m ks v m2a g3
            hes hvar halloc hEC2 hDup2 hroot2 hnd hpres2 hch2 hv (by omega)
            (fun sz2 => hdich a hfa sz2) (fun sz2 => hdich t1 hft1 sz2)
            (addrFresh_ne s a v hfa hvpres) (addrFresh_ne s t1 v hft1 hvpres) hre
          cases hwm : writeMemM f g3 m2a off dsub true with
          | error e =>
            simp only [hwm] at hrun
            exact Except.noConfusion hrun
          | ok g4 =>
            simp only [hwm] at hrun
            have hg4 : g4.rc v = none := by
              refine writeMem_absence f g3 m2a off dsub true g4 v ?_ ?_ ?_ ?_ hcore.1 hwm
              · rw [hcore.2.1]; exact hes
              · rw [hcore.2.2.1]; exact hvar
              · rw [hsub]
                exact hcore.2.2.2 d.key hdichD
              · rw [hsub]
                exact hvd
            have hg4p : ∀ sz2, g4.par (t2, sz2) = none := by
              intro sz2
              rcases writeMem_par f g3 m2a off dsub true g4
                (by rw [hcore.2.1]; exact hes) (by rw [hcore.2.2.1]; exact hvar)
                hwm (t2, sz2) with hq | hq
              · rw [hq]
                exact hcore.2.2.2 _ (hdich t2 hft2 sz2)
              · exact hq
            split at hrun
            next e heq => exact Except.noConfusion hrun
            next g5 heq =>
              injection hrun with h2
              rw [Prod.mk.injEq] at h2
              rw [← h2.2]
              refine run_rc_none f _ _ v (run_rc_none f _ _ v (run_rc_none f _ _ v ?_))
              exact writePtr_absence f g4 m2a (off + dsub.msize) _ 1 false true g5 v
                (by rw [hcore.2.1]; exact hes) (by rw [hcore.2.2.1]; exact hvar)
                (hg4p _) (addrFresh_ne s t2 v hft2 hvpres _) hg4 heq

theorem refRun_deref_round (f : Nat) (X : Mgr) (k : Key) (n : Nat)
    (hroot : X.par k = none) (hk : X.rc k = some n) (h1 : 1 ≤ n) (hn : n + 1 < two64) :
    mgrRun (f + 1) (MCall.deref k) (refRun (f + 1) k X) = X := by
  have h0 := regchild_self_round f X k n hroot hk h1 hn
  rwa [relationship_self] at h0

theorem refRun_deref_link_round (f : Nat) (X : Mgr) (k p : Key) (n np : Nat)
    (hk : X.rc k = some n) (hkp : X.par k = some p)
    (hnp : X.rc p = some np) (hpp : X.par p = none)
    (h1 : 1 ≤ n) (hn : n + 1 < two64) (hq1 : 1 ≤ np) (hqn : np + 1 < two64) :
    mgrRun (f + 2) (MCall.deref k) (refRun (f + 2) k X) = X := by
  have hkpne : k ≠ p := by
    intro he
    rw [he, hpp] at hkp
    exact Option.noConfusion hkp
  have e1 : refRun (f + 2) k X =
      { X with rc := mapSet (mapSet X.rc k (n + 1)) p (np + 1) } := by
    rw [refRun_link f k p X hkp hpp, hk, hnp]
    rw [show incWrap ((some n).getD 0) = incWrap n from rfl,
      show incWrap ((some np).getD 0) = incWrap np from rfl,
      incWrap_small n hn, incWrap_small np hqn]
  rw [e1]
  have e2 : mgrRun (f + 2) (MCall.deref k)
      ({ X with rc := mapSet (mapSet X.rc k (n + 1)) p (np + 1) } : Mgr) =
      { ({ X with rc := mapSet (mapSet X.rc k (n + 1)) p (np + 1) } : Mgr) with
        rc := mapSet (mapSet (mapSet (mapSet X.rc k (n + 1)) p (np + 1)) k (decWrap (n + 1)))
          p (decWrap (np + 1)) } :=
    deref_link_live f k p _ (n + 1) (np + 1)
      (by show mapSet (mapSet X.rc k (n + 1)) p (np + 1) k = some (n + 1)
          rw [mapSet_ne _ _ _ _ hkpne, mapSet_self])
      (by rw [decWrap_succ n hn]; omega)
      hkp
      (mapSet_self _ _ _)
      (by rw [decWrap_succ np hqn]; omega)
      hpp
  rw [e2]
  have hRC : mapSet (mapSet (mapSet (mapSet X.rc k (n + 1)) p (np + 1)) k (decWrap (n + 1)))
      p (decWrap (np + 1)) = X.rc := by
    funext x
    by_cases hxp : x = p
    · rw [hxp, mapSet_self, decWrap_succ np hqn, hnp]
    · rw [mapSet_ne _ _ _ _ hxp]
      by_cases hxk : x = k
      · rw [hxk, mapSet_self, decWrap_succ n hn, hk]
      · rw [mapSet_ne _ _ _ _ hxk, mapSet_ne _ _ _ _ hxp, mapSet_ne _ _ _ _ hxk]
  show Mgr.mk (mapSet (mapSet (mapSet (mapSet X.rc k (n + 1)) p (np + 1)) k (decWrap (n + 1)))
      p (decWrap (np + 1))) X.par X.chl = X
  rw [hRC]

theorem writePtr_live_root (f : Nat) (s : Mgr) (dst : Mem) (off : Nat) (k : Key) (n : Nat)
    (hf1 : 1 ≤ f)
    (hes : dst.elemSize = 1) (hvar : dst.variadic = false)
    (hk : s.rc k = some n) (hroot : s.par k = none) (h1 : 1 ≤ n) (hn : n + 2 < two64)
    (s3 : Mgr) (h : writePtrM f s dst off k 1 false true = Except.ok s3) : s3 = s := by
  obtain ⟨f0, rfl⟩ : ∃ f0, f = f0 + 1 := ⟨f - 1, by omega⟩
  unfold writePtrM at h
  split at h
  next => exact Except.noConfusion h
  next =>
    have hW1rc : (refRun (f0 + 1) k s).rc k = some (n + 1) := by
      rw [refRun_root f0 k s hroot]
      show mapSet s.rc k (incWrap ((s.rc k).getD 0)) k = some (n + 1)
      rw [mapSet_self, hk]
      rw [show incWrap ((some n).getD 0) = incWrap n from rfl, incWrap_small n (by omega)]
    have hW1par : (refRun (f0 + 1) k s).par k = none := by
      rw [refRun_par]
      exact hroot
    cases hw : writeMemM (f0 + 1) (refRun (f0 + 1) k s) dst off
        ⟨k.1, k.2, false, 1, false⟩ true with
    | error e =>
      simp only [hw] at h
      exact Except.noConfusion h
    | ok g4 =>
      simp only [hw] at h
      simp only [Except.ok.injEq] at h
      have hg4 : g4 = refRun (f0 + 1) k s := by
        unfold writeMemM at hw
        rw [hes, hvar] at hw
        cases hptr : ptrFn (refRun (f0 + 1) k s) dst with
        | error e =>
          simp only [hptr] at hw
          exact Except.noConfusion hw
        | ok oa =>
          cases oa with
          | none =>
            simp only [hptr] at hw
            exact Except.noConfusion hw
          | some aa =>
            simp only [hptr] at hw
            cases hri : reinterpretM (f0 + 1) (refRun (f0 + 1) k s)
                ⟨k.1, k.2, false, 1, false⟩ 1 false with
            | error e =>
              simp only [hri] at hw
              repeat' split at hw
              all_goals exact Except.noConfusion hw
            | ok pr =>
              obtain ⟨sub, s2x⟩ := pr
              simp only [hri] at hw
              obtain ⟨hsub, hs2x⟩ := reinterpret_es1 (f0 + 1) _ _ sub s2x hri
              repeat' split at hw
              all_goals try exact Except.noConfusion hw
              all_goals injection hw with hw2
              all_goals rw [← hw2, hsub, hs2x]
              all_goals exact refRun_deref_round f0 _ k (n + 1) hW1par hW1rc (by omega) (by omega)
      rw [hg4] at h
      rw [← h]
      exact refRun_deref_round f0 s k n hroot hk h1 (by omega)

theorem writePtr_live_link (f : Nat) (s : Mgr) (dst : Mem) (off : Nat) (k p : Key)
    (n np : Nat) (hf2 : 2 ≤ f)
    (hes : dst.elemSize = 1) (hvar : dst.variadic = false)
    (hk : s.rc k = some n) (hkp : s.par k = some p)
    (hnp : s.rc p = some np) (hpp : s.par p = none)
    (h1 : 1 ≤ n) (hn : n + 2 < two64) (hq1 : 1 ≤ np) (hqn : np + 2 < two64)
    (s3 : Mgr) (h : writePtrM f s dst off k 1 false true = Except.ok s3) : s3 = s := by
  obtain ⟨f0, rfl⟩ : ∃ f0, f = f0 + 2 := ⟨f - 2, by omega⟩
  have hkpne : k ≠ p := by
    intro he
    rw [he, hpp] at hkp
    exact Option.noConfusion hkp
  unfold writePtrM at h
  split at h
  next => exact Except.noConfusion h
  next =>
    have hW1rck : (refRun (f0 + 2) k s).rc k = some (n + 1) := by
      rw [refRun_link f0 k p s hkp hpp]
      show mapSet (mapSet s.rc k (incWrap ((s.rc k).getD 0))) p
        (incWrap ((s.rc p).getD 0)) k = some (n + 1)
      rw [mapSet_ne _ _ _ _ hkpne, mapSet_self, hk]
      rw [show incWrap ((some n).getD 0) = incWrap n from rfl, incWrap_small n (by omega)]
    have hW1rcp : (refRun (f0 + 2) k s).rc p = some (np + 1) := by
      rw [refRun_link f0 k p s hkp hpp]
      show mapSet (mapSet s.rc k (incWrap ((s.rc k).getD 0))) p
        (incWrap ((s.rc p).getD 0)) p = some (np + 1)
      rw [mapSet_self, hnp]
      rw [show incWrap ((some np).getD 0) = incWrap np from rfl, incWrap_small np (by omega)]
    have hW1park : (refRun (f0 + 2) k s).par k = some p := by
      rw [refRun_par]
      exact hkp
    have hW1parp : (refRun (f0 + 2) k s).par p = none := by
      rw [refRun_par]
      exact hpp
    cases hw : writeMemM (f0 + 2) (refRun (f0 + 2) k s) dst off
        ⟨k.1, k.2, false, 1, false⟩ true with
    | error e =>
      simp only [hw] at h
      exact Except.noConfusion h
    | ok g4 =>
      simp only [hw] at h
      simp only [Except.ok.injEq] at h
      have hg4 : g4 = refRun (f0 + 2) k s := by
        unfold writeMemM at hw
        rw [hes, hvar] at hw
        cases hptr : ptrFn (refRun (f0 + 2) k s) dst with
        | error e =>
          simp only [hptr] at hw
          exact Except.noConfusion hw
        | ok oa =>
          cases oa with
          | none =>
            simp only [hptr] at hw
            exact Except.noConfusion hw
          | some aa =>
            simp only [hptr] at hw
            cases hri : reinterpretM (f0 + 2) (refRun (f0 + 2) k s)
                ⟨k.1, k.2, false, 1, false⟩ 1 false with
            | error e =>
              simp only [hri] at hw
              repeat' split at hw
              all_goals exact Except.noConfusion hw
            | ok pr =>
              obtain ⟨sub, s2x⟩ := pr
              simp only [hri] at hw
              obtain ⟨hsub, hs2x⟩ := reinterpret_es1 (f0 + 2) _ _ sub s2x hri
              repeat' split at hw
              all_goals try exact Except.noConfusion hw
              all_goals injection hw with hw2
              all_goals rw [← hw2, hsub, hs2x]
              all_goals exact refRun_deref_link_round f0 _ k p (n + 1) (np + 1) hW1rck hW1park hW1rcp hW1parp (by omega) (by omega) (by omega) (by omega)
      rw [hg4] at h
      rw [← h]
      exact refRun_deref_link_round f0 s k p n np hk hkp hnp hpp h1 (by omega) hq1 (by omega)

theorem refRun_rc_self_root (f : Nat) (k : Key) (s : Mgr) (hf1 : 1 ≤ f)
    (h : s.par k = none) : (refRun f k s).rc k ≠ none := by
  obtain ⟨f0, rfl⟩ : ∃ f0, f = f0 + 1 := ⟨f - 1, by omega⟩
  rw [refRun_root f0 k s h]
  show mapSet s.rc k (incWrap ((s.rc k).getD 0)) k ≠ none
  rw [mapSet_self]
  intro hx
  exact Option.noConfusion hx

theorem regchild_rc_ck (f : Nat) (X : Mgr) (R ck : Key) (hf2 : 2 ≤ f) (hne : R ≠ ck)
    (hpar : X.par ck = none) (hroot : X.par R = none) (hck : X.rc ck = none) :
    (refRun f ck (relationship R ck X)).rc ck = some 1 := by
  obtain ⟨f2, rfl⟩ : ∃ f2, f = f2 + 2 := ⟨f - 2, by omega⟩
  rw [regchild_fresh f2 X R ck hne hpar hroot]
  show mapSet (mapSet X.rc ck (incWrap ((X.rc ck).getD 0))) R
    (incWrap ((X.rc R).getD 0)) ck = some 1
  rw [mapSet_ne _ _ _ _ (Ne.symm hne), mapSet_self, hck]
  rw [show incWrap ((none : Option Nat).getD 0) = 1 from rfl]

theorem regchild_rc_R (f : Nat) (X : Mgr) (R ck : Key) (n : Nat) (hf2 : 2 ≤ f)
    (hne : R ≠ ck) (hpar : X.par ck = none) (hroot : X.par R = none)
    (hn : X.rc R = some n) (hlt : n + 1 < two64) :
    (refRun f ck (relationship R ck X)).rc R = some (n + 1) := by
  obtain ⟨f2, rfl⟩ : ∃ f2, f = f2 + 2 := ⟨f - 2, by omega⟩
  rw [regchild_fresh f2 X R ck hne hpar hroot]
  show mapSet (mapSet X.rc ck (incWrap ((X.rc ck).getD 0))) R
    (incWrap ((X.rc R).getD 0)) R = some (n + 1)
  rw [mapSet_self, hn]
  rw [show incWrap ((some n).getD 0) = incWrap n from rfl, incWrap_small n hlt]

theorem regself_rc (f : Nat) (X : Mgr) (R : Key) (n : Nat) (hf1 : 1 ≤ f)
    (hroot : X.par R = none) (hn : X.rc R = some n) (hlt : n + 1 < two64) :
    (refRun f R (relationship R R X)).rc R = some (n + 1) := by
  obtain ⟨f1, rfl⟩ : ∃ f1, f = f1 + 1 := ⟨f - 1, by omega⟩
  rw [regchild_self f1 X R hroot]
  show mapSet X.rc R (incWrap ((X.rc R).getD 0)) R = some (n + 1)
  rw [mapSet_self, hn]
  rw [show incWrap ((some n).getD 0) = incWrap n from rfl, incWrap_small n hlt]

theorem splitOff_gone (f a1 a2 t : Nat) (s : Mgr) (m : Mem) (mid : Nat)
    (ks : List Key) (v : Key) (c : Nat) (mm : Mem × Mem) (g2 : Mgr)
    (hes : m.elemSize = 1) (hvar : m.variadic = false) (halloc : m.allocated = true)
    (hEC : EdgeConsistent s) (hDup : ChlDupFree s) (hroot : s.par m.key = none)
    (hnd : (m.key :: ks).Nodup) (hpres : AllPresent s (m.key :: ks))
    (hch : ChainFrom s m.key ks) (hv : v ∈ ks) (hf : ks.length + 2 ≤ f)
    (hcnt : s.rc m.key = some c) (hc1 : 1 ≤ c) (hclt : c + 4 < two64)
    (hfa1 : AddrFresh s a1) (hfa2 : AddrFresh s a2) (hft : AddrFresh s t)
    (hlf : Fresh2 s (m.addr, mid))
    (hrk : (m.addr + mid, m.msize - mid) = m.key ∨ Fresh2 s (m.addr + mid, m.msize - mid))
    (ha1m : a1 ≠ m.addr) (ha1r : a1 ≠ m.addr + mid)
    (hrun : splitOffM f a1 a2 t s m mid = Except.ok (mm, g2)) : g2.rc v = none := by
  have hkslen : 1 ≤ ks.length := List.length_pos.mpr (List.ne_nil_of_mem hv)
  have hvpres : s.rc v ≠ none := hpres v (List.mem_cons_of_mem _ hv)
  have hmpres : s.rc m.key ≠ none := hpres m.key (List.mem_cons_self _ _)
  unfold splitOffM at hrun
  simp only [throwIf_alloc m halloc, hes, hvar, Nat.mul_one, Nat.div_one] at hrun
  cases hsp : splitAtM f s m mid false with
  | error e =>
    simp only [hsp] at hrun
    exact Except.noConfusion hrun
  | ok pr =>
    obtain ⟨lr, gS⟩ := pr
    obtain ⟨l, r⟩ := lr
    simp only [hsp] at hrun
    obtain ⟨hl, hr, hgS, hmidlt⟩ := splitAt_es1 f s m mid l r gS hes hvar hsp
    subst hr
    have hm_lneq : m.key ≠ (m.addr, mid) := by
      intro he
      rw [← he] at hlf
      exact hmpres hlf.1.1
    have hrl : (m.addr + mid, m.msize - mid) ≠ (m.addr, mid) := by
      intro he
      rw [Prod.mk.injEq] at he
      omega
    have hbL := regchild_bundle f s m.key (m.addr, mid) (by omega) hm_lneq hEC hDup
      hroot hlf.1.2.1
    obtain ⟨hLEC, hLDup, hLroot, hLparo, hLparck, hLrco, hLrcck, hLrcR, hLmem, hLsup⟩ := hbL
    have hGLmk : (refRun f (m.addr, mid) (relationship m.key (m.addr, mid) s)).rc m.key
        = some (c + 1) :=
      regchild_rc_R f s m.key (m.addr, mid) c (by omega) hm_lneq hlf.1.2.1 hroot hcnt
        (by omega)
    have hfacts : EdgeConsistent gS ∧ ChlDupFree gS ∧ gS.par m.key = none ∧
        AllPresent gS (m.key :: ks) ∧ ChainFrom gS m.key ks ∧
        (∀ α : Nat, AddrFresh s α → ∀ sz2, gS.par (α, sz2) = none ∨
          (ChainLink gS m.key (α, sz2) ∧ gS.rc (α, sz2) ≠ none)) ∧
        (∀ sz2, gS.par (a1, sz2) = none) ∧
        gS.rc m.key = some (c + 2) ∧
        ((m.addr + mid, m.msize - mid) = m.key ∨
          (gS.par (m.addr + mid, m.msize - mid) = some m.key ∧
            gS.rc (m.addr + mid, m.msize - mid) = some 1)) := by
      rcases hrk with hrkm | hrkf
      · rw [hrkm] at hgS
        have hbS := regself_bundle f
          (refRun f (m.addr, mid) (relationship m.key (m.addr, mid) s)) m.key
          (by omega) hLroot
        have hbSrc := regself_rc f
          (refRun f (m.addr, mid) (relationship m.key (m.addr, mid) s)) m.key (c + 1)
          (by omega) hLroot hGLmk (by omega)
        rw [← hgS] at hbS hbSrc
        obtain ⟨hSpar, hSchl, hSrco, hSrcR⟩ := hbS
        have hchl2 : ∀ x, childrenOf gS x = childrenOf
            (refRun f (m.addr, mid) (relationship m.key (m.addr, mid) s)) x := by
          intro x
          unfold childrenOf
          rw [hSchl]
        refine ⟨EC_congr _ gS hSpar hSchl hLEC, Dup_congr _ gS hSchl hLDup,
          by rw [hSpar]; exact hLroot, ?_, ?_, ?_, ?_, hbSrc, Or.inl hrkm⟩
        · intro x hx
          by_cases hxm : x = m.key
          · rw [hxm, hbSrc]
            intro hq
            exact Option.noConfusion hq
          · have hxl : x ≠ (m.addr, mid) := by
              intro he
              have hxp := hpres x hx
              rw [he] at hxp
              exact hxp hlf.1.1
            rw [hSrco x hxm, hLrco x hxl hxm]
            exact hpres x hx
        · refine chainFrom_mono s gS ?_ ?_ ks m.key hch
          · intro x p hxp
            have hxl : x ≠ (m.addr, mid) := by
              intro he
              rw [he, hlf.1.2.1] at hxp
              exact Option.noConfusion hxp
            rw [hSpar, hLparo x hxl]
            exact hxp
          · intro p x hx
            rw [hchl2]
            exact hLsup p x hx
        · intro α hfr2 sz2
          by_cases hel : (α, sz2) = (m.addr, mid)
          · right
            rw [hel]
            refine ⟨⟨?_, ?_⟩, ?_⟩
            · rw [hSpar]; exact hLparck
            · rw [hchl2]; exact hLmem
            · rw [hSrco _ (Ne.symm hm_lneq)]
              exact hLrcck
          · left
            rw [hSpar, hLparo _ hel]
            exact (hfr2 sz2).1.2.1
        · intro sz2
          have hel : (a1, sz2) ≠ (m.addr, mid) := by
            intro he
            rw [Prod.mk.injEq] at he
            exact ha1m he.1
          rw [hSpar, hLparo _ hel]
          exact (hfa1 sz2).1.2.1
      · have hm_rneq : m.key ≠ (m.addr + mid, m.msize - mid) := by
          intro he
          rw [← he] at hrkf
          exact hmpres hrkf.1.1
        have hGLparr : (refRun f (m.addr, mid)
            (relationship m.key (m.addr, mid) s)).par (m.addr + mid, m.msize - mid)
            = none := by
          rw [hLparo _ hrl]
          exact hrkf.1.2.1
        have hGLrcr : (refRun f (m.addr, mid)
            (relationship m.key (m.addr, mid) s)).rc (m.addr + mid, m.msize - mid)
            = none := by
          rw [hLrco _ hrl (Ne.symm hm_rneq)]
          exact hrkf.1.1
        have hbR := regchild_bundle f
          (refRun f (m.addr, mid) (relationship m.key (m.addr, mid) s)) m.key
          (m.addr + mid, m.msize - mid) (by omega) hm_rneq hLEC hLDup hLroot hGLparr
        have hbRrc1 := regchild_rc_ck f
          (refRun f (m.addr, mid) (relationship m.key (m.addr, mid) s)) m.key
          (m.addr + mid, m.msize - mid) (by omega) hm_rneq hGLparr hLroot hGLrcr
        have hbRrcR := regchild_rc_R f
          (refRun f (m.addr, mid) (relationship m.key (m.addr, mid) s)) m.key
          (m.addr + mid, m.msize - mid) (c + 1) (by omega) hm_rneq hGLparr hLroot hGLmk
          (by omega)
        rw [← hgS] at hbR hbRrc1 hbRrcR
        obtain ⟨hREC, hRDup, hRroot, hRparo, hRparck, hRrco, hRrcck, hRrcR, hRmem,
          hRsup⟩ := hbR
        refine ⟨hREC, hRDup, hRroot, ?_, ?_, ?_, ?_, hbRrcR, Or.inr ⟨hRparck, hbRrc1⟩⟩
        · intro x hx
          by_cases hxm : x = m.key
          · rw [hxm, hbRrcR]
            intro hq
            exact Option.noConfusion hq
          · have hxl : x ≠ (m.addr, mid) := by
              intro he
              have hxp := hpres x hx
              rw [he] at hxp
              exact hxp hlf.1.1
            have hxr : x ≠ (m.addr + mid, m.msize - mid) := by
              intro he
              have hxp := hpres x hx
              rw [he] at hxp
              exact hxp hrkf.1.1
            rw [hRrco x hxr hxm, hLrco x hxl hxm]
            exact hpres x hx
        · refine chainFrom_mono s gS ?_ ?_ ks m.key hch
          · intro x p hxp
            have hxl : x ≠ (m.addr, mid) := by
              intro he
              rw [he, hlf.1.2.1] at hxp
              exact Option.noConfusion hxp
            have hxr : x ≠ (m.addr + mid, m.msize - mid) := by
              intro he
              rw [he, hrkf.1.2.1] at hxp
              exact Option.noConfusion hxp
            rw [hRparo x hxr, hLparo x hxl]
            exact hxp
          · intro p x hx
            exact hRsup p x (hLsup p x hx)
        · intro α hfr2 sz2
          by_cases hel : (α, sz2) = (m.addr, mid)
          · right
            rw [hel]
            refine ⟨⟨?_, ?_⟩, ?_⟩
            · rw [hRparo _ (Ne.symm hrl)]
              exact hLparck
            · exact hRsup m.key _ hLmem
            · rw [hRrco _ (Ne.symm hrl) (Ne.symm hm_lneq)]
              exact hLrcck
          · by_cases her : (α, sz2) = (m.addr + mid, m.msize - mid)
            · right
              rw [her]
              exact ⟨⟨hRparck, hRmem⟩, hRrcck⟩
            · left
              rw [hRparo _ her, hLparo _ hel]
              exact (hfr2 sz2).1.2.1
        · intro sz2
          have hel : (a1, sz2) ≠ (m.addr, mid) := by
            intro he
            rw [Prod.mk.injEq] at he
            exact ha1m he.1
          have her : (a1, sz2) ≠ (m.addr + mid, m.msize - mid) := by
            intro he
            rw [Prod.mk.injEq] at he
            exact ha1r he.1
          rw [hRparo _ her, hLparo _ hel]
          exact (hfa1 sz2).1.2.1
    obtain ⟨hECS, hDupS, hrootS, hpresS, hchS, hdichS, hpa1S, hmkS, hrckS⟩ := hfacts
    cases hptr : ptrFn gS ⟨m.addr + mid, m.msize - mid, false, 1, false⟩ with
    | error e =>
      simp only [hptr] at hrun
      exact Except.noConfusion hrun
    | ok oa =>
      cases oa with
      | none =>
        simp only [hptr] at hrun
        exact Except.noConfusion hrun
      | some rp =>
        simp only [hptr] at hrun
        obtain ⟨hrp, hr0⟩ := ptrFn_some gS _ rp hptr
        subst hrp
        rw [allocateM_unalloc_eq f a1 gS ⟨0, 0, false, 1, false⟩
          ((⟨m.addr + mid, m.msize - mid, false, 1, false⟩ : Mem).msize) true rfl] at hrun
        rw [if_pos rfl] at hrun
        split at hrun
        next => simp at hrun
        next am ag heq1 =>
          split at hrun
          next => simp at hrun
          next g3 heq2 =>
            split at hrun
            next => simp at hrun
            next m2a g4 heq3 =>
              injection hrun with h2
              rw [Prod.mk.injEq] at h2
              rw [← h2.2]
              refine run_rc_none f _ _ v (run_rc_none f _ _ v ?_)
              repeat' split at heq1
              all_goals first
              | exact Except.noConfusion heq1
              | (injection heq1 with h3
                 rw [Prod.mk.injEq] at h3
                 have hesam : am.elemSize = 1 := (congrArg Mem.elemSize h3.1).symm
                 have hvaram : am.variadic = false := (congrArg Mem.variadic h3.1).symm
                 have hag_par : ag.par = gS.par := by rw [← h3.2, refRun_par]
                 have hag_chl : ag.chl = gS.chl := by rw [← h3.2, refRun_chl]
                 have hag_rco : ∀ x,
                     x ≠ (a1, (⟨m.addr + mid, m.msize - mid, false, 1, false⟩ : Mem).msize) →
                     ag.rc x = gS.rc x := by
                   intro x hx
                   rw [← h3.2, refRun_rc_other_root f _ gS x (hpa1S _) hx]
                 have hmk_ne : m.key ≠
                     (a1, (⟨m.addr + mid, m.msize - mid, false, 1, false⟩ : Mem).msize) := by
                   intro he
                   rw [Prod.mk.injEq] at he
                   exact ha1m he.1.symm
                 have hg3 : g3 = ag := by
                   rcases hrckS with hrkm | ⟨hparK, hrc1⟩
                   · refine writePtr_live_root f ag am 0 _ (c + 2) (by omega) hesam hvaram
                       ?_ ?_ (by omega) (by omega) g3 heq2
                     · show ag.rc (m.addr + mid, m.msize - mid) = some (c + 2)
                       rw [hrkm, hag_rco m.key hmk_ne]
                       exact hmkS
                     · show ag.par (m.addr + mid, m.msize - mid) = none
                       rw [hrkm, hag_par]
                       exact hrootS
                   · have hrk_ne : (m.addr + mid, m.msize - mid) ≠
                         (a1, (⟨m.addr + mid, m.msize - mid, false, 1, false⟩ : Mem).msize) := by
                       intro he
                       rw [Prod.mk.injEq] at he
                       exact ha1r he.1.symm
                     refine writePtr_live_link f ag am 0 _ m.key 1 (c + 2) (by omega)
                       hesam hvaram ?_ ?_ ?_ ?_ (by omega) (by omega) (by omega) (by omega)
                       g3 heq2
                     · show ag.rc (m.addr + mid, m.msize - mid) = some 1
                       rw [hag_rco _ hrk_ne]
                       exact hrc1
                     · show ag.par (m.addr + mid, m.msize - mid) = some m.key
                       rw [hag_par]
                       exact hparK
                     · rw [hag_rco m.key hmk_ne]
                       exact hmkS
                     · rw [hag_par]
                       exact hrootS
                 rw [hg3] at heq3
                 have hres := resize_core f a2 t mid false ag m ks v m2a g4 hes hvar halloc
                   (EC_congr gS ag hag_par hag_chl hECS)
                   (Dup_congr gS ag hag_chl hDupS)
                   (by rw [hag_par]; exact hrootS)
                   hnd
                   (fun x hx => by
                     rw [hag_rco x (addrFresh_ne s a1 x hfa1 (hpres x hx) _)]
                     exact hpresS x hx)
                   (chainFrom_congr gS ag hag_par
                     (fun x => by unfold childrenOf; rw [hag_chl]) ks m.key hchS)
                   hv (by omega)
                   (fun sz2 => by
                     rcases hdichS a2 hfa2 sz2 with hq | ⟨⟨hq1, hq2⟩, hq3⟩
                     · exact Or.inl (by rw [hag_par]; exact hq)
                     · refine Or.inr ⟨⟨by rw [hag_par]; exact hq1, ?_⟩, ?_⟩
                       · show (a2, sz2) ∈ (ag.chl m.key).getD []
                         rw [hag_chl]
                         exact hq2
                       · by_cases he : (a2, sz2) =
                             (a1, (⟨m.addr + mid, m.msize - mid, false, 1, false⟩ : Mem).msize)
                         · rw [he, ← h3.2]
                           exact refRun_rc_self_root f _ gS (by omega) (hpa1S _)
                         · rw [hag_rco _ he]
                           exact hq3)
                   (fun sz2 => by
                     rcases hdichS t hft sz2 with hq | ⟨⟨hq1, hq2⟩, hq3⟩
                     · exact Or.inl (by rw [hag_par]; exact hq)
                     · refine Or.inr ⟨⟨by rw [hag_par]; exact hq1, ?_⟩, ?_⟩
                       · show (t, sz2) ∈ (ag.chl m.key).getD []
                         rw [hag_chl]
                         exact hq2
                       · by_cases he : (t, sz2) =
                             (a1, (⟨m.addr + mid, m.msize - mid, false, 1, false⟩ : Mem).msize)
                         · rw [he, ← h3.2]
                           exact refRun_rc_self_root f _ gS (by omega) (hpa1S _)
                         · rw [hag_rco _ he]
                           exact hq3)
                   (addrFresh_ne s a2 v hfa2 hvpres)
                   (addrFresh_ne s t v hft hvpres)
                   heq3
                 exact hres.1)

/-- C1: For every owned byte region `R` (non-variadic, element size 1,
allocated, a root of the tracker forest) with a registered descendant
chain `ks` that contains the key of a sub-view `V`, after any operation
on `R` that reallocates or frees the backing allocation — `deallocate`,
`clear`, `reallocate`, `resize`, `append`, `insert`, `erase`,
`split_off` — completes successfully (with fresh allocator and
temporary-buffer addresses per `OpSide`, a well-formed tracker and
enough fuel), every subsequent access through `V` raises the
dangling-view error (`InvalidPointerException`, carrying `V`'s address
and size), and the access does not touch the backing memory: the same
error is returned for every heap. -/
theorem views_dangle_after_realloc (fuel : Nat) (g : Mgr) (m V : Mem) (ks : List Key)
    (op : RegionOp) (m2 : Mem) (g2 : Mgr)
    (hes : m.elemSize = 1) (hvar : m.variadic = false) (halloc : m.allocated = true)
    (hEC : EdgeConsistent g) (hDup : ChlDupFree g) (hroot : g.par m.key = none)
    (hnd : (m.key :: ks).Nodup) (hpres : AllPresent g (m.key :: ks))
    (hch : ChainFrom g m.key ks) (hVk : V.key ∈ ks) (hVa : V.addr ≠ 0)
    (hcnt : ∃ c, g.rc m.key = some c ∧ 1 ≤ c ∧ c + 4 < two64)
    (hside : OpSide g m ks op)
    (hfuel : ks.length + 2 ≤ fuel)
    (hrun : runOp fuel g m op = Except.ok (m2, g2)) :
    ∀ (heap : Nat → Nat) (i : Nat),
      getFn g2 heap V i = Except.error (Err.invalidPointer V.addr V.msize) := by
  intro heap i
  refine dangling_get g2 heap V i ?_ hVa
  obtain ⟨c, hcnt, hc1, hclt⟩ := hcnt
  have hVpres : g.rc V.key ≠ none := hpres V.key (List.mem_cons_of_mem _ hVk)
  cases op with
  | deallocateOp =>
    exact dealloc_gone fuel g m ks V.key m2 g2 halloc hEC hDup hroot hnd hpres hch hVk
      (by omega) hrun
  | clearOp =>
    exact clear_gone fuel g m ks V.key m2 g2 halloc hEC hDup hroot hnd hpres hch hVk
      (by omega) hrun
  | reallocateOp size inB a t =>
    exact (realloc_core fuel a t size inB g m ks V.key m2 g2 hes hvar halloc hEC hDup
      hroot hnd hpres hch hVk (by omega)
      (fun sz => Or.inl (addrFresh_par g a hside.1 sz))
      (fun sz => Or.inl (addrFresh_par g t hside.2 sz))
      (addrFresh_ne g a V.key hside.1 hVpres)
      (addrFresh_ne g t V.key hside.2 hVpres) hrun).1
  | resizeOp size inB a t =>
    exact (resize_core fuel a t size inB g m ks V.key m2 g2 hes hvar halloc hEC hDup
      hroot hnd hpres hch hVk (by omega)
      (fun sz => Or.inl (addrFresh_par g a hside.1 sz))
      (fun sz => Or.inl (addrFresh_par g t hside.2 sz))
      (addrFresh_ne g a V.key hside.1 hVpres)
      (addrFresh_ne g t V.key hside.2 hVpres) hrun).1
  | appendOp d a t =>
    exact append_gone fuel a t g m d ks V.key m2 g2 hes hvar halloc hEC hDup hroot hnd
      hpres hch hVk (by omega) hside.1 hside.2.1 hside.2.2.1 hside.2.2.2 hrun
  | insertOp off offInBytes d a t1 t2 =>
    exact insert_gone fuel a t1 t2 g m d off offInBytes ks V.key m2 g2 hes hvar halloc
      hEC hDup hroot hnd hpres hch hVk (by omega) hside.1 hside.2.1 hside.2.2.1
      hside.2.2.2.1 hside.2.2.2.2.1 hside.2.2.2.2.2.1 hside.2.2.2.2.2.2 hrun
  | eraseOp start stop inB a t1 t2 =>
    exact erase_gone fuel a t1 t2 g m start stop inB ks V.key c m2 g2 hes hvar halloc
      hEC hDup hroot hnd hpres hch hVk (by omega) hcnt hc1 hclt hside.1 hside.2.1
      hside.2.2.1 hside.2.2.2 hrun
  | splitOffOp mid a1 a2 t =>
    obtain ⟨hA1, hA2, hAt, hlf, hrk, ha1m, ha1r⟩ := hside
    unfold runOp at hrun
    cases hso : splitOffM fuel a1 a2 t g m mid with
    | error e =>
      simp only [hso] at hrun
      exact Except.noConfusion hrun
    | ok pr =>
      obtain ⟨mm, gx⟩ := pr
      obtain ⟨m2x, smx⟩ := mm
      simp only [hso] at hrun
      injection hrun with h2
      rw [Prod.mk.injEq] at h2
      rw [← h2.2]
      exact splitOff_gone fuel a1 a2 t g m mid ks V.key c (m2x, smx) gx hes hvar halloc
        hEC hDup hroot hnd hpres hch hVk (by omega) hcnt hc1 hclt hA1 hA2 hAt hlf hrk
        ha1m ha1r hso

/-- Witness for C1: deallocating the concrete owned region `c1m` (key
`(100, 16)`, count 1) from the tracker `c1g` that registers `c1v` (key
`(100, 4)`) as its sub-view makes a subsequent `get` through `c1v`
fail with the dangling-view error. -/
theorem views_dangle_after_realloc_witness :
    ∃ g2 : Mgr, runOp 3 c1g c1m RegionOp.deallocateOp =
        Except.ok (⟨0, 0, false, 1, false⟩, g2) ∧
      getFn g2 (fun _ => 0) c1v 0 =
        Except.error (Err.invalidPointer c1v.addr c1v.msize) := by
  refine ⟨mgrRun 3 (MCall.inval c1m.key false) c1g, rfl, ?_⟩
  have hEC0 : EdgeConsistent c1g := by
    intro p l hl x hx
    have hl2 : (if p = ((100 : Nat), (16 : Nat)) then some [((100 : Nat), (4 : Nat))]
        else none) = some l := hl
    by_cases hp : p = ((100 : Nat), (16 : Nat))
    · rw [if_pos hp] at hl2
      have hleq : l = [((100 : Nat), (4 : Nat))] := (Option.some.inj hl2).symm
      rw [hleq, List.mem_singleton] at hx
      show (if x = ((100 : Nat), (4 : Nat)) then some ((100 : Nat), (16 : Nat)) else none)
        = some p
      rw [if_pos hx, hp]
    · rw [if_neg hp] at hl2
      exact Option.noConfusion hl2
  have hDup0 : ChlDupFree c1g := by
    intro p l hl
    have hl2 : (if p = ((100 : Nat), (16 : Nat)) then some [((100 : Nat), (4 : Nat))]
        else none) = some l := hl
    by_cases hp : p = ((100 : Nat), (16 : Nat))
    · rw [if_pos hp] at hl2
      rw [← Option.some.inj hl2]
      exact List.nodup_singleton _
    · rw [if_neg hp] at hl2
      exact Option.noConfusion hl2
  have hpres0 : AllPresent c1g (c1m.key :: [(100, 4)]) := by
    intro k hk
    rcases List.mem_cons.mp hk with h | h
    · rw [h]
      decide
    · rw [List.mem_singleton] at h
      rw [h]
      decide
  exact views_dangle_after_realloc 3 c1g c1m c1v [(100, 4)] RegionOp.deallocateOp
    ⟨0, 0, false, 1, false⟩ (mgrRun 3 (MCall.inval c1m.key false) c1g)
    rfl rfl rfl hEC0 hDup0 rfl (by decide) hpres0
    ⟨⟨rfl, by decide⟩, trivial⟩ (by decide) (by decide)
    ⟨1, rfl, by decide, by decide⟩ trivial (by decide) rfl (fun _ => 0) 0

end Yapp
